import Mathlib

/-!
Verification of the ProTasker data-mutation core, markdown renderer and
JSON import/export, shallowly embedded from src/src/pro-tasker.jsx.

JavaScript objects holding cards are modelled as association lists
(insertion order preserved; updating an existing key keeps its position,
a fresh key is appended, matching JS spread semantics).  Card objects are
open records in JS, so every field of the embedded card object is
optional: an absent field is none.
-/

namespace ProTasker

/-! ## Association-list model of a JS object -/

/-- Lookup of a key in a JS object, first matching key wins. -/
def getKey {α : Type} : List (String × α) → String → Option α
  | [], _ => none
  | (k', v) :: rest, k => if k' = k then some v else getKey rest k

/-- JS spread update of one key: an existing key keeps its position and
gets the new value, a fresh key is appended at the end. -/
def setKey {α : Type} : List (String × α) → String → α → List (String × α)
  | [], k, v => [(k, v)]
  | (k', v') :: rest, k, v =>
    if k' = k then (k', v) :: rest else (k', v') :: setKey rest k v

/-! ## Data model -/

/-- Fields supplied by the caller of addCard (the source passes
title, body, assignee and priority from the Board component). -/
structure CardFields where
  title : String
  body : String
  assignee : Option String
  priority : Int
  deriving DecidableEq, Repr

/-- A card object as stored in the board's cards map.  JS objects are
open records; a field may be absent (none).  assignee distinguishes
absent (outer none) from present-but-null (some none). -/
structure CardObj where
  id : Option String := none
  title : Option String := none
  body : Option String := none
  assignee : Option (Option String) := none
  priority : Option Int := none
  deriving DecidableEq, Repr

structure Column where
  id : String
  title : String
  cardIds : List String
  deriving DecidableEq, Repr

structure Board where
  columns : List Column
  cards : List (String × CardObj)
  deriving DecidableEq, Repr

structure Project where
  id : String
  title : String
  description : String
  image : Option String
  tags : List String
  board : Board
  deriving DecidableEq, Repr

structure Meta where
  createdAt : Int
  name : String
  deriving DecidableEq, Repr

structure User where
  id : String
  name : String
  role : String
  avatarColor : String
  deriving DecidableEq, Repr

structure Workspace where
  meta : Meta
  users : List User
  projects : List Project
  deriving DecidableEq, Repr

/-- The full card object built by addCard: an id field followed by the
caller's fields, all present. -/
def mkCardObj (cardId : String) (f : CardFields) : CardObj :=
  { id := some cardId
    title := some f.title
    body := some f.body
    assignee := some f.assignee
    priority := some f.priority }

/-! ## Mutation operations (from the source) -/

/-- The default project created by createProject; its freshly generated
uid is passed in explicitly (the source draws it from Math.random). -/
def newProject (newId : String) : Project :=
  { id := newId
    title := "New Project"
    description := "Describe this project. Use markdown!"
    image := none
    tags := []
    board :=
      { columns :=
          [ { id := "todo", title := "To Do", cardIds := [] }
          , { id := "inprogress", title := "In Progress", cardIds := [] }
          , { id := "done", title := "Done", cardIds := [] } ]
        cards := [] } }

/-- createProject prepends the new default project. -/
def createProject (newId : String) (ws : Workspace) : Workspace :=
  { ws with projects := newProject newId :: ws.projects }

/-- The column rewrite performed by addCard: prepend the generated id to
the column matching columnId. -/
def addToColumns (columnId cardId : String) (cols : List Column) : List Column :=
  cols.map fun col =>
    if col.id = columnId then { col with cardIds := cardId :: col.cardIds } else col

/-- The board rewrite performed by addCard. -/
def addCardBoard (columnId cardId : String) (card : CardFields) (b : Board) : Board :=
  { columns := addToColumns columnId cardId b.columns
    cards := setKey b.cards cardId (mkCardObj cardId card) }

/-- addCard from the source: on every project matching projectId, prepend
the generated id to the matching column and insert the card object into
the cards map. -/
def addCard (projectId columnId cardId : String) (card : CardFields)
    (ws : Workspace) : Workspace :=
  { ws with
    projects := ws.projects.map fun p =>
      if p.id = projectId then
        { p with board := addCardBoard columnId cardId card p.board }
      else p }

/-- Array.prototype.splice index clamping: a negative index counts from
the end (floored at 0), an index past the end appends. -/
def spliceIndex (len : Nat) (i : Int) : Nat :=
  if i < 0 then (len + i).toNat else min i.toNat len

/-- newArr.splice(toIndex, 0, cardId): insert one element at the clamped
index. -/
def spliceInsert (l : List String) (i : Int) (x : String) : List String :=
  l.take (spliceIndex l.length i) ++ x :: l.drop (spliceIndex l.length i)

/-- The column rewrite performed by moveCard: filter cardId out of the
column matching fromColId, splice it into the column matching toColId;
the fromColId branch is checked first, so fromColId = toColId only
filters. -/
def moveInColumns (fromColId toColId cardId : String) (toIndex : Int)
    (cols : List Column) : List Column :=
  cols.map fun col =>
    if col.id = fromColId then
      { col with cardIds := col.cardIds.filter (fun i => i ≠ cardId) }
    else if col.id = toColId then
      { col with cardIds := spliceInsert col.cardIds toIndex cardId }
    else col

/-- The board rewrite performed by moveCard (cards untouched). -/
def moveCardBoard (fromColId toColId cardId : String) (toIndex : Int)
    (b : Board) : Board :=
  { b with columns := moveInColumns fromColId toColId cardId toIndex b.columns }

/-- moveCard from the source: on every project matching projectId, filter
cardId out of the column matching fromColId, and splice it into the
column matching toColId (the fromColId branch is checked first). -/
def moveCard (projectId fromColId toColId cardId : String) (toIndex : Int)
    (ws : Workspace) : Workspace :=
  { ws with
    projects := ws.projects.map fun p =>
      if p.id = projectId then
        { p with board := moveCardBoard fromColId toColId cardId toIndex p.board }
      else p }

/-- Shallow merge of a patch into a possibly-absent card object:
spread of the old object (nothing when the key was absent) then the
patch, field by field. -/
def mergeCard (orig : Option CardObj) (patch : CardObj) : CardObj :=
  let base := orig.getD {}
  { id := patch.id.orElse fun _ => base.id
    title := patch.title.orElse fun _ => base.title
    body := patch.body.orElse fun _ => base.body
    assignee := patch.assignee.orElse fun _ => base.assignee
    priority := patch.priority.orElse fun _ => base.priority }

/-- The board rewrite performed by updateCard. -/
def updateCardBoard (cardId : String) (patch : CardObj) (b : Board) : Board :=
  { b with
    cards := setKey b.cards cardId (mergeCard (getKey b.cards cardId) patch) }

/-- updateCard from the source: cards[cardId] := {...cards[cardId], ...patch}
on every project matching projectId. -/
def updateCard (projectId cardId : String) (patch : CardObj)
    (ws : Workspace) : Workspace :=
  { ws with
    projects := ws.projects.map fun p =>
      if p.id = projectId then
        { p with board := updateCardBoard cardId patch p.board }
      else p }

/-! ## The board invariant -/

/-- Total number of occurrences of a card id across all columns. -/
def colCount (cols : List Column) (cardId : String) : Nat :=
  (cols.map fun c => c.cardIds.count cardId).sum

/-- The invariant of section 3 of the spec: distinct column ids, every id
in every column's cardIds is a key of cards, and every key of cards
appears exactly once across the columns. -/
def boardInv (b : Board) : Bool :=
  decide ((b.columns.map Column.id).Nodup) &&
  b.columns.all (fun c => c.cardIds.all fun cid => (getKey b.cards cid).isSome) &&
  b.cards.all (fun kv => colCount b.columns kv.1 == 1)

/-- The workspace-level invariant: every project's board satisfies it. -/
def wsInv (ws : Workspace) : Bool :=
  ws.projects.all fun p => boardInv p.board

/-- Propositional form of the board invariant. -/
def BoardWf (b : Board) : Prop :=
  (b.columns.map Column.id).Nodup ∧
  (∀ c ∈ b.columns, ∀ cid ∈ c.cardIds, (getKey b.cards cid).isSome) ∧
  (∀ kv ∈ b.cards, colCount b.columns kv.1 = 1)

/-! ## Sequences of board operations -/

/-- One board operation of the kind quantified over by the spec's
invariant property; the generated card id of addCard is explicit. -/
inductive Op where
  | add (projectId columnId cardId : String) (card : CardFields)
  | move (projectId fromColId toColId cardId : String) (toIndex : Int)
  deriving DecidableEq, Repr

def applyOp (ws : Workspace) : Op → Workspace
  | .add pid colId cid card => addCard pid colId cid card ws
  | .move pid f t cid i => moveCard pid f t cid i ws

def applyOps (ws : Workspace) (ops : List Op) : Workspace :=
  ops.foldl applyOp ws

/-- Validity of one operation's arguments against the current state:
addCard needs an existing target column and a fresh generated id;
moveCard needs distinct existing source and target columns with the card
sitting in the source column.  Conditions are imposed on every project
the operation touches. -/
def validOp (ws : Workspace) : Op → Prop
  | .add pid colId cid _ => ∀ p ∈ ws.projects, p.id = pid →
      (∃ c ∈ p.board.columns, c.id = colId) ∧ getKey p.board.cards cid = none
  | .move pid f t cid _ => ∀ p ∈ ws.projects, p.id = pid →
      f ≠ t ∧ (∃ c ∈ p.board.columns, c.id = f ∧ cid ∈ c.cardIds) ∧
      (∃ c ∈ p.board.columns, c.id = t)

/-- A sequence of operations each of which is valid in the state it is
applied to. -/
inductive ValidSeq : Workspace → List Op → Prop
  | nil (ws : Workspace) : ValidSeq ws []
  | cons (ws : Workspace) (op : Op) (ops : List Op) :
      validOp ws op → ValidSeq (applyOp ws op) ops → ValidSeq ws (op :: ops)

/-! ## Concrete seed data (sampleSeed from the source) -/

/-- The project of sampleSeed from the source. -/
def seedProject : Project :=
  { id := "proj_1"
    title := "Website Redesign"
    description := "A modern responsive redesign for marketing site. Use components, accessibility, and performance improvements."
    image := none
    tags := ["frontend", "react", "design"]
    board :=
      { columns :=
          [ { id := "todo", title := "To Do", cardIds := ["c1", "c2"] }
          , { id := "inprogress", title := "In Progress", cardIds := ["c3"] }
          , { id := "done", title := "Done", cardIds := [] } ]
        cards :=
          [ ("c1", { id := some "c1", title := some "Landing hero",
                     body := some "Create a performant hero with LCP under 1.2s",
                     assignee := some (some "u_me"), priority := some 2 })
          , ("c2", { id := some "c2", title := some "Nav accessibility",
                     body := some "Ensure keyboard nav and ARIA roles.",
                     assignee := some none, priority := some 1 })
          , ("c3", { id := some "c3", title := some "Mobile css fixes",
                     body := some "Fix flexflow on small screens.",
                     assignee := some (some "u_me"), priority := some 3 }) ] } }

/-- sampleSeed from the source, with Date.now() passed in explicitly. -/
def sampleSeed (now : Int) : Workspace :=
  { meta := { createdAt := now, name := "TaskFlow — Demo Project" }
    users := [ { id := "u_me", name := "You", role := "owner", avatarColor := "#4f46e5" } ]
    projects := [seedProject] }

/-! ## Column-membership comparison (for the moveCard round trip) -/

/-- Same column membership: projects and columns correspond pointwise,
and corresponding columns hold the same set of card ids (order and
multiplicity ignored). -/
def SameMembership (ws ws' : Workspace) : Prop :=
  ws.projects.length = ws'.projects.length ∧
  ∀ pq ∈ List.zip ws.projects ws'.projects,
    pq.1.id = pq.2.id ∧
    pq.1.board.columns.length = pq.2.board.columns.length ∧
    ∀ cc ∈ List.zip pq.1.board.columns pq.2.board.columns,
      cc.1.id = cc.2.id ∧ (∀ x ∈ cc.1.cardIds, x ∈ cc.2.cardIds) ∧
      (∀ x ∈ cc.2.cardIds, x ∈ cc.1.cardIds)

/-- A workspace whose single project holds the card id x in a column but
not in the cards map (the invariant is already broken). -/
def wsOrphan : Workspace :=
  { meta := { createdAt := 0, name := "w" }
    users := []
    projects :=
      [ { id := "p", title := "t", description := "", image := none, tags := []
          board := { columns := [ { id := "todo", title := "To Do", cardIds := ["x"] } ]
                     cards := [] } } ] }

/-- A workspace whose single project holds c1 in both the todo and the
done column (the invariant is already broken). -/
def wsDup : Workspace :=
  { meta := { createdAt := 0, name := "w" }
    users := []
    projects :=
      [ { id := "p", title := "t", description := "", image := none, tags := []
          board :=
            { columns := [ { id := "todo", title := "To Do", cardIds := ["c1"] }
                         , { id := "done", title := "Done", cardIds := ["c1"] } ]
              cards := [ ("c1", { id := some "c1" }) ] } } ] }

/-! ## Markdown renderer (renderMarkdown from the source)

Each regex replacement pass of the source is embedded as a scanner over
the character list.  A global regex replace scans left to right: at each
position it attempts a match; on success it emits the replacement and
resumes after the match, on failure it copies one character and advances.
Fuel (bounded by the input length, each step consuming at least one
character) makes every scanner structurally recursive and computable. -/

/-- The backtick character. -/
def backtick : Char := Char.ofNat 96

/-- Three backticks, the fenced-code delimiter. -/
def tripleTick : List Char := [backtick, backtick, backtick]

/-- One replacement pass of a single-character pattern, as performed by
String.prototype.replace with a global one-character regex. -/
def replaceAllChar (c : Char) (r : List Char) : List Char → List Char
  | [] => []
  | x :: rest => (if x = c then r else [x]) ++ replaceAllChar c r rest

/-- escapeHtml from the source: replace ampersand, less-than and
greater-than, in this order, by their entities. -/
def escapeHtml (l : List Char) : List Char :=
  replaceAllChar '>' "&gt;".data
    (replaceAllChar '<' "&lt;".data
      (replaceAllChar '&' "&amp;".data l))

/-- Split a list at the first occurrence of the pattern: some (b, a) with
l = b ++ pat ++ a and no occurrence of pat beginning inside b. -/
def findSub (pat : List Char) : List Char → Option (List Char × List Char)
  | [] => if pat = [] then some ([], []) else none
  | c :: rest =>
    if pat.isPrefixOf (c :: rest) then some ([], (c :: rest).drop pat.length)
    else
      match findSub pat rest with
      | some (b, a) => some (c :: b, a)
      | none => none

/-- Opening markup of the fenced-code replacement (the source's template
literal starts and ends with a newline). -/
def preOpen : List Char :=
  ('\n' :: "<pre class=\"rounded p-2 bg-gray-900 text-white text-sm overflow-auto\"><code>".data)

/-- Closing markup of the fenced-code replacement. -/
def preClose : List Char := "</code></pre>".data ++ ['\n']

/-- Scanner for the fenced-code pass: the lazy pair regex pairs the first
opening triple backtick with the next one; with no closing delimiter no
match exists at or after the opener. -/
def codeBlockGo : Nat → List Char → List Char
  | 0, l => l
  | fuel + 1, l =>
    match findSub tripleTick l with
    | none => l
    | some (bef, rest) =>
      match findSub tripleTick rest with
      | none => l
      | some (code, aft) => bef ++ preOpen ++ code ++ preClose ++ codeBlockGo fuel aft

/-- The fenced-code pass. -/
def codeBlocks (l : List Char) : List Char := codeBlockGo l.length l

/-- Opening markup of the inline-code replacement. -/
def codeOpen : List Char := "<code class=\"rounded bg-gray-200 px-1\">".data

/-- Closing markup of the inline-code replacement. -/
def codeClose : List Char := "</code>".data

/-- Scanner for the inline-code pass: a backtick, one or more
non-backticks, a backtick. -/
def inlineCodeGo : Nat → List Char → List Char
  | 0, l => l
  | _ + 1, [] => []
  | fuel + 1, c :: rest =>
    if c = backtick then
      match rest.span (fun x => x ≠ backtick) with
      | (inner, r1) =>
        if inner ≠ [] ∧ r1 ≠ [] then
          codeOpen ++ inner ++ codeClose ++ inlineCodeGo fuel r1.tail
        else c :: inlineCodeGo fuel rest
    else c :: inlineCodeGo fuel rest

/-- The inline-code pass. -/
def inlineCode (l : List Char) : List Char := inlineCodeGo l.length l

/-- Split into lines at newline characters (the pieces carry no
newline; n newlines yield n+1 pieces). -/
def splitLines : List Char → List (List Char)
  | [] => [[]]
  | c :: rest =>
    match splitLines rest with
    | [] => []
    | hd :: tl => if c = '\n' then [] :: hd :: tl else (c :: hd) :: tl

/-- Rejoin lines with newline separators. -/
def joinLines : List (List Char) → List Char
  | [] => []
  | [l] => l
  | l :: ls => l ++ '\n' :: joinLines ls

/-- Heading markup, level 3. -/
def h3Open : List Char := "<h3 class=\"text-lg font-semibold\">".data

/-- Closing heading markup, level 3. -/
def h3Close : List Char := "</h3>".data

/-- Heading markup, level 2. -/
def h2Open : List Char := "<h2 class=\"text-xl font-bold\">".data

/-- Closing heading markup, level 2. -/
def h2Close : List Char := "</h2>".data

/-- Heading markup, level 1. -/
def h1Open : List Char := "<h1 class=\"text-2xl font-extrabold\">".data

/-- Closing heading markup, level 1. -/
def h1Close : List Char := "</h1>".data

/-- One heading pass: with the multiline flag the anchors make the regex
act per line; a line starting with the exact hash prefix (hashes then one
space, no leading whitespace allowed) is wrapped in the heading markup. -/
def headingPass (hashes openTag closeTag : List Char) (l : List Char) : List Char :=
  joinLines ((splitLines l).map fun line =>
    if hashes.isPrefixOf line then openTag ++ line.drop hashes.length ++ closeTag
    else line)

/-- The three heading passes of the source, most specific first. -/
def headings (l : List Char) : List Char :=
  headingPass "# ".data h1Open h1Close
    (headingPass "## ".data h2Open h2Close
      (headingPass "### ".data h3Open h3Close l))

/-- The per-line effect of the three heading passes combined: the most
specific prefix wins, a line with no hash-space prefix is unchanged. -/
def headingLine (line : List Char) : List Char :=
  if "### ".data.isPrefixOf line then h3Open ++ line.drop 4 ++ h3Close
  else if "## ".data.isPrefixOf line then h2Open ++ line.drop 3 ++ h2Close
  else if "# ".data.isPrefixOf line then h1Open ++ line.drop 2 ++ h1Close
  else line

/-- Scanner for the bold pass: two asterisks, a lazy dot-star (which
cannot cross a newline), two asterisks; on failure the scan advances one
character. -/
def boldGo : Nat → List Char → List Char
  | 0, l => l
  | _ + 1, [] => []
  | fuel + 1, c :: rest =>
    if ['*', '*'].isPrefixOf (c :: rest) then
      match findSub ['*', '*'] ((c :: rest).drop 2) with
      | some (inner, aft) =>
        if '\n' ∈ inner then c :: boldGo fuel rest
        else "<strong>".data ++ inner ++ "</strong>".data ++ boldGo fuel aft
      | none => c :: boldGo fuel rest
    else c :: boldGo fuel rest

/-- The bold pass. -/
def bold (l : List Char) : List Char := boldGo l.length l

/-- Scanner for the italic pass: one asterisk, a lazy dot-star (possibly
empty, not crossing a newline), one asterisk. -/
def italicGo : Nat → List Char → List Char
  | 0, l => l
  | _ + 1, [] => []
  | fuel + 1, c :: rest =>
    if c = '*' then
      match findSub ['*'] rest with
      | some (inner, aft) =>
        if '\n' ∈ inner then c :: italicGo fuel rest
        else "<em>".data ++ inner ++ "</em>".data ++ italicGo fuel aft
      | none => c :: italicGo fuel rest
    else c :: italicGo fuel rest

/-- The italic pass. -/
def italic (l : List Char) : List Char := italicGo l.length l

/-- Pieces of the link replacement markup. -/
def aOpen : List Char := "<a href=\"".data

/-- Middle piece of the link markup, between the url and the label. -/
def aMid : List Char := "\" target=\"_blank\" rel=\"noreferrer\" class=\"underline\">".data

/-- Closing piece of the link markup. -/
def aClose : List Char := "</a>".data

/-- Scanner for the link pass: bracketed nonempty label without a closing
bracket inside, parenthesised nonempty url without a closing parenthesis
inside. -/
def linkGo : Nat → List Char → List Char
  | 0, l => l
  | _ + 1, [] => []
  | fuel + 1, c :: rest =>
    if c = '[' then
      match rest.span (fun x => x ≠ ']') with
      | (label, r1) =>
        if label ≠ [] ∧ r1 ≠ [] then
          match r1.tail with
          | '(' :: r3 =>
            (match r3.span (fun x => x ≠ ')') with
             | (url, r4) =>
               if url ≠ [] ∧ r4 ≠ [] then
                 aOpen ++ url ++ aMid ++ label ++ aClose ++ linkGo fuel r4.tail
               else c :: linkGo fuel rest)
          | _ => c :: linkGo fuel rest
        else c :: linkGo fuel rest
    else c :: linkGo fuel rest

/-- The link pass. -/
def links (l : List Char) : List Char := linkGo l.length l

/-- The characters matched by the regex class backslash-s (the ASCII ones
and the no-break space; rarer Unicode space characters are not used by
any input considered here). -/
def isJsWs (c : Char) : Bool :=
  c = ' ' || c = '\t' || c = '\n' || c = '\r' ||
  c = Char.ofNat 11 || c = Char.ofNat 12 || c = Char.ofNat 160

/-- Opening markup of the list replacement. -/
def ulOpen : List Char := "<ul><li>".data

/-- Closing markup of the list replacement. -/
def ulClose : List Char := "</li></ul>".data

/-- Scanner for the unordered-list pass.  The pattern is: line start or a
newline, optional whitespace (which may swallow newlines), a dash, some
whitespace, then the rest of the line as the item.  The flag tracks
whether the current position is at the start of the text or right after a
newline (where the multiline caret matches without consuming, so the
leading whitespace run is dropped from the output). -/
def listGo : Nat → Bool → List Char → List Char
  | 0, _, l => l
  | _ + 1, _, [] => []
  | fuel + 1, bol, c :: rest =>
    if bol then
      match (c :: rest).span isJsWs with
      | (_, r1) =>
        match r1 with
        | '-' :: r2 =>
          (match r2.span isJsWs with
           | (w2, r3) =>
             if w2 ≠ [] then
               match r3.span (fun x => x ≠ '\n') with
               | (content, r4) => ulOpen ++ content ++ ulClose ++ listGo fuel false r4
             else c :: listGo fuel (c = '\n') rest)
        | _ => c :: listGo fuel (c = '\n') rest
    else if c = '\n' then
      match rest.span isJsWs with
      | (_, r1) =>
        match r1 with
        | '-' :: r2 =>
          (match r2.span isJsWs with
           | (w2, r3) =>
             if w2 ≠ [] then
               match r3.span (fun x => x ≠ '\n') with
               | (content, r4) =>
                 '\n' :: (ulOpen ++ content ++ ulClose ++ listGo fuel false r4)
             else c :: listGo fuel true rest)
        | _ => c :: listGo fuel true rest
    else c :: listGo fuel false rest

/-- The unordered-list pass (the caret can match at position 0). -/
def lists (l : List Char) : List Char := listGo l.length true l

/-- Scanner for the paragraph pass: a maximal run of two or more newlines
becomes a paragraph break. -/
def paraGo : Nat → List Char → List Char
  | 0, l => l
  | _ + 1, [] => []
  | fuel + 1, c :: rest =>
    if ['\n', '\n'].isPrefixOf (c :: rest) then
      match (c :: rest).span (fun x => x = '\n') with
      | (_, r) => "</p><p>".data ++ paraGo fuel r
    else c :: paraGo fuel rest

/-- The paragraph pass. -/
def paragraphs (l : List Char) : List Char := paraGo l.length l

/-- Opening piece of the final wrapper. -/
def divOpen : List Char := "<div class=\"prose max-w-none\"><p>".data

/-- Closing piece of the final wrapper. -/
def divClose : List Char := "</p></div>".data

/-- The pipeline applied after escaping. -/
def afterEscape (l : List Char) : List Char :=
  divOpen ++
    paragraphs (lists (links (italic (bold (headings (inlineCode (codeBlocks l))))))) ++
  divClose

/-- renderMarkdown from the source: empty (falsy) input yields empty
output; otherwise escape the HTML metacharacters first, then apply the
fixed pipeline of replacement passes, then wrap. -/
def renderMarkdown (md : String) : String :=
  if md = "" then "" else String.mk (afterEscape (escapeHtml md.data))

/-- Substring occurrence test via the first-occurrence splitter. -/
def containsSub (pat l : List Char) : Bool := (findSub pat l).isSome

/-- The characters that may follow a literal opening angle bracket in the
markup generated by the renderer: the tag initials of pre, p, code, h1-h3,
strong, em, a, ul, li, div and the closing slash. -/
def tagStart : List Char := ['p', 'c', 'h', 's', 'e', 'a', 'u', 'l', 'd', '/']

/-- Whether a list begins with the letter t. -/
def headIsT : List Char → Bool
  | [] => false
  | c :: _ => decide (c = 't')

/-- The requirement on the text following a literal opening angle
bracket: the next character is a tag initial, and an s (which could start
script as well as strong) is followed by a t. -/
def angleReq : List Char → Bool
  | [] => false
  | c :: rest => if c = 's' then headIsT rest else decide (c ∈ tagStart)

/-- Every literal opening angle bracket is followed by markup-shaped
text: no dangling bracket, the follower a tag initial, an s follower
continued by t.  This is the shape invariant that pins every angle
bracket of the rendered output to the renderer's own markup. -/
def angleOk : List Char → Bool
  | [] => true
  | c :: rest => (if c = '<' then angleReq rest else true) && angleOk rest

/-! ## JSON values

JSON.stringify/JSON.parse are embedded over a JSON value type; list and
field spines are separate inductives of one mutual family so that every
function on them is structurally recursive and kernel-computable. -/

mutual
inductive Json where
  | null
  | bool (b : Bool)
  | num (n : Int)
  | str (s : String)
  | arr (elems : JsonList)
  | obj (fields : JsonFields)

inductive JsonList where
  | nil
  | cons (hd : Json) (tl : JsonList)

inductive JsonFields where
  | nil
  | cons (key : String) (val : Json) (tl : JsonFields)
end

/-- The opening curly brace. -/
def curlyOpen : Char := Char.ofNat 123

/-- The closing curly brace. -/
def curlyClose : Char := Char.ofNat 125

/-- Indentation: n spaces. -/
def spaces : Nat → List Char
  | 0 => []
  | n + 1 => ' ' :: spaces n

/-- A decimal digit character, lowercase hex for 10..15. -/
def hexDigit (n : Nat) : Char :=
  if n < 10 then Char.ofNat (48 + n) else Char.ofNat (87 + n)

/-- How JSON.stringify escapes one character inside a string literal. -/
def escChar (c : Char) : List Char :=
  if c = '"' then ['\\', '"']
  else if c = '\\' then ['\\', '\\']
  else if c = Char.ofNat 8 then ['\\', 'b']
  else if c = Char.ofNat 12 then ['\\', 'f']
  else if c = '\n' then ['\\', 'n']
  else if c = '\r' then ['\\', 'r']
  else if c = '\t' then ['\\', 't']
  else if c.toNat < 32 then
    ['\\', 'u', '0', '0', hexDigit (c.toNat / 16), hexDigit (c.toNat % 16)]
  else [c]

/-- Escape a whole string body. -/
def escString : List Char → List Char
  | [] => []
  | c :: rest => escChar c ++ escString rest

/-- The decimal digit character of n < 10. -/
def digitChar (n : Nat) : Char := Char.ofNat (48 + n)

/-- Decimal digits of a natural number, most significant first. -/
def natDigitsAux : Nat → Nat → List Char
  | 0, _ => []
  | fuel + 1, n =>
    if n < 10 then [digitChar n]
    else natDigitsAux fuel (n / 10) ++ [digitChar (n % 10)]

/-- Decimal representation of a natural number. -/
def natDigits (n : Nat) : List Char := natDigitsAux (n + 1) n

mutual
/-- JSON.stringify(v, null, 2) at nesting depth d: two-space indented,
newline-separated composites, `": "` after keys, `[]` and curly pairs for
empty composites. -/
def printJson : Nat → Json → List Char
  | _, .null => "null".data
  | _, .bool true => "true".data
  | _, .bool false => "false".data
  | _, .num n => if n < 0 then '-' :: natDigits (-n).toNat else natDigits n.toNat
  | _, .str s => '"' :: (escString s.data ++ ['"'])
  | _, .arr .nil => "[]".data
  | d, .arr (.cons x xs) =>
    '[' :: (printElems d (.cons x xs) ++ '\n' :: (spaces (2 * d) ++ [']']))
  | _, .obj .nil => [curlyOpen, curlyClose]
  | d, .obj (.cons k v fs) =>
    curlyOpen :: (printFields d (.cons k v fs) ++ '\n' :: (spaces (2 * d) ++ [curlyClose]))

/-- Array items: each on its own line, indented one level deeper,
comma-separated. -/
def printElems : Nat → JsonList → List Char
  | _, .nil => []
  | d, .cons x .nil => '\n' :: (spaces (2 * (d + 1)) ++ printJson (d + 1) x)
  | d, .cons x (.cons y ys) =>
    '\n' :: (spaces (2 * (d + 1)) ++ printJson (d + 1) x ++
      ',' :: printElems d (.cons y ys))

/-- Object members: quoted key, colon, space, value. -/
def printFields : Nat → JsonFields → List Char
  | _, .nil => []
  | d, .cons k v .nil =>
    '\n' :: (spaces (2 * (d + 1)) ++ '"' :: (escString k.data ++
      '"' :: ':' :: ' ' :: printJson (d + 1) v))
  | d, .cons k v (.cons k' v' fs) =>
    '\n' :: (spaces (2 * (d + 1)) ++ '"' :: (escString k.data ++
      '"' :: ':' :: ' ' :: printJson (d + 1) v ++
      ',' :: printFields d (.cons k' v' fs)))
end

/-- The whitespace characters of the JSON grammar. -/
def isWsJson (c : Char) : Bool :=
  c = ' ' || c = '\t' || c = '\n' || c = '\r'

/-- Skip insignificant whitespace. -/
def skipWs (l : List Char) : List Char := l.dropWhile isWsJson

/-- Hexadecimal digit test. -/
def isHex (c : Char) : Bool :=
  c.isDigit || ('a' ≤ c && c ≤ 'f') || ('A' ≤ c && c ≤ 'F')

/-- Hexadecimal digit value. -/
def hexVal (c : Char) : Nat :=
  if c.isDigit then c.toNat - 48 else if 'a' ≤ c then c.toNat - 87 else c.toNat - 55

/-- Decode a simple escape character. -/
def escDecode (e : Char) : Option Char :=
  if e = '"' then some '"'
  else if e = '\\' then some '\\'
  else if e = '/' then some '/'
  else if e = 'b' then some (Char.ofNat 8)
  else if e = 'f' then some (Char.ofNat 12)
  else if e = 'n' then some '\n'
  else if e = 'r' then some '\r'
  else if e = 't' then some '\t'
  else none

/-- Parse the body of a string literal after the opening quote, up to and
including the closing quote. -/
def parseStringBody : List Char → Option (List Char × List Char)
  | [] => none
  | c :: rest =>
    if c = '"' then some ([], rest)
    else if c = '\\' then
      match rest with
      | [] => none
      | e :: rest1 =>
        if e = 'u' then
          match rest1 with
          | a :: b :: c2 :: d :: rest2 =>
            if isHex a && isHex b && isHex c2 && isHex d then
              (parseStringBody rest2).map fun (s, r) =>
                (Char.ofNat (hexVal a * 4096 + hexVal b * 256 +
                  hexVal c2 * 16 + hexVal d) :: s, r)
            else none
          | _ => none
        else
          match escDecode e with
          | some ch => (parseStringBody rest1).map fun (s, r) => (ch :: s, r)
          | none => none
    else (parseStringBody rest).map fun (s, r) => (c :: s, r)

/-- The value of a run of decimal digits. -/
def digitsVal (l : List Char) : Nat :=
  l.foldl (fun a c => a * 10 + (c.toNat - 48)) 0

/-- Parse a nonempty digit run. -/
def parseNat (l : List Char) : Option (Nat × List Char) :=
  match l.takeWhile Char.isDigit with
  | [] => none
  | ds => some (digitsVal ds, l.dropWhile Char.isDigit)

mutual
/-- Recursive-descent JSON value parser; fuel bounds the recursion and
the input length plus one always suffices. -/
def parseValue : Nat → List Char → Option (Json × List Char)
  | 0, _ => none
  | fuel + 1, l =>
    match skipWs l with
    | [] => none
    | c :: rest =>
      if c = '"' then
        (parseStringBody rest).map fun p => (Json.str (String.mk p.1), p.2)
      else if c = 'n' then
        match rest with
        | 'u' :: 'l' :: 'l' :: r => some (Json.null, r)
        | _ => none
      else if c = 't' then
        match rest with
        | 'r' :: 'u' :: 'e' :: r => some (Json.bool true, r)
        | _ => none
      else if c = 'f' then
        match rest with
        | 'a' :: 'l' :: 's' :: 'e' :: r => some (Json.bool false, r)
        | _ => none
      else if c = '[' then
        match skipWs rest with
        | [] => none
        | c1 :: r1 =>
          if c1 = ']' then some (Json.arr .nil, r1)
          else (parseElems fuel (c1 :: r1)).map fun p => (Json.arr p.1, p.2)
      else if c = curlyOpen then
        match skipWs rest with
        | [] => none
        | c1 :: r1 =>
          if c1 = curlyClose then some (Json.obj .nil, r1)
          else (parseMembers fuel (c1 :: r1)).map fun p => (Json.obj p.1, p.2)
      else if c = '-' then
        (parseNat rest).map fun p => (Json.num (-(p.1 : Int)), p.2)
      else if c.isDigit then
        (parseNat (c :: rest)).map fun p => (Json.num (p.1 : Int), p.2)
      else none

/-- Parse one or more comma-separated array elements and the closing
bracket. -/
def parseElems : Nat → List Char → Option (JsonList × List Char)
  | 0, _ => none
  | fuel + 1, l =>
    (parseValue fuel l).bind fun vr =>
      match skipWs vr.2 with
      | [] => none
      | c :: r2 =>
        if c = ',' then (parseElems fuel r2).map fun p => (JsonList.cons vr.1 p.1, p.2)
        else if c = ']' then some (.cons vr.1 .nil, r2)
        else none

/-- Parse one or more members of an object and the closing brace. -/
def parseMembers : Nat → List Char → Option (JsonFields × List Char)
  | 0, _ => none
  | fuel + 1, l =>
    match skipWs l with
    | [] => none
    | c :: r =>
      if c = '"' then
        (parseStringBody r).bind fun kr =>
          match skipWs kr.2 with
          | [] => none
          | c2 :: r2 =>
            if c2 = ':' then
              (parseValue fuel r2).bind fun vr =>
                match skipWs vr.2 with
                | [] => none
                | c3 :: r4 =>
                  if c3 = ',' then
                    (parseMembers fuel r4).map fun p =>
                      (.cons (String.mk kr.1) vr.1 p.1, p.2)
                  else if c3 = curlyClose then
                    some (.cons (String.mk kr.1) vr.1 .nil, r4)
                  else none
            else none
      else none
end

/-- After one element: a comma continues the element list, a closing
bracket ends it. -/
def elemsStep (fuel : Nat) (v : Json) (r : List Char) :
    Option (JsonList × List Char) :=
  match skipWs r with
  | [] => none
  | c :: r2 =>
    if c = ',' then (parseElems fuel r2).map fun p => (JsonList.cons v p.1, p.2)
    else if c = ']' then some (.cons v .nil, r2)
    else none

/-- After a member value: a comma continues the member list, a closing
brace ends it. -/
def membersValStep (fuel : Nat) (k : List Char) (v : Json) (r3 : List Char) :
    Option (JsonFields × List Char) :=
  match skipWs r3 with
  | [] => none
  | c :: r4 =>
    if c = ',' then
      (parseMembers fuel r4).map fun p => (.cons (String.mk k) v p.1, p.2)
    else if c = curlyClose then some (.cons (String.mk k) v .nil, r4)
    else none

/-- After a member key: a colon then the value. -/
def membersKeyStep (fuel : Nat) (k : List Char) (r1 : List Char) :
    Option (JsonFields × List Char) :=
  match skipWs r1 with
  | [] => none
  | c :: r2 =>
    if c = ':' then (parseValue fuel r2).bind fun vr => membersValStep fuel k vr.1 vr.2
    else none

/-- Array dispatch of the value parser after the opening bracket. -/
def arrStep (fuel : Nat) (rest : List Char) : Option (Json × List Char) :=
  match skipWs rest with
  | [] => none
  | c1 :: r1 =>
    if c1 = ']' then some (Json.arr .nil, r1)
    else (parseElems fuel (c1 :: r1)).map fun p => (Json.arr p.1, p.2)

/-- Object dispatch of the value parser after the opening brace. -/
def objStep (fuel : Nat) (rest : List Char) : Option (Json × List Char) :=
  match skipWs rest with
  | [] => none
  | c1 :: r1 =>
    if c1 = curlyClose then some (Json.obj .nil, r1)
    else (parseMembers fuel (c1 :: r1)).map fun p => (Json.obj p.1, p.2)

/-- The body of the value parser once the first significant character is
exposed. -/
def parseValueBody (fuel : Nat) (c : Char) (rest : List Char) :
    Option (Json × List Char) :=
  if c = '"' then
    (parseStringBody rest).map fun p => (Json.str (String.mk p.1), p.2)
  else if c = 'n' then
    match rest with
    | 'u' :: 'l' :: 'l' :: r => some (Json.null, r)
    | _ => none
  else if c = 't' then
    match rest with
    | 'r' :: 'u' :: 'e' :: r => some (Json.bool true, r)
    | _ => none
  else if c = 'f' then
    match rest with
    | 'a' :: 'l' :: 's' :: 'e' :: r => some (Json.bool false, r)
    | _ => none
  else if c = '[' then arrStep fuel rest
  else if c = curlyOpen then objStep fuel rest
  else if c = '-' then
    (parseNat rest).map fun p => (Json.num (-(p.1 : Int)), p.2)
  else if c.isDigit then
    (parseNat (c :: rest)).map fun p => (Json.num (p.1 : Int), p.2)
  else none

/-- JSON.parse: a value with only whitespace around it. -/
def parseJson (s : String) : Option Json :=
  match parseValue (s.length + 1) s.data with
  | some (v, r) => if skipWs r = [] then some v else none
  | none => none

/-! ## Serialization of the Workspace -/

/-- Append an object field only when the value is present (JSON.stringify
omits properties whose value is undefined). -/
def consOpt (k : String) (v : Option Json) (rest : JsonFields) : JsonFields :=
  match v with
  | some j => .cons k j rest
  | none => rest

/-- A card object's fields, in construction order, absent fields
omitted. -/
def cardObjToJson (c : CardObj) : Json :=
  .obj (consOpt "id" (c.id.map Json.str)
    (consOpt "title" (c.title.map Json.str)
      (consOpt "body" (c.body.map Json.str)
        (consOpt "assignee" (c.assignee.map fun a =>
          match a with
          | some s => Json.str s
          | none => Json.null)
          (consOpt "priority" (c.priority.map Json.num) .nil)))))

/-- A list of strings as a JSON array spine. -/
def strListToJsonList : List String → JsonList
  | [] => .nil
  | s :: rest => .cons (.str s) (strListToJsonList rest)

/-- A column as JSON. -/
def columnToJson (c : Column) : Json :=
  .obj (.cons "id" (.str c.id)
    (.cons "title" (.str c.title)
      (.cons "cardIds" (.arr (strListToJsonList c.cardIds)) .nil)))

/-- The columns array spine. -/
def columnsToJsonList : List Column → JsonList
  | [] => .nil
  | c :: rest => .cons (columnToJson c) (columnsToJsonList rest)

/-- The cards map as a JSON object spine. -/
def cardsToJsonFields : List (String × CardObj) → JsonFields
  | [] => .nil
  | (k, c) :: rest => .cons k (cardObjToJson c) (cardsToJsonFields rest)

/-- A board as JSON. -/
def boardToJson (b : Board) : Json :=
  .obj (.cons "columns" (.arr (columnsToJsonList b.columns))
    (.cons "cards" (.obj (cardsToJsonFields b.cards)) .nil))

/-- A project as JSON (image is null or a data-URI string). -/
def projectToJson (p : Project) : Json :=
  .obj (.cons "id" (.str p.id)
    (.cons "title" (.str p.title)
      (.cons "description" (.str p.description)
        (.cons "image" (match p.image with
          | some s => .str s
          | none => .null)
          (.cons "tags" (.arr (strListToJsonList p.tags))
            (.cons "board" (boardToJson p.board) .nil))))))

/-- The projects array spine. -/
def projectsToJsonList : List Project → JsonList
  | [] => .nil
  | p :: rest => .cons (projectToJson p) (projectsToJsonList rest)

/-- A user as JSON. -/
def userToJson (u : User) : Json :=
  .obj (.cons "id" (.str u.id)
    (.cons "name" (.str u.name)
      (.cons "role" (.str u.role)
        (.cons "avatarColor" (.str u.avatarColor) .nil))))

/-- The users array spine. -/
def usersToJsonList : List User → JsonList
  | [] => .nil
  | u :: rest => .cons (userToJson u) (usersToJsonList rest)

/-- The whole workspace as the JSON value JSON.stringify serializes. -/
def wsToJson (ws : Workspace) : Json :=
  .obj (.cons "meta" (.obj (.cons "createdAt" (.num ws.meta.createdAt)
      (.cons "name" (.str ws.meta.name) .nil)))
    (.cons "users" (.arr (usersToJsonList ws.users))
      (.cons "projects" (.arr (projectsToJsonList ws.projects)) .nil)))

/-- exportJSON from the source: JSON.stringify(data, null, 2). -/
def exportJSON (ws : Workspace) : String := String.mk (printJson 0 (wsToJson ws))

/-- Field lookup on a JSON object spine. -/
def getField : JsonFields → String → Option Json
  | .nil, _ => none
  | .cons k v rest, key => if k = key then some v else getField rest key

/-- JS truthiness of a JSON value (arrays and objects are always truthy,
including empty ones). -/
def truthy : Json → Bool
  | .null => false
  | .bool b => b
  | .num n => n != 0
  | .str s => s != ""
  | .arr _ => true
  | .obj _ => true

/-- JS property access obj.k: undefined (none) unless obj is an object
with the field. -/
def jsProp (v : Json) (k : String) : Option Json :=
  match v with
  | .obj fs => getField fs k
  | _ => none

/-- importJSON from the source: parse the file text; set the parsed
object as the new state only if it is truthy and has a truthy projects
property; otherwise alert and leave the state alone. -/
def importJSON (s : String) : Except String Json :=
  match parseJson s with
  | none => .error "Could not parse JSON"
  | some obj =>
    if truthy obj && (match jsProp obj "projects" with
      | some f => truthy f
      | none => false) then .ok obj
    else .error "Invalid file"

/-- The state update performed by the import handler: the parsed object
replaces the state on success, otherwise the state is unchanged. -/
def applyImport (cur : Json) (s : String) : Json :=
  match importJSON s with
  | .ok v => v
  | .error _ => cur

/-! ## Decoding a Workspace back out of JSON -/

/-- Decode an optional string-valued field (absent allowed). -/
def decodeOptStr : Option Json → Option (Option String)
  | none => some none
  | some (.str s) => some (some s)
  | some _ => none

/-- Decode an optional integer-valued field. -/
def decodeOptInt : Option Json → Option (Option Int)
  | none => some none
  | some (.num n) => some (some n)
  | some _ => none

/-- Decode an optional null-or-string field. -/
def decodeOptNullableStr : Option Json → Option (Option (Option String))
  | none => some none
  | some .null => some (some none)
  | some (.str s) => some (some (some s))
  | some _ => none

/-- Decode a card object. -/
def jsonToCardObj : Json → Option CardObj
  | .obj fs =>
    match decodeOptStr (getField fs "id"), decodeOptStr (getField fs "title"),
        decodeOptStr (getField fs "body"),
        decodeOptNullableStr (getField fs "assignee"),
        decodeOptInt (getField fs "priority") with
    | some i, some t, some b, some a, some p =>
      some { id := i, title := t, body := b, assignee := a, priority := p }
    | _, _, _, _, _ => none
  | _ => none

/-- Decode a JSON array spine of strings. -/
def jsonListToStrList : JsonList → Option (List String)
  | .nil => some []
  | .cons (.str s) rest => (jsonListToStrList rest).map (s :: ·)
  | .cons _ _ => none

/-- Decode a column. -/
def jsonToColumn : Json → Option Column
  | .obj fs =>
    match getField fs "id", getField fs "title", getField fs "cardIds" with
    | some (.str i), some (.str t), some (.arr ids) =>
      (jsonListToStrList ids).map fun l => { id := i, title := t, cardIds := l }
    | _, _, _ => none
  | _ => none

/-- Decode the columns array spine. -/
def jsonListToColumns : JsonList → Option (List Column)
  | .nil => some []
  | .cons j rest =>
    match jsonToColumn j, jsonListToColumns rest with
    | some c, some cs => some (c :: cs)
    | _, _ => none

/-- Decode the cards object spine. -/
def jsonFieldsToCards : JsonFields → Option (List (String × CardObj))
  | .nil => some []
  | .cons k v rest =>
    match jsonToCardObj v, jsonFieldsToCards rest with
    | some c, some cs => some ((k, c) :: cs)
    | _, _ => none

/-- Decode a board. -/
def jsonToBoard : Json → Option Board
  | .obj fs =>
    match getField fs "columns", getField fs "cards" with
    | some (.arr cols), some (.obj cards) =>
      (match jsonListToColumns cols, jsonFieldsToCards cards with
       | some cs, some ks => some { columns := cs, cards := ks }
       | _, _ => none)
    | _, _ => none
  | _ => none

/-- Decode a project. -/
def jsonToProject : Json → Option Project
  | .obj fs =>
    match getField fs "id", getField fs "title", getField fs "description",
        getField fs "image", getField fs "tags", getField fs "board" with
    | some (.str i), some (.str t), some (.str d), some img, some (.arr tags),
        some b =>
      (match (match img with
              | .null => some none
              | .str s => some (some s)
              | _ => none), jsonListToStrList tags, jsonToBoard b with
       | some im, some tg, some bd =>
         some { id := i, title := t, description := d, image := im, tags := tg,
                board := bd }
       | _, _, _ => none)
    | _, _, _, _, _, _ => none
  | _ => none

/-- Decode the projects array spine. -/
def jsonListToProjects : JsonList → Option (List Project)
  | .nil => some []
  | .cons j rest =>
    match jsonToProject j, jsonListToProjects rest with
    | some p, some ps => some (p :: ps)
    | _, _ => none

/-- Decode a user. -/
def jsonToUser : Json → Option User
  | .obj fs =>
    match getField fs "id", getField fs "name", getField fs "role",
        getField fs "avatarColor" with
    | some (.str i), some (.str n), some (.str r), some (.str a) =>
      some { id := i, name := n, role := r, avatarColor := a }
    | _, _, _, _ => none
  | _ => none

/-- Decode the users array spine. -/
def jsonListToUsers : JsonList → Option (List User)
  | .nil => some []
  | .cons j rest =>
    match jsonToUser j, jsonListToUsers rest with
    | some u, some us => some (u :: us)
    | _, _ => none

mutual
/-- Parser fuel sufficient for a value (one unit per parseValue entry). -/
def fuelV : Json → Nat
  | .null => 1
  | .bool _ => 1
  | .num _ => 1
  | .str _ => 1
  | .arr .nil => 1
  | .arr (.cons x xs) => 1 + fuelE (.cons x xs)
  | .obj .nil => 1
  | .obj (.cons k v fs) => 1 + fuelM (.cons k v fs)

/-- Parser fuel sufficient for an element spine. -/
def fuelE : JsonList → Nat
  | .nil => 1
  | .cons x xs => 1 + max (fuelV x) (fuelE xs)

/-- Parser fuel sufficient for a member spine. -/
def fuelM : JsonFields → Nat
  | .nil => 1
  | .cons _ v fs => 1 + max (fuelV v) (fuelM fs)
end

/-- Whether the continuation cannot extend a printed number: the number
parser takes the maximal digit run, so nothing may follow a printed
number with a further digit. -/
def numStop : Json → List Char → Prop
  | .num _, rest => ∀ c r, rest = c :: r → c.isDigit = false
  | _, _ => True

/-- What follows the first printed element of an array. -/
def elemsTail (d : Nat) : JsonList → List Char
  | .nil => []
  | .cons y ys => ',' :: printElems d (.cons y ys)

/-- What follows the first printed member of an object. -/
def fieldsTail (d : Nat) : JsonFields → List Char
  | .nil => []
  | .cons k v fs => ',' :: printFields d (.cons k v fs)

/-- Decode a whole workspace. -/
def jsonToWs : Json → Option Workspace
  | .obj fs =>
    match getField fs "meta", getField fs "users", getField fs "projects" with
    | some (.obj mfs), some (.arr users), some (.arr projects) =>
      (match getField mfs "createdAt", getField mfs "name" with
       | some (.num created), some (.str name) =>
         (match jsonListToUsers users, jsonListToProjects projects with
          | some us, some ps =>
            some { meta := { createdAt := created, name := name },
                   users := us, projects := ps }
          | _, _ => none)
       | _, _ => none)
    | _, _, _ => none
  | _ => none

/-! ## Theorems -/

theorem getKey_setKey_self {α : Type} (m : List (String × α)) (k : String) (v : α) :
    getKey (setKey m k v) k = some v := by
  induction m with
  | nil => simp [setKey, getKey]
  | cons hd tl ih =>
    obtain ⟨k', v'⟩ := hd
    by_cases h : k' = k <;> simp [setKey, getKey, h, ih]

theorem getKey_setKey_ne {α : Type} (m : List (String × α)) (k k' : String) (v : α)
    (h : k ≠ k') : getKey (setKey m k v) k' = getKey m k' := by
  induction m with
  | nil => simp [setKey, getKey, h]
  | cons hd tl ih =>
    obtain ⟨k0, v0⟩ := hd
    by_cases h0 : k0 = k
    · subst h0
      simp [setKey, getKey, h]
    · simp [setKey, getKey, h0, ih]

theorem setKey_of_getKey_none {α : Type} (m : List (String × α)) (k : String) (v : α)
    (h : getKey m k = none) : setKey m k v = m ++ [(k, v)] := by
  induction m with
  | nil => simp [setKey]
  | cons hd tl ih =>
    obtain ⟨k0, v0⟩ := hd
    by_cases h0 : k0 = k
    · simp [getKey, h0] at h
    · simp [getKey, h0] at h
      simp [setKey, h0, ih h]

theorem getKey_isSome_setKey {α : Type} (m : List (String × α)) (k k' : String) (v : α) :
    (getKey (setKey m k v) k').isSome =
      ((getKey m k').isSome || decide (k' = k)) := by
  by_cases h : k' = k
  · subst h
    simp [getKey_setKey_self]
  · rw [getKey_setKey_ne m k k' v (fun e => h e.symm)]
    simp [h]

theorem boardInv_iff (b : Board) : boardInv b = true ↔ BoardWf b := by
  simp only [boardInv, BoardWf, Bool.and_eq_true, List.all_eq_true, decide_eq_true_eq,
    beq_iff_eq, Prod.forall]
  exact and_assoc

/-! ## Counting lemmas -/

theorem colCount_nil (x : String) : colCount [] x = 0 := rfl

theorem colCount_cons (c : Column) (cols : List Column) (x : String) :
    colCount (c :: cols) x = c.cardIds.count x + colCount cols x := by
  simp [colCount]

theorem colCount_append (l₁ l₂ : List Column) (x : String) :
    colCount (l₁ ++ l₂) x = colCount l₁ x + colCount l₂ x := by
  simp [colCount]

theorem count_filter_ne (l : List String) (cid x : String) (h : x ≠ cid) :
    (l.filter (fun i => i ≠ cid)).count x = l.count x := by
  induction l with
  | nil => rfl
  | cons a l ih =>
    simp only [List.filter_cons, decide_eq_true_eq]
    by_cases ha : a = cid
    · subst ha
      rw [if_neg (by simp), ih, List.count_cons]
      simp [beq_iff_eq, Ne.symm h]
    · rw [if_pos ha, List.count_cons, List.count_cons, ih]

theorem count_filter_self (l : List String) (cid : String) :
    (l.filter (fun i => i ≠ cid)).count cid = 0 := by
  rw [List.count_eq_zero]
  intro h
  have := List.of_mem_filter h
  simp at this

theorem count_spliceInsert (l : List String) (i : Int) (x y : String) :
    (spliceInsert l i y).count x = l.count x + if x = y then 1 else 0 := by
  unfold spliceInsert
  have hld : l.count x = (l.take (spliceIndex l.length i)).count x +
      (l.drop (spliceIndex l.length i)).count x := by
    conv_lhs => rw [← List.take_append_drop (spliceIndex l.length i) l]
    rw [List.count_append]
  rw [List.count_append, List.count_cons, hld]
  by_cases h : x = y
  · simp only [beq_iff_eq, if_pos h, if_pos h.symm]
    omega
  · simp only [beq_iff_eq, if_neg h, if_neg (fun e : y = x => h e.symm)]
    omega

theorem mem_spliceInsert (l : List String) (i : Int) (x y : String) :
    x ∈ spliceInsert l i y ↔ x ∈ l ∨ x = y := by
  unfold spliceInsert
  have hld : x ∈ l ↔ x ∈ l.take (spliceIndex l.length i) ∨
      x ∈ l.drop (spliceIndex l.length i) := by
    conv_lhs => rw [← List.take_append_drop (spliceIndex l.length i) l]
    exact List.mem_append
  rw [hld]
  simp only [List.mem_append, List.mem_cons]
  tauto

theorem getKey_eq_none_iff {α : Type} (m : List (String × α)) (k : String) :
    getKey m k = none ↔ ∀ v, (k, v) ∉ m := by
  induction m with
  | nil => simp [getKey]
  | cons hd tl ih =>
    obtain ⟨k0, v0⟩ := hd
    by_cases h0 : k0 = k
    · subst h0
      simp only [getKey, if_pos rfl]
      constructor
      · intro h
        simp at h
      · intro h
        exact absurd (List.mem_cons_self (k0, v0) tl) (h v0)
    · simp only [getKey, if_neg h0]
      rw [ih]
      constructor
      · intro h v hv
        rcases List.mem_cons.mp hv with hv | hv
        · exact h0 (congrArg Prod.fst hv).symm
        · exact h v hv
      · intro h v hv
        exact h v (List.mem_cons_of_mem _ hv)

theorem colCount_zero_of_no_mem (cols : List Column) (cid : String)
    (h : ∀ c ∈ cols, cid ∉ c.cardIds) : colCount cols cid = 0 := by
  induction cols with
  | nil => rfl
  | cons c cols ih =>
    rw [colCount_cons]
    rw [List.count_eq_zero.mpr (h c (by simp)), ih (fun c' hc' => h c' (by simp [hc']))]

theorem mem_of_colCount_pos (cols : List Column) (cid : String)
    (h : 0 < colCount cols cid) : ∃ c ∈ cols, cid ∈ c.cardIds := by
  induction cols with
  | nil => simp [colCount_nil] at h
  | cons c cols ih =>
    rw [colCount_cons] at h
    by_cases hc : cid ∈ c.cardIds
    · exact ⟨c, by simp, hc⟩
    · rw [List.count_eq_zero.mpr hc] at h
      obtain ⟨c', hc', hm⟩ := ih (by omega)
      exact ⟨c', by simp [hc'], hm⟩

/-! ## Behaviour of the column rewrites -/

theorem addToColumns_map_id (columnId cardId : String) (cols : List Column) :
    (addToColumns columnId cardId cols).map Column.id = cols.map Column.id := by
  induction cols with
  | nil => rfl
  | cons c cols ih =>
    simp only [addToColumns, List.map_cons] at *
    rw [ih]
    congr 1
    by_cases h : c.id = columnId
    · rw [if_pos h]
    · rw [if_neg h]

theorem moveInColumns_map_id (f t cid : String) (i : Int) (cols : List Column) :
    (moveInColumns f t cid i cols).map Column.id = cols.map Column.id := by
  induction cols with
  | nil => rfl
  | cons c cols ih =>
    simp only [moveInColumns, List.map_cons] at *
    rw [ih]
    congr 1
    by_cases hf : c.id = f
    · rw [if_pos hf]
    · rw [if_neg hf]
      by_cases ht : c.id = t
      · rw [if_pos ht]
      · rw [if_neg ht]

theorem addToColumns_eq_self (columnId cardId : String) (cols : List Column)
    (h : ∀ c ∈ cols, c.id ≠ columnId) : addToColumns columnId cardId cols = cols := by
  induction cols with
  | nil => rfl
  | cons c cols ih =>
    simp only [addToColumns, List.map_cons]
    rw [if_neg (h c (by simp))]
    have := ih (fun c' hc' => h c' (by simp [hc']))
    simp only [addToColumns] at this
    rw [this]

theorem moveInColumns_eq_self (f t cid : String) (i : Int) (cols : List Column)
    (h : ∀ c ∈ cols, c.id ≠ f ∧ c.id ≠ t) : moveInColumns f t cid i cols = cols := by
  induction cols with
  | nil => rfl
  | cons c cols ih =>
    simp only [moveInColumns, List.map_cons]
    rw [if_neg (h c (by simp)).1, if_neg (h c (by simp)).2]
    have := ih (fun c' hc' => h c' (by simp [hc']))
    simp only [moveInColumns] at this
    rw [this]

theorem addToColumns_append (columnId cardId : String) (l₁ l₂ : List Column) :
    addToColumns columnId cardId (l₁ ++ l₂) =
      addToColumns columnId cardId l₁ ++ addToColumns columnId cardId l₂ :=
  List.map_append _ _ _

theorem moveInColumns_append (f t cid : String) (i : Int) (l₁ l₂ : List Column) :
    moveInColumns f t cid i (l₁ ++ l₂) =
      moveInColumns f t cid i l₁ ++ moveInColumns f t cid i l₂ :=
  List.map_append _ _ _

theorem addToColumns_colCount_ne (columnId cardId x : String) (cols : List Column)
    (h : x ≠ cardId) :
    colCount (addToColumns columnId cardId cols) x = colCount cols x := by
  induction cols with
  | nil => rfl
  | cons c cols ih =>
    simp only [addToColumns, List.map_cons] at *
    rw [colCount_cons, colCount_cons, ih]
    by_cases hc : c.id = columnId
    · rw [if_pos hc]
      simp only [List.count_cons, beq_iff_eq]
      rw [if_neg (Ne.symm h)]
      omega
    · rw [if_neg hc]

theorem moveInColumns_colCount_ne (f t cid x : String) (i : Int) (cols : List Column)
    (h : x ≠ cid) :
    colCount (moveInColumns f t cid i cols) x = colCount cols x := by
  induction cols with
  | nil => rfl
  | cons c cols ih =>
    simp only [moveInColumns, List.map_cons] at *
    rw [colCount_cons, colCount_cons, ih]
    by_cases hf : c.id = f
    · rw [if_pos hf]
      simp only []
      rw [count_filter_ne _ _ _ h]
    · rw [if_neg hf]
      by_cases ht : c.id = t
      · rw [if_pos ht]
        simp only []
        rw [count_spliceInsert, if_neg h]
        omega
      · rw [if_neg ht]

/-- Extract from a Nodup id list that the ids of the surrounding pieces
differ from the id of the distinguished column. -/
theorem nodup_split (s t : List Column) (c : Column)
    (hnd : ((s ++ c :: t).map Column.id).Nodup) :
    (∀ a ∈ s, a.id ≠ c.id) ∧ (∀ a ∈ t, a.id ≠ c.id) := by
  rw [List.map_append, List.map_cons, List.nodup_append] at hnd
  obtain ⟨h₁, h₂, hd⟩ := hnd
  rw [List.nodup_cons] at h₂
  constructor
  · intro a ha he
    exact (List.disjoint_cons_right.mp hd).1 (he ▸ List.mem_map_of_mem Column.id ha)
  · intro a ha he
    exact h₂.1 (he ▸ List.mem_map_of_mem Column.id ha)

theorem addToColumns_cons (columnId cardId : String) (c : Column) (cols : List Column) :
    addToColumns columnId cardId (c :: cols) =
      (if c.id = columnId then { c with cardIds := cardId :: c.cardIds } else c) ::
        addToColumns columnId cardId cols := rfl

theorem moveInColumns_cons (f t cid : String) (i : Int) (c : Column) (cols : List Column) :
    moveInColumns f t cid i (c :: cols) =
      (if c.id = f then { c with cardIds := c.cardIds.filter (fun x => x ≠ cid) }
       else if c.id = t then { c with cardIds := spliceInsert c.cardIds i cid }
       else c) :: moveInColumns f t cid i cols := rfl

theorem isSome_getKey_setKey {α : Type} (m : List (String × α)) (k k' : String) (v : α)
    (h : (getKey m k').isSome = true) : (getKey (setKey m k v) k').isSome = true := by
  rw [getKey_isSome_setKey]
  simp [h]

/-- After addCard on a fresh id with an existing target column, the new id
appears exactly once across the columns. -/
theorem colCount_addToColumns_cid (cols : List Column) (colId cid : String)
    (hnd : (cols.map Column.id).Nodup)
    (hcol : ∃ c ∈ cols, c.id = colId)
    (hzero : ∀ c ∈ cols, cid ∉ c.cardIds) :
    colCount (addToColumns colId cid cols) cid = 1 := by
  obtain ⟨ca, hmem, hid⟩ := hcol
  obtain ⟨s, u, rfl⟩ := List.append_of_mem hmem
  have hsp := nodup_split s u ca hnd
  rw [addToColumns_append, addToColumns_cons, if_pos hid,
    addToColumns_eq_self _ _ s (fun a ha e => hsp.1 a ha (e.trans hid.symm)),
    addToColumns_eq_self _ _ u (fun a ha e => hsp.2 a ha (e.trans hid.symm))]
  rw [colCount_append, colCount_cons]
  rw [colCount_zero_of_no_mem s cid (fun c hc => hzero c (List.mem_append_left _ hc)),
    colCount_zero_of_no_mem u cid
      (fun c hc => hzero c (List.mem_append_right _ (List.mem_cons_of_mem _ hc)))]
  simp only [List.count_cons, beq_iff_eq, if_pos rfl]
  rw [List.count_eq_zero.mpr (hzero ca (List.mem_append_right _ (List.mem_cons_self _ _)))]
  simp

/-- After moveCard between two distinct existing columns, of which the
source held the card, the card id still appears exactly once. -/
theorem colCount_moveInColumns_cid (cols : List Column) (f t cid : String) (i : Int)
    (hnd : (cols.map Column.id).Nodup) (hft : f ≠ t)
    (hf : ∃ c ∈ cols, c.id = f ∧ cid ∈ c.cardIds)
    (ht : ∃ c ∈ cols, c.id = t)
    (hone : colCount cols cid = 1) :
    colCount (moveInColumns f t cid i cols) cid = 1 := by
  obtain ⟨cf, hcf_mem, hcf_id, hcf_in⟩ := hf
  obtain ⟨s, u, rfl⟩ := List.append_of_mem hcf_mem
  obtain ⟨ct, hct_mem, hct_id⟩ := ht
  have hctf : ct.id ≠ cf.id := by
    rw [hct_id, hcf_id]
    exact Ne.symm hft
  have hsp := nodup_split s u cf hnd
  have hpos : cf.cardIds.count cid ≠ 0 := fun hz => (List.count_eq_zero.mp hz) hcf_in
  rcases List.mem_append.mp hct_mem with hcs | hcu
  · -- the target column lies before the source column
    obtain ⟨s₁, s₂, rfl⟩ := List.append_of_mem hcs
    have hnd' : ((s₁ ++ ct :: (s₂ ++ cf :: u)).map Column.id).Nodup := by
      rwa [← List.cons_append, ← List.append_assoc]
    have hsp2 := nodup_split s₁ (s₂ ++ cf :: u) ct hnd'
    have hs₁ : ∀ a ∈ s₁, a.id ≠ f ∧ a.id ≠ t := fun a ha =>
      ⟨fun e => hsp.1 a (List.mem_append_left _ ha) (e.trans hcf_id.symm),
       fun e => hsp2.1 a ha (e.trans hct_id.symm)⟩
    have hs₂ : ∀ a ∈ s₂, a.id ≠ f ∧ a.id ≠ t := fun a ha =>
      ⟨fun e => hsp.1 a (List.mem_append_right _ (List.mem_cons_of_mem _ ha))
          (e.trans hcf_id.symm),
       fun e => hsp2.2 a (List.mem_append_left _ ha) (e.trans hct_id.symm)⟩
    have hu : ∀ a ∈ u, a.id ≠ f ∧ a.id ≠ t := fun a ha =>
      ⟨fun e => hsp.2 a ha (e.trans hcf_id.symm),
       fun e => hsp2.2 a (List.mem_append_right _ (List.mem_cons_of_mem _ ha))
          (e.trans hct_id.symm)⟩
    have hctf' : ct.id ≠ f := by
      rw [hct_id]
      exact Ne.symm hft
    rw [moveInColumns_append, moveInColumns_append, moveInColumns_cons,
      moveInColumns_cons, if_neg hctf', if_pos hct_id, if_pos hcf_id,
      moveInColumns_eq_self _ _ _ _ s₁ hs₁, moveInColumns_eq_self _ _ _ _ s₂ hs₂,
      moveInColumns_eq_self _ _ _ _ u hu]
    simp only [colCount_append, colCount_cons] at hone ⊢
    simp only [count_spliceInsert, count_filter_self, eq_self_iff_true, if_true] at *
    omega
  · -- the target column lies after the source column
    rcases List.mem_cons.mp hcu with he | hcu'
    · exact absurd (congrArg Column.id he) hctf
    obtain ⟨u₁, u₂, rfl⟩ := List.append_of_mem hcu'
    have hnd' : (((s ++ cf :: u₁) ++ ct :: u₂).map Column.id).Nodup := by
      rwa [List.append_assoc, List.cons_append]
    have hsp2 := nodup_split (s ++ cf :: u₁) u₂ ct hnd'
    have hs : ∀ a ∈ s, a.id ≠ f ∧ a.id ≠ t := fun a ha =>
      ⟨fun e => hsp.1 a ha (e.trans hcf_id.symm),
       fun e => hsp2.1 a (List.mem_append_left _ ha) (e.trans hct_id.symm)⟩
    have hu₁ : ∀ a ∈ u₁, a.id ≠ f ∧ a.id ≠ t := fun a ha =>
      ⟨fun e => hsp.2 a (List.mem_append_left _ ha) (e.trans hcf_id.symm),
       fun e => hsp2.1 a (List.mem_append_right _ (List.mem_cons_of_mem _ ha))
          (e.trans hct_id.symm)⟩
    have hu₂ : ∀ a ∈ u₂, a.id ≠ f ∧ a.id ≠ t := fun a ha =>
      ⟨fun e => hsp.2 a (List.mem_append_right _ (List.mem_cons_of_mem _ ha))
          (e.trans hcf_id.symm),
       fun e => hsp2.2 a ha (e.trans hct_id.symm)⟩
    have hctf' : ct.id ≠ f := by
      rw [hct_id]
      exact Ne.symm hft
    rw [moveInColumns_append, moveInColumns_cons, moveInColumns_append,
      moveInColumns_cons, if_neg hctf', if_pos hct_id, if_pos hcf_id,
      moveInColumns_eq_self _ _ _ _ s hs, moveInColumns_eq_self _ _ _ _ u₁ hu₁,
      moveInColumns_eq_self _ _ _ _ u₂ hu₂]
    simp only [colCount_append, colCount_cons] at hone ⊢
    simp only [count_spliceInsert, count_filter_self, eq_self_iff_true, if_true] at *
    omega

/-- addCard preserves the board invariant when the target column exists and
the generated id is fresh. -/
theorem BoardWf_addCardBoard (b : Board)
    (colId cid : String) (card : CardFields)
    (hw : BoardWf b)
    (hcol : ∃ c ∈ b.columns, c.id = colId)
    (hfresh : getKey b.cards cid = none) :
    BoardWf (addCardBoard colId cid card b) := by
  obtain ⟨cols, cards⟩ := b
  obtain ⟨hnd, hkeys, hcnt⟩ := hw
  simp only at hcol hfresh
  have hnocol : ∀ c ∈ cols, cid ∉ c.cardIds := by
    intro c hc hmem
    have := hkeys c hc cid hmem
    rw [hfresh] at this
    simp at this
  refine ⟨?_, ?_, ?_⟩
  · show ((addToColumns colId cid cols).map Column.id).Nodup
    rw [addToColumns_map_id]
    exact hnd
  · intro c' hc' x hx
    obtain ⟨c, hc, rfl⟩ := List.mem_map.mp hc'
    show (getKey (setKey cards cid (mkCardObj cid card)) x).isSome = true
    by_cases h : c.id = colId
    · rw [if_pos h] at hx
      rcases List.mem_cons.mp hx with he | hm
      · subst he
        rw [getKey_setKey_self]
        rfl
      · exact isSome_getKey_setKey _ _ _ _ (hkeys c hc x hm)
    · rw [if_neg h] at hx
      exact isSome_getKey_setKey _ _ _ _ (hkeys c hc x hx)
  · intro kv hkv
    obtain ⟨k, v⟩ := kv
    have hkv' : (k, v) ∈ setKey cards cid (mkCardObj cid card) := hkv
    rw [setKey_of_getKey_none _ _ _ hfresh] at hkv'
    show colCount (addToColumns colId cid cols) k = 1
    rcases List.mem_append.mp hkv' with hm | hm
    · have hne : k ≠ cid := by
        intro e
        exact ((getKey_eq_none_iff cards cid).mp hfresh) v (e ▸ hm)
      rw [addToColumns_colCount_ne _ _ _ _ hne]
      exact hcnt (k, v) hm
    · simp only [List.mem_singleton, Prod.mk.injEq] at hm
      rw [hm.1]
      exact colCount_addToColumns_cid cols colId cid hnd hcol hnocol

/-- moveCard preserves the board invariant when the two columns exist, are
distinct, and the source column holds the card. -/
theorem BoardWf_moveCardBoard (b : Board)
    (f t cid : String) (i : Int)
    (hw : BoardWf b) (hft : f ≠ t)
    (hfrom : ∃ c ∈ b.columns, c.id = f ∧ cid ∈ c.cardIds)
    (hto : ∃ c ∈ b.columns, c.id = t) :
    BoardWf (moveCardBoard f t cid i b) := by
  obtain ⟨cols, cards⟩ := b
  obtain ⟨hnd, hkeys, hcnt⟩ := hw
  simp only at hfrom hto
  refine ⟨?_, ?_, ?_⟩
  · show ((moveInColumns f t cid i cols).map Column.id).Nodup
    rw [moveInColumns_map_id]
    exact hnd
  · intro c' hc' x hx
    obtain ⟨c, hc, rfl⟩ := List.mem_map.mp hc'
    show (getKey cards x).isSome = true
    by_cases hcf : c.id = f
    · rw [if_pos hcf] at hx
      exact hkeys c hc x (List.mem_of_mem_filter hx)
    · rw [if_neg hcf] at hx
      by_cases hct : c.id = t
      · rw [if_pos hct] at hx
        rcases (mem_spliceInsert _ _ _ _).mp hx with hm | he
        · exact hkeys c hc x hm
        · obtain ⟨cf, hmem, _, hin⟩ := hfrom
          exact he ▸ hkeys cf hmem cid hin
      · rw [if_neg hct] at hx
        exact hkeys c hc x hx
  · intro kv hkv
    obtain ⟨k, v⟩ := kv
    show colCount (moveInColumns f t cid i cols) k = 1
    by_cases he : k = cid
    · subst he
      exact colCount_moveInColumns_cid cols f t k i hnd hft hfrom hto (hcnt (k, v) hkv)
    · rw [moveInColumns_colCount_ne _ _ _ _ _ _ he]
      exact hcnt (k, v) hkv

theorem wsInv_iff (ws : Workspace) :
    wsInv ws = true ↔ ∀ p ∈ ws.projects, BoardWf p.board := by
  simp only [wsInv, List.all_eq_true]
  constructor
  · intro h p hp
    exact (boardInv_iff p.board).mp (h p hp)
  · intro h p hp
    exact (boardInv_iff p.board).mpr (h p hp)

theorem wsInv_applyOp (ws : Workspace) (op : Op)
    (h : wsInv ws = true) (hv : validOp ws op) : wsInv (applyOp ws op) = true := by
  rw [wsInv_iff] at h ⊢
  cases op with
  | add pid colId cid card =>
    intro p' hp'
    obtain ⟨p, hp, rfl⟩ := List.mem_map.mp hp'
    by_cases he : p.id = pid
    · rw [if_pos he]
      obtain ⟨hcol, hfresh⟩ := hv p hp he
      have hw := h p hp
      exact BoardWf_addCardBoard p.board colId cid card hw hcol hfresh
    · rw [if_neg he]
      exact h p hp
  | move pid f t cid i =>
    intro p' hp'
    obtain ⟨p, hp, rfl⟩ := List.mem_map.mp hp'
    by_cases he : p.id = pid
    · rw [if_pos he]
      obtain ⟨hft, hfrom, hto⟩ := hv p hp he
      have hw := h p hp
      exact BoardWf_moveCardBoard p.board f t cid i hw hft hfrom hto
    · rw [if_neg he]
      exact h p hp

theorem zip_map_self {α β : Type} (l : List α) (g : α → β) :
    List.zip l (l.map g) = l.map fun a => (a, g a) := by
  induction l with
  | nil => rfl
  | cons a l ih => simp [List.zip_cons_cons, ih]

theorem map_eq_map_of_eq_on {α β : Type} (l : List α) (f g : α → β)
    (h : ∀ a ∈ l, f a = g a) : l.map f = l.map g := by
  induction l with
  | nil => rfl
  | cons a l ih =>
    simp only [List.map_cons]
    rw [h a (by simp), ih (fun a' ha' => h a' (by simp [ha']))]

theorem mem_cons_filter (l : List String) (cid x : String) (hm : cid ∈ l) :
    x ∈ cid :: l.filter (fun i => i ≠ cid) ↔ x ∈ l := by
  constructor
  · intro hx
    rcases List.mem_cons.mp hx with he | hf
    · exact he ▸ hm
    · exact List.mem_of_mem_filter hf
  · intro hx
    by_cases he : x = cid
    · exact he ▸ List.mem_cons_self _ _
    · exact List.mem_cons_of_mem _ (List.mem_filter.mpr ⟨hx, by simpa using he⟩)

theorem filter_ne_eq_self (l : List String) (cid : String) (hnm : cid ∉ l) :
    l.filter (fun i => i ≠ cid) = l := by
  rw [List.filter_eq_self]
  intro x hx
  simp only [ne_eq, decide_eq_true_eq]
  exact fun e => hnm (e ▸ hx)

theorem spliceInsert_zero (l : List String) (x : String) :
    spliceInsert l 0 x = x :: l := by
  simp [spliceInsert, spliceIndex]

/-! ## Lines -/

theorem splitLines_cons (c : Char) (rest hd : List Char) (tl : List (List Char))
    (h : splitLines rest = hd :: tl) :
    splitLines (c :: rest) = if c = '\n' then [] :: hd :: tl else (c :: hd) :: tl := by
  unfold splitLines
  rw [h]

theorem splitLines_ne_nil (l : List Char) : splitLines l ≠ [] := by
  induction l with
  | nil => simp [splitLines]
  | cons c rest ih =>
    match h : splitLines rest with
    | [] => exact absurd h ih
    | hd :: tl =>
      rw [splitLines_cons c rest hd tl h]
      by_cases hc : c = '\n' <;> simp [hc]

theorem newline_not_mem_splitLines (l : List Char) :
    ∀ p ∈ splitLines l, '\n' ∉ p := by
  induction l with
  | nil =>
    intro p hp
    simp [splitLines] at hp
    simp [hp]
  | cons c rest ih =>
    intro p hp
    match h : splitLines rest with
    | [] => exact absurd h (splitLines_ne_nil rest)
    | hd :: tl =>
      rw [splitLines_cons c rest hd tl h] at hp
      by_cases hc : c = '\n'
      · rw [if_pos hc] at hp
        rcases List.mem_cons.mp hp with he | hm
        · simp [he]
        · exact ih p (h ▸ hm)
      · rw [if_neg hc] at hp
        rcases List.mem_cons.mp hp with he | hm
        · subst he
          intro hmm
          rcases List.mem_cons.mp hmm with he' | hm'
          · exact hc he'.symm
          · exact ih hd (h ▸ List.mem_cons_self hd tl) hm'
        · exact ih p (h ▸ List.mem_cons_of_mem hd hm)

theorem splitLines_of_no_newline (a : List Char) (h : '\n' ∉ a) :
    splitLines a = [a] := by
  induction a with
  | nil => rfl
  | cons c rest ih =>
    have hc : c ≠ '\n' := fun e => h (e ▸ List.mem_cons_self c rest)
    have hrest : '\n' ∉ rest := fun m => h (List.mem_cons_of_mem c m)
    rw [splitLines_cons c rest rest [] (ih hrest), if_neg hc]

theorem splitLines_append_newline (a r : List Char) (h : '\n' ∉ a) :
    splitLines (a ++ '\n' :: r) = a :: splitLines r := by
  induction a with
  | nil =>
    match hs : splitLines r with
    | [] => exact absurd hs (splitLines_ne_nil r)
    | hd :: tl =>
      rw [List.nil_append, splitLines_cons '\n' r hd tl hs, if_pos rfl]
  | cons c rest ih =>
    have hc : c ≠ '\n' := fun e => h (e ▸ List.mem_cons_self c rest)
    have hrest : '\n' ∉ rest := fun m => h (List.mem_cons_of_mem c m)
    rw [List.cons_append,
      splitLines_cons c (rest ++ '\n' :: r) rest (splitLines r) (ih hrest), if_neg hc]

theorem splitLines_joinLines (ls : List (List Char)) (hne : ls ≠ [])
    (hnl : ∀ p ∈ ls, '\n' ∉ p) : splitLines (joinLines ls) = ls := by
  induction ls with
  | nil => exact absurd rfl hne
  | cons a ls ih =>
    match ls with
    | [] =>
      show splitLines (joinLines [a]) = [a]
      exact splitLines_of_no_newline a (hnl a (by simp))
    | b :: ls' =>
      show splitLines (a ++ '\n' :: joinLines (b :: ls')) = a :: b :: ls'
      rw [splitLines_append_newline a _ (hnl a (by simp))]
      rw [ih (by simp) (fun p hp => hnl p (List.mem_cons_of_mem a hp))]

theorem isPrefixOf_append_left (p a b : List Char) (h : p.length ≤ a.length) :
    p.isPrefixOf (a ++ b) = p.isPrefixOf a := by
  induction p generalizing a with
  | nil => simp [List.isPrefixOf]
  | cons x p ih =>
    cases a with
    | nil => simp at h
    | cons y a' =>
      simp only [List.cons_append, List.isPrefixOf_cons₂_self]
      show (x == y && p.isPrefixOf (a' ++ b)) = (x == y && p.isPrefixOf a')
      rw [ih a' (by simpa using h)]

theorem headingPass_lines_eq (hashes o c : List Char) (t : List Char)
    (hno : '\n' ∉ o) (hnc : '\n' ∉ c) :
    splitLines (headingPass hashes o c t) = (splitLines t).map fun line =>
      if hashes.isPrefixOf line then o ++ line.drop hashes.length ++ c else line := by
  unfold headingPass
  apply splitLines_joinLines
  · simp [splitLines_ne_nil t]
  · intro p hp
    obtain ⟨line, hline, rfl⟩ := List.mem_map.mp hp
    by_cases h : hashes.isPrefixOf line
    · rw [if_pos h]
      intro hm
      simp only [List.mem_append] at hm
      rcases hm with (ho | hd) | hc
      · exact hno ho
      · exact newline_not_mem_splitLines t line hline (List.drop_subset _ _ hd)
      · exact hnc hc
    · rw [if_neg h]
      exact newline_not_mem_splitLines t line hline

theorem headings_eq_per_line (t : List Char) :
    headings t = joinLines ((splitLines t).map headingLine) := by
  have e3 : splitLines (headingPass "### ".data h3Open h3Close t)
      = (splitLines t).map fun line =>
        if "### ".data.isPrefixOf line then h3Open ++ line.drop 4 ++ h3Close
        else line :=
    headingPass_lines_eq _ _ _ t (by decide) (by decide)
  have e2 : splitLines (headingPass "## ".data h2Open h2Close
        (headingPass "### ".data h3Open h3Close t))
      = ((splitLines t).map fun line =>
          if "### ".data.isPrefixOf line then h3Open ++ line.drop 4 ++ h3Close
          else line).map fun line =>
        if "## ".data.isPrefixOf line then h2Open ++ line.drop 3 ++ h2Close
        else line := by
    rw [headingPass_lines_eq _ _ _ _ (by decide) (by decide), e3]
    exact rfl
  show joinLines ((splitLines (headingPass "## ".data h2Open h2Close
      (headingPass "### ".data h3Open h3Close t))).map fun line =>
        if "# ".data.isPrefixOf line then h1Open ++ line.drop 2 ++ h1Close
        else line) = _
  rw [e2, List.map_map, List.map_map]
  congr 1
  apply map_eq_map_of_eq_on
  intro line hline
  simp only [Function.comp]
  by_cases p3 : "### ".data.isPrefixOf line
  · rw [if_pos p3]
    have hA2 : "## ".data.isPrefixOf (h3Open ++ line.drop 4 ++ h3Close) = false := by
      rw [List.append_assoc, isPrefixOf_append_left _ _ _ (by decide)]
      decide
    have hA1 : "# ".data.isPrefixOf (h3Open ++ line.drop 4 ++ h3Close) = false := by
      rw [List.append_assoc, isPrefixOf_append_left _ _ _ (by decide)]
      decide
    rw [hA2]
    simp only [Bool.false_eq_true, if_false]
    rw [hA1]
    simp only [Bool.false_eq_true, if_false]
    unfold headingLine
    rw [if_pos p3]
  · rw [if_neg p3]
    by_cases p2 : "## ".data.isPrefixOf line
    · rw [if_pos p2]
      have hB1 : "# ".data.isPrefixOf (h2Open ++ line.drop 3 ++ h2Close) = false := by
        rw [List.append_assoc, isPrefixOf_append_left _ _ _ (by decide)]
        decide
      rw [hB1]
      simp only [Bool.false_eq_true, if_false]
      unfold headingLine
      rw [if_neg p3, if_pos p2]
    · rw [if_neg p2]
      by_cases p1 : "# ".data.isPrefixOf line
      · rw [if_pos p1]
        unfold headingLine
        rw [if_neg p3, if_neg p2, if_pos p1]
      · rw [if_neg p1]
        unfold headingLine
        rw [if_neg p3, if_neg p2, if_neg p1]

theorem zip_self {α : Type} (l : List α) :
    List.zip l l = l.map fun a => (a, a) := by
  induction l with
  | nil => rfl
  | cons a l ih => simp [List.zip_cons_cons, ih]

/-! ## JSON lemmas -/

theorem skipWs_append_ws (w z : List Char) (hw : ∀ c ∈ w, isWsJson c = true) :
    skipWs (w ++ z) = skipWs z := by
  induction w with
  | nil => rfl
  | cons c w ih =>
    show List.dropWhile isWsJson (c :: (w ++ z)) = _
    rw [List.dropWhile_cons, if_pos (hw c (by simp))]
    exact ih (fun c' hc' => hw c' (by simp [hc']))

theorem skipWs_cons_not_ws (c : Char) (r : List Char) (h : isWsJson c = false) :
    skipWs (c :: r) = c :: r := by
  show List.dropWhile isWsJson (c :: r) = _
  rw [List.dropWhile_cons, if_neg (by simp [h])]

theorem spaces_all_ws (n : Nat) : ∀ c ∈ spaces n, isWsJson c = true := by
  induction n with
  | zero => simp [spaces]
  | succ n ih =>
    intro c hc
    rcases List.mem_cons.mp hc with he | hm
    · subst he
      rfl
    · exact ih c hm

theorem digitVal_digitChar (m : Nat) (h : m < 10) : (digitChar m).toNat - 48 = m := by
  interval_cases m <;> decide

theorem digitChar_isDigit (m : Nat) (h : m < 10) : (digitChar m).isDigit = true := by
  interval_cases m <;> decide

theorem digitChar_not_ws (m : Nat) (h : m < 10) : isWsJson (digitChar m) = false := by
  interval_cases m <;> decide

theorem isHex_hexDigit (m : Nat) (h : m < 16) : isHex (hexDigit m) = true := by
  interval_cases m <;> decide

theorem hexVal_hexDigit (m : Nat) (h : m < 16) : hexVal (hexDigit m) = m := by
  interval_cases m <;> decide

theorem natDigitsAux_all_digit (fuel : Nat) :
    ∀ n, ∀ c ∈ natDigitsAux fuel n, c.isDigit = true := by
  induction fuel with
  | zero => simp [natDigitsAux]
  | succ fuel ih =>
    intro n c hc
    unfold natDigitsAux at hc
    by_cases h : n < 10
    · rw [if_pos h] at hc
      simp at hc
      rw [hc]
      exact digitChar_isDigit n h
    · rw [if_neg h] at hc
      rcases List.mem_append.mp hc with hm | hm
      · exact ih (n / 10) c hm
      · simp at hm
        rw [hm]
        exact digitChar_isDigit _ (Nat.mod_lt n (by omega))

theorem natDigitsAux_ne_nil (fuel n : Nat) (h : n < fuel) :
    natDigitsAux fuel n ≠ [] := by
  cases fuel with
  | zero => omega
  | succ fuel =>
    unfold natDigitsAux
    by_cases h10 : n < 10
    · rw [if_pos h10]
      simp
    · rw [if_neg h10]
      simp

theorem natDigitsAux_foldl (fuel : Nat) :
    ∀ n acc, n < fuel →
      (natDigitsAux fuel n).foldl (fun a c => a * 10 + (c.toNat - 48)) acc
        = acc * 10 ^ (natDigitsAux fuel n).length + n := by
  induction fuel with
  | zero => omega
  | succ fuel ih =>
    intro n acc h
    unfold natDigitsAux
    by_cases h10 : n < 10
    · rw [if_pos h10]
      simp [List.foldl, digitVal_digitChar n h10]
    · rw [if_neg h10]
      rw [List.foldl_append, List.length_append]
      have hdiv : n / 10 < fuel := by
        have : n / 10 < n := Nat.div_lt_self (by omega) (by omega)
        omega
      rw [ih (n / 10) acc hdiv]
      simp only [List.foldl, List.length_cons, List.length_nil]
      rw [digitVal_digitChar _ (Nat.mod_lt n (by omega))]
      have hmod := Nat.div_add_mod n 10
      ring_nf
      omega

theorem digitsVal_natDigits (n : Nat) : digitsVal (natDigits n) = n := by
  unfold digitsVal natDigits
  rw [natDigitsAux_foldl (n + 1) n 0 (by omega)]
  simp

theorem takeWhile_append_all (p : Char → Bool) (xs ys : List Char)
    (h : ∀ c ∈ xs, p c = true)
    (hy : ∀ c r, ys = c :: r → p c = false) :
    (xs ++ ys).takeWhile p = xs ∧ (xs ++ ys).dropWhile p = ys := by
  induction xs with
  | nil =>
    simp only [List.nil_append]
    match ys with
    | [] => simp
    | c :: ys' =>
      have hy2 := hy c ys' rfl
      rw [List.takeWhile_cons, List.dropWhile_cons]
      simp [hy2]
  | cons x xs ih =>
    have hx := h x (by simp)
    obtain ⟨h1, h2⟩ := ih (fun c hc => h c (by simp [hc]))
    simp only [List.cons_append, List.takeWhile_cons, List.dropWhile_cons, hx]
    simp [h1, h2]

theorem parseNat_round (n : Nat) (rest : List Char)
    (hrest : ∀ c r, rest = c :: r → c.isDigit = false) :
    parseNat (natDigits n ++ rest) = some (n, rest) := by
  obtain ⟨h1, h2⟩ := takeWhile_append_all Char.isDigit (natDigits n) rest
    (natDigitsAux_all_digit (n + 1) n) hrest
  unfold parseNat
  rw [h1, h2]
  have hne := natDigitsAux_ne_nil (n + 1) n (by omega)
  match hd : natDigits n with
  | [] => exact absurd hd hne
  | c :: ds =>
    rw [← hd]
    simp only [hd]
    rw [← hd, digitsVal_natDigits]

theorem psb_quote (rest : List Char) : parseStringBody ('"' :: rest) = some ([], rest) := by
  rw [parseStringBody.eq_def]
  simp

theorem psb_esc (e : Char) (rest : List Char) (ch : Char) (he : e ≠ 'u')
    (hd : escDecode e = some ch) :
    parseStringBody ('\\' :: e :: rest)
      = (parseStringBody rest).map fun p => (ch :: p.1, p.2) := by
  rw [parseStringBody.eq_def]
  simp [he, hd]

theorem psb_unicode (a b c2 d : Char) (rest : List Char)
    (h : (isHex a && isHex b && isHex c2 && isHex d) = true) :
    parseStringBody ('\\' :: 'u' :: a :: b :: c2 :: d :: rest)
      = (parseStringBody rest).map fun p =>
          (Char.ofNat (hexVal a * 4096 + hexVal b * 256 +
            hexVal c2 * 16 + hexVal d) :: p.1, p.2) := by
  rw [parseStringBody.eq_def]
  simp [h]

theorem psb_plain (c : Char) (rest : List Char) (h1 : c ≠ '"') (h2 : c ≠ '\\') :
    parseStringBody (c :: rest)
      = (parseStringBody rest).map fun p => (c :: p.1, p.2) := by
  rw [parseStringBody.eq_def]
  simp [h1, h2]

theorem parseStringBody_round (s rest : List Char) :
    parseStringBody (escString s ++ ('"' :: rest)) = some (s, rest) := by
  induction s with
  | nil => exact psb_quote rest
  | cons c s ih =>
    show parseStringBody (escChar c ++ escString s ++ ('"' :: rest)) = _
    rw [List.append_assoc]
    unfold escChar
    by_cases h1 : c = '"'
    · rw [if_pos h1]
      rw [show (['\\', '"'] : List Char) ++ (escString s ++ ('"' :: rest))
          = '\\' :: '"' :: (escString s ++ ('"' :: rest)) from rfl]
      rw [psb_esc '"' _ '"' (by decide) (by decide), ih, h1]
      rfl
    rw [if_neg h1]
    by_cases h2 : c = '\\'
    · rw [if_pos h2]
      rw [show (['\\', '\\'] : List Char) ++ (escString s ++ ('"' :: rest))
          = '\\' :: '\\' :: (escString s ++ ('"' :: rest)) from rfl]
      rw [psb_esc '\\' _ '\\' (by decide) (by decide), ih, h2]
      rfl
    rw [if_neg h2]
    by_cases h3 : c = Char.ofNat 8
    · rw [if_pos h3]
      rw [show (['\\', 'b'] : List Char) ++ (escString s ++ ('"' :: rest))
          = '\\' :: 'b' :: (escString s ++ ('"' :: rest)) from rfl]
      rw [psb_esc 'b' _ (Char.ofNat 8) (by decide) (by decide), ih, h3]
      rfl
    rw [if_neg h3]
    by_cases h4 : c = Char.ofNat 12
    · rw [if_pos h4]
      rw [show (['\\', 'f'] : List Char) ++ (escString s ++ ('"' :: rest))
          = '\\' :: 'f' :: (escString s ++ ('"' :: rest)) from rfl]
      rw [psb_esc 'f' _ (Char.ofNat 12) (by decide) (by decide), ih, h4]
      rfl
    rw [if_neg h4]
    by_cases h5 : c = '\n'
    · rw [if_pos h5]
      rw [show (['\\', 'n'] : List Char) ++ (escString s ++ ('"' :: rest))
          = '\\' :: 'n' :: (escString s ++ ('"' :: rest)) from rfl]
      rw [psb_esc 'n' _ '\n' (by decide) (by decide), ih, h5]
      rfl
    rw [if_neg h5]
    by_cases h6 : c = '\r'
    · rw [if_pos h6]
      rw [show (['\\', 'r'] : List Char) ++ (escString s ++ ('"' :: rest))
          = '\\' :: 'r' :: (escString s ++ ('"' :: rest)) from rfl]
      rw [psb_esc 'r' _ '\r' (by decide) (by decide), ih, h6]
      rfl
    rw [if_neg h6]
    by_cases h7 : c = '\t'
    · rw [if_pos h7]
      rw [show (['\\', 't'] : List Char) ++ (escString s ++ ('"' :: rest))
          = '\\' :: 't' :: (escString s ++ ('"' :: rest)) from rfl]
      rw [psb_esc 't' _ '\t' (by decide) (by decide), ih, h7]
      rfl
    rw [if_neg h7]
    by_cases h8 : c.toNat < 32
    · rw [if_pos h8]
      rw [show (['\\', 'u', '0', '0', hexDigit (c.toNat / 16), hexDigit (c.toNat % 16)] : List Char)
            ++ (escString s ++ ('"' :: rest))
          = '\\' :: 'u' :: '0' :: '0' :: hexDigit (c.toNat / 16) ::
            hexDigit (c.toNat % 16) :: (escString s ++ ('"' :: rest)) from rfl]
      rw [psb_unicode _ _ _ _ _ (by
        rw [isHex_hexDigit _ (by omega), isHex_hexDigit _ (Nat.mod_lt _ (by omega))]
        decide), ih]
      simp only [Option.map]
      rw [hexVal_hexDigit _ (by omega), hexVal_hexDigit _ (Nat.mod_lt _ (by omega))]
      have : (hexVal '0' * 4096 + hexVal '0' * 256 + c.toNat / 16 * 16 + c.toNat % 16)
          = c.toNat := by
        have := Nat.div_add_mod c.toNat 16
        simp [hexVal]
        omega
      rw [this, Char.ofNat_toNat]
    · rw [if_neg h8]
      rw [show ([c] : List Char) ++ (escString s ++ ('"' :: rest))
          = c :: (escString s ++ ('"' :: rest)) from rfl]
      rw [psb_plain _ _ h1 h2, ih]
      rfl

/-! ## Parser equation lemmas -/

theorem parseValue_succ (fuel : Nat) (l : List Char) (c : Char) (rest : List Char)
    (h : skipWs l = c :: rest) :
    parseValue (fuel + 1) l = parseValueBody fuel c rest := by
  unfold parseValue
  split
  · rename_i heq
    rw [h] at heq
    cases heq
  · rename_i c2 rest2 heq
    rw [h] at heq
    injection heq with e1 e2
    subst e1
    subst e2
    rfl

theorem arrStep_cons (fuel : Nat) (rest : List Char) (c1 : Char) (r1 : List Char)
    (h : skipWs rest = c1 :: r1) :
    arrStep fuel rest =
      (if c1 = ']' then some (Json.arr .nil, r1)
      else (parseElems fuel (c1 :: r1)).map fun p => (Json.arr p.1, p.2)) := by
  unfold arrStep
  split
  · rename_i heq
    rw [h] at heq
    cases heq
  · rename_i c2 rest2 heq
    rw [h] at heq
    injection heq with e1 e2
    subst e1
    subst e2
    rfl

theorem objStep_cons (fuel : Nat) (rest : List Char) (c1 : Char) (r1 : List Char)
    (h : skipWs rest = c1 :: r1) :
    objStep fuel rest =
      (if c1 = curlyClose then some (Json.obj .nil, r1)
      else (parseMembers fuel (c1 :: r1)).map fun p => (Json.obj p.1, p.2)) := by
  unfold objStep
  split
  · rename_i heq
    rw [h] at heq
    cases heq
  · rename_i c2 rest2 heq
    rw [h] at heq
    injection heq with e1 e2
    subst e1
    subst e2
    rfl

theorem parseElems_succ (fuel : Nat) (l : List Char) :
    parseElems (fuel + 1) l =
      (parseValue fuel l).bind fun vr => elemsStep fuel vr.1 vr.2 := rfl

theorem elemsStep_cons (fuel : Nat) (v : Json) (r : List Char) (c : Char)
    (r2 : List Char) (h : skipWs r = c :: r2) :
    elemsStep fuel v r =
      (if c = ',' then (parseElems fuel r2).map fun p => (JsonList.cons v p.1, p.2)
      else if c = ']' then some (.cons v .nil, r2)
      else none) := by
  unfold elemsStep
  split
  · rename_i heq
    rw [h] at heq
    cases heq
  · rename_i c2 rest2 heq
    rw [h] at heq
    injection heq with e1 e2
    subst e1
    subst e2
    rfl

theorem parseMembers_cons (fuel : Nat) (l : List Char) (c : Char) (r : List Char)
    (h : skipWs l = c :: r) :
    parseMembers (fuel + 1) l =
      (if c = '"' then
        (parseStringBody r).bind fun kr => membersKeyStep fuel kr.1 kr.2
      else none) := by
  unfold parseMembers
  split
  · rename_i heq
    rw [h] at heq
    cases heq
  · rename_i c2 rest2 heq
    rw [h] at heq
    injection heq with e1 e2
    subst e1
    subst e2
    rfl

theorem membersKeyStep_cons (fuel : Nat) (k : List Char) (r1 : List Char) (c : Char)
    (r2 : List Char) (h : skipWs r1 = c :: r2) :
    membersKeyStep fuel k r1 =
      (if c = ':' then
        (parseValue fuel r2).bind fun vr => membersValStep fuel k vr.1 vr.2
      else none) := by
  unfold membersKeyStep
  split
  · rename_i heq
    rw [h] at heq
    cases heq
  · rename_i c2 rest2 heq
    rw [h] at heq
    injection heq with e1 e2
    subst e1
    subst e2
    rfl

theorem membersValStep_cons (fuel : Nat) (k : List Char) (v : Json) (r3 : List Char)
    (c : Char) (r4 : List Char) (h : skipWs r3 = c :: r4) :
    membersValStep fuel k v r3 =
      (if c = ',' then
        (parseMembers fuel r4).map fun p => (JsonFields.cons (String.mk k) v p.1, p.2)
      else if c = curlyClose then some (.cons (String.mk k) v .nil, r4)
      else none) := by
  unfold membersValStep
  split
  · rename_i heq
    rw [h] at heq
    cases heq
  · rename_i c2 rest2 heq
    rw [h] at heq
    injection heq with e1 e2
    subst e1
    subst e2
    rfl

theorem parseValue_ws (fuel : Nat) (w z : List Char)
    (hw : ∀ c ∈ w, isWsJson c = true) :
    parseValue fuel (w ++ z) = parseValue fuel z := by
  cases fuel with
  | zero => rfl
  | succ fuel =>
    unfold parseValue
    rw [skipWs_append_ws w z hw]

theorem parseElems_ws (fuel : Nat) (w z : List Char)
    (hw : ∀ c ∈ w, isWsJson c = true) :
    parseElems fuel (w ++ z) = parseElems fuel z := by
  cases fuel with
  | zero => rfl
  | succ fuel =>
    unfold parseElems
    rw [parseValue_ws fuel w z hw]

theorem parseMembers_ws (fuel : Nat) (w z : List Char)
    (hw : ∀ c ∈ w, isWsJson c = true) :
    parseMembers fuel (w ++ z) = parseMembers fuel z := by
  cases fuel with
  | zero => rfl
  | succ fuel =>
    unfold parseMembers
    rw [skipWs_append_ws w z hw]

/-! ## Head characters of printed values -/

theorem nl_spaces_ws (n : Nat) : ∀ c ∈ '\n' :: spaces n, isWsJson c = true := by
  intro c hc
  rcases List.mem_cons.mp hc with rfl | hm
  · decide
  · exact spaces_all_ws n c hm

theorem natDigitsAux_head (fuel : Nat) :
    ∀ n c r, natDigitsAux fuel n = c :: r → ∃ m, m < 10 ∧ c = digitChar m := by
  induction fuel with
  | zero =>
    intro n c r h
    simp [natDigitsAux] at h
  | succ fuel ih =>
    intro n c r h
    unfold natDigitsAux at h
    by_cases h10 : n < 10
    · rw [if_pos h10] at h
      injection h with h1 h2
      exact ⟨n, h10, h1.symm⟩
    · rw [if_neg h10] at h
      cases haux : natDigitsAux fuel (n / 10) with
      | nil =>
        rw [haux, List.nil_append] at h
        injection h with h1 h2
        exact ⟨n % 10, Nat.mod_lt _ (by omega), h1.symm⟩
      | cons c0 r0 =>
        rw [haux, List.cons_append] at h
        injection h with h1 h2
        obtain ⟨m, hm, he⟩ := ih (n / 10) c0 r0 haux
        exact ⟨m, hm, by rw [← h1]; exact he⟩

theorem digitChar_props (m : Nat) (h : m < 10) :
    digitChar m ≠ '"' ∧ digitChar m ≠ 'n' ∧ digitChar m ≠ 't' ∧ digitChar m ≠ 'f' ∧
    digitChar m ≠ '[' ∧ digitChar m ≠ curlyOpen ∧ digitChar m ≠ '-' ∧
    (digitChar m).isDigit = true ∧ isWsJson (digitChar m) = false ∧
    digitChar m ≠ ']' := by
  interval_cases m <;> exact (by decide)

theorem printJson_head (d : Nat) (j : Json) :
    ∃ c r, printJson d j = c :: r ∧ isWsJson c = false ∧ c ≠ ']' := by
  cases j with
  | null => exact ⟨'n', ['u', 'l', 'l'], rfl, by decide, by decide⟩
  | bool b =>
    cases b with
    | false => exact ⟨'f', ['a', 'l', 's', 'e'], rfl, by decide, by decide⟩
    | true => exact ⟨'t', ['r', 'u', 'e'], rfl, by decide, by decide⟩
  | num n =>
    by_cases hn : n < 0
    · refine ⟨'-', natDigits (-n).toNat, ?_, by decide, by decide⟩
      show (if n < 0 then '-' :: natDigits (-n).toNat else natDigits n.toNat) = _
      rw [if_pos hn]
    · have hne : natDigits n.toNat ≠ [] :=
        natDigitsAux_ne_nil (n.toNat + 1) n.toNat (Nat.lt_succ_self _)
      cases hd : natDigits n.toNat with
      | nil => exact absurd hd hne
      | cons c ds =>
        have hd2 : natDigitsAux (n.toNat + 1) n.toNat = c :: ds := hd
        obtain ⟨m, hm, hc⟩ := natDigitsAux_head (n.toNat + 1) n.toNat c ds hd2
        obtain ⟨_, _, _, _, _, _, _, _, hws, hrb⟩ := digitChar_props m hm
        refine ⟨c, ds, ?_, ?_, ?_⟩
        · show (if n < 0 then '-' :: natDigits (-n).toNat else natDigits n.toNat) = _
          rw [if_neg hn, hd]
        · rw [hc]; exact hws
        · rw [hc]; exact hrb
  | str s => exact ⟨'"', escString s.data ++ ['"'], rfl, by decide, by decide⟩
  | arr xs =>
    cases xs with
    | nil => exact ⟨'[', [']'], rfl, by decide, by decide⟩
    | cons x xs =>
      exact ⟨'[', printElems d (.cons x xs) ++ '\n' :: (spaces (2 * d) ++ [']']),
        rfl, by decide, by decide⟩
  | obj fs =>
    cases fs with
    | nil => exact ⟨curlyOpen, [curlyClose], rfl, by decide, by decide⟩
    | cons k v fs =>
      exact ⟨curlyOpen, printFields d (.cons k v fs) ++ '\n' :: (spaces (2 * d) ++ [curlyClose]),
        rfl, by decide, by decide⟩

/-! ## Shapes of printed spines -/

theorem printElems_shape (d : Nat) (x : Json) (xs : JsonList) :
    printElems d (.cons x xs) =
      '\n' :: (spaces (2 * (d + 1)) ++ (printJson (d + 1) x ++ elemsTail d xs)) := by
  cases xs with
  | nil => simp [printElems, elemsTail]
  | cons y ys => simp [printElems, elemsTail, List.append_assoc]

theorem printFields_shape (d : Nat) (k : String) (v : Json) (fs : JsonFields) :
    printFields d (.cons k v fs) =
      '\n' :: (spaces (2 * (d + 1)) ++ ('"' :: (escString k.data ++
        ('"' :: (':' :: (' ' :: (printJson (d + 1) v ++ fieldsTail d fs))))))) := by
  cases fs with
  | nil => simp [printFields, fieldsTail]
  | cons k2 v2 fs2 => simp [printFields, fieldsTail, List.append_assoc]

/-! ## Fuel bounds -/

theorem fuelV_pos (j : Json) : 1 ≤ fuelV j := by
  cases j with
  | null => simp [fuelV]
  | bool b => simp [fuelV]
  | num n => simp [fuelV]
  | str s => simp [fuelV]
  | arr xs => cases xs <;> simp [fuelV]
  | obj fs => cases fs <;> simp [fuelV]

theorem spaces_length (n : Nat) : (spaces n).length = n := by
  induction n with
  | zero => rfl
  | succ n ih => simp [spaces, ih]

mutual
theorem fuelV_le (d : Nat) (j : Json) : fuelV j ≤ (printJson d j).length + 1 := by
  cases j with
  | null => simp [fuelV]
  | bool b => cases b <;> simp [fuelV]
  | num n => simp [fuelV]
  | str s => simp [fuelV]
  | arr xs =>
    cases xs with
    | nil => simp [fuelV]
    | cons x xs =>
      have h := fuelE_le d x xs
      have hp : printJson d (.arr (.cons x xs)) =
          '[' :: (printElems d (.cons x xs) ++ '\n' :: (spaces (2 * d) ++ [']'])) := rfl
      rw [hp]
      simp only [fuelV, List.length_cons, List.length_append]
      omega
  | obj fs =>
    cases fs with
    | nil => simp [fuelV]
    | cons k v fs =>
      have h := fuelM_le d k v fs
      have hp : printJson d (.obj (.cons k v fs)) =
          curlyOpen :: (printFields d (.cons k v fs) ++ '\n' :: (spaces (2 * d) ++ [curlyClose])) := rfl
      rw [hp]
      simp only [fuelV, List.length_cons, List.length_append]
      omega
termination_by sizeOf j

theorem fuelE_le (d : Nat) (x : Json) (xs : JsonList) :
    fuelE (.cons x xs) ≤ (printElems d (.cons x xs)).length := by
  cases xs with
  | nil =>
    have h := fuelV_le (d + 1) x
    have hp : printElems d (.cons x .nil) =
        '\n' :: (spaces (2 * (d + 1)) ++ printJson (d + 1) x) := rfl
    rw [hp]
    simp only [fuelE, List.length_cons, List.length_append, spaces_length]
    have h1 : max (fuelV x) (fuelE .nil) ≤ (printJson (d + 1) x).length + 1 :=
      Nat.max_le.mpr ⟨h, by
        have h5 : fuelE JsonList.nil = 1 := rfl
        omega⟩
    omega
  | cons y ys =>
    have h := fuelV_le (d + 1) x
    have h2 := fuelE_le d y ys
    have hp : printElems d (.cons x (.cons y ys)) =
        '\n' :: (spaces (2 * (d + 1)) ++ printJson (d + 1) x ++
          ',' :: printElems d (.cons y ys)) := rfl
    rw [hp]
    have hout : fuelE (.cons x (.cons y ys)) =
        1 + max (fuelV x) (fuelE (.cons y ys)) := rfl
    rw [hout]
    simp only [List.length_cons, List.length_append, spaces_length]
    have h1 : max (fuelV x) (fuelE (.cons y ys)) ≤
        (printJson (d + 1) x).length + 1 + (printElems d (.cons y ys)).length :=
      Nat.max_le.mpr ⟨by omega, by omega⟩
    omega
termination_by sizeOf (JsonList.cons x xs)

theorem fuelM_le (d : Nat) (k : String) (v : Json) (fs : JsonFields) :
    fuelM (.cons k v fs) ≤ (printFields d (.cons k v fs)).length := by
  cases fs with
  | nil =>
    have h := fuelV_le (d + 1) v
    have hp : printFields d (.cons k v .nil) =
        '\n' :: (spaces (2 * (d + 1)) ++ '"' :: (escString k.data ++
          '"' :: ':' :: ' ' :: printJson (d + 1) v)) := rfl
    rw [hp]
    simp only [fuelM, List.length_cons, List.length_append, spaces_length]
    have h1 : max (fuelV v) (fuelM .nil) ≤ (printJson (d + 1) v).length + 1 :=
      Nat.max_le.mpr ⟨h, by
        have h5 : fuelM JsonFields.nil = 1 := rfl
        omega⟩
    omega
  | cons k2 v2 fs2 =>
    have h := fuelV_le (d + 1) v
    have h2 := fuelM_le d k2 v2 fs2
    have hp : printFields d (.cons k v (.cons k2 v2 fs2)) =
        '\n' :: (spaces (2 * (d + 1)) ++ '"' :: (escString k.data ++
          '"' :: ':' :: ' ' :: printJson (d + 1) v ++
          ',' :: printFields d (.cons k2 v2 fs2))) := rfl
    rw [hp]
    have hout : fuelM (.cons k v (.cons k2 v2 fs2)) =
        1 + max (fuelV v) (fuelM (.cons k2 v2 fs2)) := rfl
    rw [hout]
    simp only [List.length_cons, List.length_append, spaces_length]
    have h1 : max (fuelV v) (fuelM (.cons k2 v2 fs2)) ≤
        (printJson (d + 1) v).length + 1 + (printFields d (.cons k2 v2 fs2)).length :=
      Nat.max_le.mpr ⟨by omega, by omega⟩
    omega
termination_by sizeOf (JsonFields.cons k v fs)
end

/-! ## The print-parse round trip -/

theorem stringMk_data (s : String) : String.mk s.data = s := rfl

theorem numStop_cons (j : Json) (c : Char) (r : List Char) (hc : c.isDigit = false) :
    numStop j (c :: r) := by
  cases j with
  | num n =>
    intro c2 r2 h2
    injection h2 with e1 e2
    subst e1
    exact hc
  | null => trivial
  | bool b => trivial
  | str s => trivial
  | arr xs => trivial
  | obj fs => trivial

theorem numStop_nil (j : Json) : numStop j [] := by
  cases j with
  | num n =>
    intro c2 r2 h2
    simp at h2
  | null => trivial
  | bool b => trivial
  | str s => trivial
  | arr xs => trivial
  | obj fs => trivial

theorem numStop_forall (n : Int) (rest : List Char)
    (hstop : numStop (Json.num n) rest) :
    ∀ c r, rest = c :: r → c.isDigit = false := hstop

theorem space_ws : ∀ c ∈ [' '], isWsJson c = true := by
  intro c hc
  rw [List.mem_singleton] at hc
  subst hc
  rfl

mutual
/-- Parsing inverts printing for a single value, given enough fuel and a
continuation that cannot extend a printed number. -/
theorem printJson_parse (fuel d : Nat) (j : Json) (rest : List Char)
    (hf : fuelV j ≤ fuel) (hstop : numStop j rest) :
    parseValue fuel (printJson d j ++ rest) = some (j, rest) := by
  cases fuel with
  | zero =>
    exfalso
    have := fuelV_pos j
    omega
  | succ f =>
    cases j with
    | null =>
      have hp : printJson d Json.null = 'n' :: ('u' :: ('l' :: ('l' :: []))) := rfl
      rw [hp]
      simp only [List.cons_append, List.nil_append]
      rw [parseValue_succ f _ 'n' ('u' :: ('l' :: ('l' :: rest)))
        (skipWs_cons_not_ws 'n' _ (by decide))]
      rfl
    | bool b =>
      cases b with
      | true =>
        have hp : printJson d (Json.bool true) = 't' :: ('r' :: ('u' :: ('e' :: []))) := rfl
        rw [hp]
        simp only [List.cons_append, List.nil_append]
        rw [parseValue_succ f _ 't' ('r' :: ('u' :: ('e' :: rest)))
          (skipWs_cons_not_ws 't' _ (by decide))]
        rfl
      | false =>
        have hp : printJson d (Json.bool false) =
            'f' :: ('a' :: ('l' :: ('s' :: ('e' :: [])))) := rfl
        rw [hp]
        simp only [List.cons_append, List.nil_append]
        rw [parseValue_succ f _ 'f' ('a' :: ('l' :: ('s' :: ('e' :: rest))))
          (skipWs_cons_not_ws 'f' _ (by decide))]
        rfl
    | str s =>
      have hp : printJson d (Json.str s) = '"' :: (escString s.data ++ ['"']) := rfl
      rw [hp]
      simp only [List.cons_append, List.append_assoc, List.nil_append]
      rw [parseValue_succ f _ '"' (escString s.data ++ ('"' :: rest))
        (skipWs_cons_not_ws '"' _ (by decide))]
      show (parseStringBody (escString s.data ++ ('"' :: rest))).map
          (fun p => (Json.str (String.mk p.1), p.2)) = some (Json.str s, rest)
      rw [parseStringBody_round s.data rest]
      rfl
    | num n =>
      have hrest := numStop_forall n rest hstop
      have hp : printJson d (Json.num n) =
          if n < 0 then '-' :: natDigits (-n).toNat else natDigits n.toNat := rfl
      by_cases hn : n < 0
      · rw [hp, if_pos hn]
        simp only [List.cons_append]
        rw [parseValue_succ f _ '-' (natDigits (-n).toNat ++ rest)
          (skipWs_cons_not_ws '-' _ (by decide))]
        show (parseNat (natDigits (-n).toNat ++ rest)).map
            (fun p => (Json.num (-(p.1 : Int)), p.2)) = some (Json.num n, rest)
        rw [parseNat_round (-n).toNat rest hrest]
        simp only [Option.map]
        rw [Int.toNat_of_nonneg (by omega : (0 : Int) ≤ -n), neg_neg]
      · rw [hp, if_neg hn]
        have hne : natDigits n.toNat ≠ [] :=
          natDigitsAux_ne_nil (n.toNat + 1) n.toNat (Nat.lt_succ_self _)
        cases hd : natDigits n.toNat with
        | nil => exact absurd hd hne
        | cons c ds =>
          have hd2 : natDigitsAux (n.toNat + 1) n.toNat = c :: ds := hd
          obtain ⟨m, hm, hc⟩ := natDigitsAux_head (n.toNat + 1) n.toNat c ds hd2
          subst hc
          obtain ⟨hq, hn2, ht, hf2, hb, hco, hmi, hdig, hws, hrb⟩ := digitChar_props m hm
          rw [List.cons_append]
          rw [parseValue_succ f _ (digitChar m) (ds ++ rest)
            (skipWs_cons_not_ws _ _ hws)]
          unfold parseValueBody
          rw [if_neg hq, if_neg hn2, if_neg ht, if_neg hf2, if_neg hb, if_neg hco,
            if_neg hmi, if_pos hdig]
          have hlist2 : digitChar m :: (ds ++ rest) = natDigits n.toNat ++ rest := by
            rw [hd, List.cons_append]
          rw [hlist2, parseNat_round n.toNat rest hrest]
          simp only [Option.map]
          rw [Int.toNat_of_nonneg (by omega : (0 : Int) ≤ n)]
    | arr xs =>
      cases xs with
      | nil =>
        have hp : printJson d (Json.arr .nil) = '[' :: (']' :: []) := rfl
        rw [hp]
        simp only [List.cons_append, List.nil_append]
        rw [parseValue_succ f _ '[' (']' :: rest)
          (skipWs_cons_not_ws '[' _ (by decide))]
        show arrStep f (']' :: rest) = some (Json.arr .nil, rest)
        rw [arrStep_cons f _ ']' rest (skipWs_cons_not_ws ']' _ (by decide))]
        rw [if_pos rfl]
      | cons x xs =>
        have hf2 : fuelE (.cons x xs) ≤ f := by
          have hout : fuelV (Json.arr (.cons x xs)) = 1 + fuelE (.cons x xs) := rfl
          rw [hout] at hf
          omega
        have hp : printJson d (Json.arr (.cons x xs)) =
            '[' :: (printElems d (.cons x xs) ++ '\n' :: (spaces (2 * d) ++ [']'])) := rfl
        rw [hp]
        simp only [List.cons_append, List.append_assoc, List.nil_append]
        rw [parseValue_succ f _ '['
          (printElems d (.cons x xs) ++ ('\n' :: (spaces (2 * d) ++ (']' :: rest))))
          (skipWs_cons_not_ws '[' _ (by decide))]
        show arrStep f
            (printElems d (.cons x xs) ++ ('\n' :: (spaces (2 * d) ++ (']' :: rest)))) =
          some (Json.arr (.cons x xs), rest)
        obtain ⟨c0, r0, hx, hxws, hxrb⟩ := printJson_head (d + 1) x
        have hskip : skipWs (printElems d (.cons x xs) ++
            ('\n' :: (spaces (2 * d) ++ (']' :: rest)))) =
            c0 :: (r0 ++ (elemsTail d xs ++ ('\n' :: (spaces (2 * d) ++ (']' :: rest))))) := by
          rw [printElems_shape d x xs]
          simp only [List.cons_append, List.append_assoc]
          rw [← List.cons_append]
          rw [skipWs_append_ws _ _ (nl_spaces_ws _)]
          rw [hx, List.cons_append]
          exact skipWs_cons_not_ws c0 _ hxws
        rw [arrStep_cons f _ c0 _ hskip]
        rw [if_neg hxrb]
        have hlist : c0 :: (r0 ++ (elemsTail d xs ++ ('\n' :: (spaces (2 * d) ++ (']' :: rest))))) =
            printJson (d + 1) x ++ (elemsTail d xs ++ ('\n' :: (spaces (2 * d) ++ (']' :: rest)))) := by
          rw [hx, List.cons_append]
        rw [hlist]
        have he : parseElems f (printJson (d + 1) x ++
            (elemsTail d xs ++ ('\n' :: (spaces (2 * d) ++ (']' :: rest))))) =
            parseElems f (printElems d (.cons x xs) ++
              ('\n' :: (spaces (2 * d) ++ (']' :: rest)))) := by
          conv_rhs => rw [printElems_shape d x xs]
          rw [show ('\n' :: (spaces (2 * (d + 1)) ++ (printJson (d + 1) x ++ elemsTail d xs))) ++
              ('\n' :: (spaces (2 * d) ++ (']' :: rest))) =
              ('\n' :: spaces (2 * (d + 1))) ++ (printJson (d + 1) x ++
                (elemsTail d xs ++ ('\n' :: (spaces (2 * d) ++ (']' :: rest))))) from by simp]
          rw [parseElems_ws f ('\n' :: spaces (2 * (d + 1))) _ (nl_spaces_ws _)]
        rw [he, printElems_parse f d x xs rest hf2]
        rfl
    | obj fs =>
      cases fs with
      | nil =>
        have hp : printJson d (Json.obj .nil) = curlyOpen :: (curlyClose :: []) := rfl
        rw [hp]
        simp only [List.cons_append, List.nil_append]
        rw [parseValue_succ f _ curlyOpen (curlyClose :: rest)
          (skipWs_cons_not_ws curlyOpen _ (by decide))]
        show objStep f (curlyClose :: rest) = some (Json.obj .nil, rest)
        rw [objStep_cons f _ curlyClose rest (skipWs_cons_not_ws curlyClose _ (by decide))]
        rw [if_pos rfl]
      | cons k v fs =>
        have hf2 : fuelM (.cons k v fs) ≤ f := by
          have hout : fuelV (Json.obj (.cons k v fs)) = 1 + fuelM (.cons k v fs) := rfl
          rw [hout] at hf
          omega
        have hp : printJson d (Json.obj (.cons k v fs)) =
            curlyOpen :: (printFields d (.cons k v fs) ++
              '\n' :: (spaces (2 * d) ++ [curlyClose])) := rfl
        rw [hp]
        simp only [List.cons_append, List.append_assoc, List.nil_append]
        rw [parseValue_succ f _ curlyOpen
          (printFields d (.cons k v fs) ++ ('\n' :: (spaces (2 * d) ++ (curlyClose :: rest))))
          (skipWs_cons_not_ws curlyOpen _ (by decide))]
        show objStep f
            (printFields d (.cons k v fs) ++
              ('\n' :: (spaces (2 * d) ++ (curlyClose :: rest)))) =
          some (Json.obj (.cons k v fs), rest)
        have hskip : skipWs (printFields d (.cons k v fs) ++
            ('\n' :: (spaces (2 * d) ++ (curlyClose :: rest)))) =
            '"' :: (escString k.data ++ ('"' :: (':' :: (' ' :: (printJson (d + 1) v ++
              (fieldsTail d fs ++ ('\n' :: (spaces (2 * d) ++ (curlyClose :: rest))))))))) := by
          rw [printFields_shape d k v fs]
          simp only [List.cons_append, List.append_assoc]
          rw [← List.cons_append]
          rw [skipWs_append_ws _ _ (nl_spaces_ws _)]
          exact skipWs_cons_not_ws '"' _ (by decide)
        rw [objStep_cons f _ '"' _ hskip]
        rw [if_neg (by decide)]
        have he : parseMembers f
            ('"' :: (escString k.data ++ ('"' :: (':' :: (' ' :: (printJson (d + 1) v ++
              (fieldsTail d fs ++ ('\n' :: (spaces (2 * d) ++ (curlyClose :: rest)))))))))) =
            parseMembers f (printFields d (.cons k v fs) ++
              ('\n' :: (spaces (2 * d) ++ (curlyClose :: rest)))) := by
          conv_rhs => rw [printFields_shape d k v fs]
          rw [show ('\n' :: (spaces (2 * (d + 1)) ++ ('"' :: (escString k.data ++
              ('"' :: (':' :: (' ' :: (printJson (d + 1) v ++ fieldsTail d fs)))))))) ++
              ('\n' :: (spaces (2 * d) ++ (curlyClose :: rest))) =
              ('\n' :: spaces (2 * (d + 1))) ++ ('"' :: (escString k.data ++
                ('"' :: (':' :: (' ' :: (printJson (d + 1) v ++
                  (fieldsTail d fs ++ ('\n' :: (spaces (2 * d) ++ (curlyClose :: rest)))))))))) from by simp]
          rw [parseMembers_ws f ('\n' :: spaces (2 * (d + 1))) _ (nl_spaces_ws _)]
        rw [he, printFields_parse f d k v fs rest hf2]
        rfl
termination_by fuel

/-- Parsing inverts printing for a nonempty element spine followed by the
closing line of the array. -/
theorem printElems_parse (fuel d : Nat) (x : Json) (xs : JsonList) (rest : List Char)
    (hf : fuelE (.cons x xs) ≤ fuel) :
    parseElems fuel (printElems d (.cons x xs) ++
      ('\n' :: (spaces (2 * d) ++ (']' :: rest)))) = some (JsonList.cons x xs, rest) := by
  cases fuel with
  | zero =>
    exfalso
    have hout : fuelE (.cons x xs) = 1 + max (fuelV x) (fuelE xs) := rfl
    rw [hout] at hf
    omega
  | succ f =>
    have hout : fuelE (.cons x xs) = 1 + max (fuelV x) (fuelE xs) := rfl
    rw [hout] at hf
    have h1 := Nat.le_max_left (fuelV x) (fuelE xs)
    have h2 := Nat.le_max_right (fuelV x) (fuelE xs)
    have hfx : fuelV x ≤ f := by omega
    have hfxs : fuelE xs ≤ f := by omega
    rw [parseElems_succ f _]
    cases xs with
    | nil =>
      have hp : printElems d (.cons x .nil) =
          '\n' :: (spaces (2 * (d + 1)) ++ printJson (d + 1) x) := rfl
      rw [hp]
      simp only [List.cons_append, List.append_assoc]
      rw [← List.cons_append]
      rw [parseValue_ws f ('\n' :: spaces (2 * (d + 1))) _ (nl_spaces_ws _)]
      rw [printJson_parse f (d + 1) x ('\n' :: (spaces (2 * d) ++ (']' :: rest))) hfx
        (numStop_cons x '\n' _ (by decide))]
      show elemsStep f x ('\n' :: (spaces (2 * d) ++ (']' :: rest))) =
        some (JsonList.cons x .nil, rest)
      have hs2 : skipWs ('\n' :: (spaces (2 * d) ++ (']' :: rest))) = ']' :: rest := by
        rw [← List.cons_append, skipWs_append_ws _ _ (nl_spaces_ws _)]
        exact skipWs_cons_not_ws ']' rest (by decide)
      rw [elemsStep_cons f x _ ']' rest hs2]
      rw [if_neg (by decide), if_pos rfl]
    | cons y ys =>
      have hp : printElems d (.cons x (.cons y ys)) =
          '\n' :: (spaces (2 * (d + 1)) ++ printJson (d + 1) x ++
            ',' :: printElems d (.cons y ys)) := rfl
      rw [hp]
      simp only [List.cons_append, List.append_assoc]
      rw [← List.cons_append]
      rw [parseValue_ws f ('\n' :: spaces (2 * (d + 1))) _ (nl_spaces_ws _)]
      rw [printJson_parse f (d + 1) x
        (',' :: (printElems d (.cons y ys) ++ ('\n' :: (spaces (2 * d) ++ (']' :: rest))))) hfx
        (numStop_cons x ',' _ (by decide))]
      show elemsStep f x
          (',' :: (printElems d (.cons y ys) ++ ('\n' :: (spaces (2 * d) ++ (']' :: rest))))) =
        some (JsonList.cons x (.cons y ys), rest)
      rw [elemsStep_cons f x _ ',' _ (skipWs_cons_not_ws ',' _ (by decide))]
      rw [if_pos rfl]
      rw [printElems_parse f d y ys rest hfxs]
      rfl
termination_by fuel

/-- Parsing inverts printing for a nonempty member spine followed by the
closing line of the object. -/
theorem printFields_parse (fuel d : Nat) (k : String) (v : Json) (fs : JsonFields)
    (rest : List Char) (hf : fuelM (.cons k v fs) ≤ fuel) :
    parseMembers fuel (printFields d (.cons k v fs) ++
      ('\n' :: (spaces (2 * d) ++ (curlyClose :: rest)))) =
      some (JsonFields.cons k v fs, rest) := by
  cases fuel with
  | zero =>
    exfalso
    have hout : fuelM (.cons k v fs) = 1 + max (fuelV v) (fuelM fs) := rfl
    rw [hout] at hf
    omega
  | succ f =>
    have hout : fuelM (.cons k v fs) = 1 + max (fuelV v) (fuelM fs) := rfl
    rw [hout] at hf
    have h1 := Nat.le_max_left (fuelV v) (fuelM fs)
    have h2 := Nat.le_max_right (fuelV v) (fuelM fs)
    have hfv : fuelV v ≤ f := by omega
    have hffs : fuelM fs ≤ f := by omega
    have hskip : skipWs (printFields d (.cons k v fs) ++
        ('\n' :: (spaces (2 * d) ++ (curlyClose :: rest)))) =
        '"' :: (escString k.data ++ ('"' :: (':' :: (' ' :: (printJson (d + 1) v ++
          (fieldsTail d fs ++ ('\n' :: (spaces (2 * d) ++ (curlyClose :: rest))))))))) := by
      rw [printFields_shape d k v fs]
      simp only [List.cons_append, List.append_assoc]
      rw [← List.cons_append]
      rw [skipWs_append_ws _ _ (nl_spaces_ws _)]
      exact skipWs_cons_not_ws '"' _ (by decide)
    rw [parseMembers_cons f _ '"' _ hskip]
    rw [if_pos rfl]
    rw [parseStringBody_round k.data
      (':' :: (' ' :: (printJson (d + 1) v ++
        (fieldsTail d fs ++ ('\n' :: (spaces (2 * d) ++ (curlyClose :: rest)))))))]
    show membersKeyStep f k.data
        (':' :: (' ' :: (printJson (d + 1) v ++
          (fieldsTail d fs ++ ('\n' :: (spaces (2 * d) ++ (curlyClose :: rest))))))) =
      some (JsonFields.cons k v fs, rest)
    rw [membersKeyStep_cons f k.data _ ':' _ (skipWs_cons_not_ws ':' _ (by decide))]
    rw [if_pos rfl]
    rw [show (' ' :: (printJson (d + 1) v ++
        (fieldsTail d fs ++ ('\n' :: (spaces (2 * d) ++ (curlyClose :: rest)))))) =
        [' '] ++ (printJson (d + 1) v ++
          (fieldsTail d fs ++ ('\n' :: (spaces (2 * d) ++ (curlyClose :: rest))))) from rfl]
    rw [parseValue_ws f [' '] _ space_ws]
    have hstv : numStop v (fieldsTail d fs ++
        ('\n' :: (spaces (2 * d) ++ (curlyClose :: rest)))) := by
      cases fs with
      | nil => exact numStop_cons v '\n' _ (by decide)
      | cons k2 v2 fs2 => exact numStop_cons v ',' _ (by decide)
    rw [printJson_parse f (d + 1) v
      (fieldsTail d fs ++ ('\n' :: (spaces (2 * d) ++ (curlyClose :: rest)))) hfv hstv]
    show membersValStep f k.data v
        (fieldsTail d fs ++ ('\n' :: (spaces (2 * d) ++ (curlyClose :: rest)))) =
      some (JsonFields.cons k v fs, rest)
    cases fs with
    | nil =>
      show membersValStep f k.data v ('\n' :: (spaces (2 * d) ++ (curlyClose :: rest))) =
        some (JsonFields.cons k v .nil, rest)
      have hs3 : skipWs ('\n' :: (spaces (2 * d) ++ (curlyClose :: rest))) =
          curlyClose :: rest := by
        rw [← List.cons_append, skipWs_append_ws _ _ (nl_spaces_ws _)]
        exact skipWs_cons_not_ws curlyClose rest (by decide)
      rw [membersValStep_cons f k.data v _ curlyClose rest hs3]
      rw [if_neg (by decide), if_pos rfl]
    | cons k2 v2 fs2 =>
      show membersValStep f k.data v
          ((',' :: printFields d (.cons k2 v2 fs2)) ++
            ('\n' :: (spaces (2 * d) ++ (curlyClose :: rest)))) =
        some (JsonFields.cons k v (.cons k2 v2 fs2), rest)
      rw [List.cons_append]
      rw [membersValStep_cons f k.data v _ ',' _ (skipWs_cons_not_ws ',' _ (by decide))]
      rw [if_pos rfl]
      rw [printFields_parse f d k2 v2 fs2 rest hffs]
      rfl
termination_by fuel
end

/-- Parsing the full printed document recovers the value. -/
theorem parseJson_print (j : Json) :
    parseJson (String.mk (printJson 0 j)) = some j := by
  have h := printJson_parse ((printJson 0 j).length + 1) 0 j [] (fuelV_le 0 j)
    (numStop_nil j)
  rw [List.append_nil] at h
  show (match parseValue ((printJson 0 j).length + 1) (printJson 0 j) with
    | some (v, r) => if skipWs r = [] then some v else none
    | none => none) = some j
  rw [h]
  rfl

/-! ## Decoding inverts encoding -/

theorem jsonToCardObj_round (c : CardObj) : jsonToCardObj (cardObjToJson c) = some c := by
  obtain ⟨i, t, b, a, p⟩ := c
  cases i <;> cases t <;> cases b <;> rcases a with _ | (_ | a2) <;> cases p <;>
    simp [cardObjToJson, consOpt, jsonToCardObj, getField, decodeOptStr,
      decodeOptNullableStr, decodeOptInt]

theorem jsonListToStrList_round (l : List String) :
    jsonListToStrList (strListToJsonList l) = some l := by
  induction l with
  | nil => rfl
  | cons s rest ih => simp [strListToJsonList, jsonListToStrList, ih]

theorem jsonToColumn_round (c : Column) : jsonToColumn (columnToJson c) = some c := by
  obtain ⟨i, t, ids⟩ := c
  simp [columnToJson, jsonToColumn, getField, jsonListToStrList_round]

theorem jsonListToColumns_round (cs : List Column) :
    jsonListToColumns (columnsToJsonList cs) = some cs := by
  induction cs with
  | nil => rfl
  | cons c rest ih =>
    simp [columnsToJsonList, jsonListToColumns, jsonToColumn_round, ih]

theorem jsonFieldsToCards_round (l : List (String × CardObj)) :
    jsonFieldsToCards (cardsToJsonFields l) = some l := by
  induction l with
  | nil => rfl
  | cons kv rest ih =>
    obtain ⟨k, c⟩ := kv
    simp [cardsToJsonFields, jsonFieldsToCards, jsonToCardObj_round, ih]

theorem jsonToBoard_round (b : Board) : jsonToBoard (boardToJson b) = some b := by
  obtain ⟨cols, cards⟩ := b
  simp [boardToJson, jsonToBoard, getField, jsonListToColumns_round,
    jsonFieldsToCards_round]

theorem jsonToProject_round (p : Project) : jsonToProject (projectToJson p) = some p := by
  obtain ⟨i, t, de, img, tags, board⟩ := p
  cases img <;>
    simp [projectToJson, jsonToProject, getField, jsonListToStrList_round,
      jsonToBoard_round]

theorem jsonListToProjects_round (ps : List Project) :
    jsonListToProjects (projectsToJsonList ps) = some ps := by
  induction ps with
  | nil => rfl
  | cons p rest ih =>
    simp [projectsToJsonList, jsonListToProjects, jsonToProject_round, ih]

theorem jsonToUser_round (u : User) : jsonToUser (userToJson u) = some u := by
  obtain ⟨i, n, r, av⟩ := u
  simp [userToJson, jsonToUser, getField]

theorem jsonListToUsers_round (us : List User) :
    jsonListToUsers (usersToJsonList us) = some us := by
  induction us with
  | nil => rfl
  | cons u rest ih =>
    simp [usersToJsonList, jsonListToUsers, jsonToUser_round, ih]

theorem jsonToWs_round (ws : Workspace) : jsonToWs (wsToJson ws) = some ws := by
  obtain ⟨meta, users, projects⟩ := ws
  obtain ⟨created, name⟩ := meta
  simp [wsToJson, jsonToWs, getField, jsonListToUsers_round, jsonListToProjects_round]

/-! ## The angle-bracket invariant -/

theorem angleOk_cons (c : Char) (rest : List Char) :
    angleOk (c :: rest) = ((if c = '<' then angleReq rest else true) && angleOk rest) := rfl

theorem angleOk_suffix (u v : List Char) (h : angleOk (u ++ v) = true) :
    angleOk v = true := by
  induction u with
  | nil => simpa using h
  | cons c u ih =>
    rw [List.cons_append, angleOk_cons, Bool.and_eq_true] at h
    exact ih h.2

theorem angleOk_replace_suffix (x : Char) (hxS : decide (x ∈ tagStart) = false)
    (hxt : x ≠ 't') :
    ∀ a r y, angleOk (a ++ x :: r) = true → angleOk y = true →
      angleOk (a ++ y) = true := by
  intro a
  induction a with
  | nil =>
    intro r y ha hy
    simpa using hy
  | cons c a ih =>
    intro r y ha hy
    rw [List.cons_append, angleOk_cons, Bool.and_eq_true] at ha
    rw [List.cons_append, angleOk_cons, Bool.and_eq_true]
    refine ⟨?_, ih r y ha.2 hy⟩
    by_cases hc : c = '<'
    · rw [if_pos hc] at ha ⊢
      cases a with
      | nil =>
        exfalso
        have h1 := ha.1
        rw [List.nil_append] at h1
        simp only [angleReq] at h1
        by_cases hxs : x = 's'
        · rw [hxs] at hxS
          simp [tagStart] at hxS
        · rw [if_neg hxs, hxS] at h1
          exact Bool.noConfusion h1
      | cons c2 a2 =>
        have h1 := ha.1
        rw [List.cons_append] at h1
        rw [List.cons_append]
        simp only [angleReq] at h1 ⊢
        by_cases hc2 : c2 = 's'
        · rw [if_pos hc2] at h1 ⊢
          cases a2 with
          | nil =>
            exfalso
            rw [List.nil_append] at h1
            have hxt2 : x = 't' := of_decide_eq_true h1
            exact hxt hxt2
          | cons c3 a3 =>
            rw [List.cons_append]
            exact h1
        · rw [if_neg hc2] at h1 ⊢
          exact h1
    · rw [if_neg hc]

theorem angleOk_append_of_ok (a y : List Char) (ha : angleOk a = true)
    (hy : angleOk y = true) : angleOk (a ++ y) = true := by
  induction a with
  | nil => simpa using hy
  | cons c a ih =>
    rw [angleOk_cons, Bool.and_eq_true] at ha
    rw [List.cons_append, angleOk_cons, Bool.and_eq_true]
    refine ⟨?_, ih ha.2⟩
    by_cases hc : c = '<'
    · rw [if_pos hc] at ha ⊢
      have h1 := ha.1
      cases a with
      | nil => exact absurd h1 (by decide)
      | cons c2 a2 =>
        rw [List.cons_append]
        simp only [angleReq] at h1 ⊢
        by_cases hc2 : c2 = 's'
        · rw [if_pos hc2] at h1 ⊢
          cases a2 with
          | nil => exact absurd h1 (by decide)
          | cons c3 a3 =>
            rw [List.cons_append]
            exact h1
        · rw [if_neg hc2] at h1 ⊢
          exact h1
    · rw [if_neg hc]

theorem findSub_eq (pat : List Char) :
    ∀ l b a, findSub pat l = some (b, a) → l = b ++ pat ++ a := by
  intro l
  induction l with
  | nil =>
    intro b a h
    unfold findSub at h
    by_cases hp : pat = []
    · rw [if_pos hp] at h
      injection h with h2
      injection h2 with hb ha
      rw [← hb, ← ha, hp]
      rfl
    · rw [if_neg hp] at h
      exact Option.noConfusion h
  | cons c rest ih =>
    intro b a h
    unfold findSub at h
    by_cases hp : pat.isPrefixOf (c :: rest) = true
    · rw [if_pos hp] at h
      injection h with h2
      injection h2 with hb ha
      obtain ⟨t, ht⟩ := List.isPrefixOf_iff_prefix.mp hp
      rw [← hb, List.nil_append, ← ha, ← ht, List.drop_left]
    · rw [if_neg hp] at h
      cases h2 : findSub pat rest with
      | none =>
        rw [h2] at h
        exact Option.noConfusion h
      | some p =>
        obtain ⟨b0, a0⟩ := p
        rw [h2] at h
        injection h with h3
        injection h3 with hb ha
        have hr := ih b0 a0 h2
        rw [← hb, ← ha]
        simp only [List.cons_append, List.append_assoc] at hr ⊢
        rw [hr]

theorem dropWhile_head_false (p : Char → Bool) (l : List Char) (c : Char)
    (t : List Char) (h : l.dropWhile p = c :: t) : p c = false := by
  induction l with
  | nil => simp at h
  | cons x rest ih =>
    rw [List.dropWhile_cons] at h
    by_cases hx : p x = true
    · rw [if_pos hx] at h
      exact ih h
    · rw [if_neg hx] at h
      injection h with h1 h2
      subst h1
      simpa using hx

theorem span_split (p : Char → Bool) (l t d : List Char) (h : l.span p = (t, d)) :
    l = t ++ d := by
  rw [List.span_eq_take_drop] at h
  injection h with h1 h2
  rw [← h1, ← h2, List.takeWhile_append_dropWhile]

theorem span_drop_head (p : Char → Bool) (l t : List Char) (c : Char)
    (d : List Char) (h : l.span p = (t, c :: d)) : p c = false := by
  rw [List.span_eq_take_drop] at h
  injection h with h1 h2
  exact dropWhile_head_false p l c d h2

theorem angleOk_no_script (l : List Char) (h : angleOk l = true) :
    containsSub "<script".data l = false := by
  unfold containsSub
  cases hf : findSub "<script".data l with
  | none => rfl
  | some p =>
    exfalso
    obtain ⟨b, a⟩ := p
    have hdec := findSub_eq "<script".data l b a hf
    rw [hdec, List.append_assoc] at h
    have h2 := angleOk_suffix b _ h
    have h3 : angleOk ('<' :: 's' :: 'c' :: 'r' :: 'i' :: 'p' :: 't' :: a) = true := h2
    rw [angleOk_cons, Bool.and_eq_true] at h3
    have h4 := h3.1
    rw [if_pos rfl] at h4
    have h5 : (false : Bool) = true := h4
    exact Bool.noConfusion h5

theorem mem_replaceAllChar (c : Char) (r l : List Char) (x : Char)
    (hx : x ∈ replaceAllChar c r l) : x ∈ r ∨ (x ∈ l ∧ x ≠ c) := by
  induction l with
  | nil => simp [replaceAllChar] at hx
  | cons y rest ih =>
    unfold replaceAllChar at hx
    rcases List.mem_append.mp hx with h1 | h2
    · by_cases hy : y = c
      · rw [if_pos hy] at h1
        exact Or.inl h1
      · rw [if_neg hy] at h1
        rw [List.mem_singleton] at h1
        subst h1
        exact Or.inr ⟨by simp, hy⟩
    · rcases ih h2 with h3 | h3
      · exact Or.inl h3
      · exact Or.inr ⟨by simp [h3.1], h3.2⟩

theorem escapeHtml_no_angles (l : List Char) :
    ∀ x ∈ escapeHtml l, x ≠ '<' ∧ x ≠ '>' := by
  intro x hx
  unfold escapeHtml at hx
  rcases mem_replaceAllChar '>' "&gt;".data _ x hx with h1 | h2
  · have h1b : x = '&' ∨ x = 'g' ∨ x = 't' ∨ x = ';' := by simpa using h1
    rcases h1b with rfl | rfl | rfl | rfl <;> exact ⟨by decide, by decide⟩
  · refine ⟨?_, h2.2⟩
    rcases mem_replaceAllChar '<' "&lt;".data _ x h2.1 with h3 | h4
    · have h3b : x = '&' ∨ x = 'l' ∨ x = 't' ∨ x = ';' := by simpa using h3
      rcases h3b with rfl | rfl | rfl | rfl <;> decide
    · exact h4.2

theorem angleOk_of_no_lt (l : List Char) (h : ∀ x ∈ l, x ≠ '<') :
    angleOk l = true := by
  induction l with
  | nil => rfl
  | cons c rest ih =>
    rw [angleOk_cons, Bool.and_eq_true]
    refine ⟨?_, ih (fun x hx => h x (by simp [hx]))⟩
    rw [if_neg (h c (by simp))]

theorem angleReq_head (c2 : Char) (rest2 : List Char)
    (h : angleReq (c2 :: rest2) = true) : c2 = 's' ∨ c2 ∈ tagStart := by
  simp only [angleReq] at h
  by_cases hs : c2 = 's'
  · exact Or.inl hs
  · rw [if_neg hs] at h
    exact Or.inr (of_decide_eq_true h)

theorem tagStart_not_mem (c : Char) (h : c ∈ tagStart) :
    c ≠ '*' ∧ c ≠ '[' ∧ c ≠ backtick ∧ c ≠ '\n' := by
  fin_cases h <;> exact ⟨by decide, by decide, by decide, by decide⟩

/-- Transfer of the bracket-follower requirement through one scanner
step: a scanner that copies any non-trigger head character cannot change
the first two characters of markup-shaped text, because tag initials and
the letter t never trigger a match. -/
theorem angleReq_transfer (G : Nat → List Char → List Char) (bad : Char → Prop)
    (hbadT : ¬ bad 't')
    (hG : ∀ fuel c r2, ¬ bad c →
      G fuel (c :: r2) = c :: G (fuel - 1) r2 ∨ G fuel (c :: r2) = c :: r2)
    (hbadsafe : ∀ c2, (c2 = 's' ∨ c2 ∈ tagStart) → ¬ bad c2)
    (fuel : Nat) (rest : List Char) (hreq : angleReq rest = true) :
    angleReq (G fuel rest) = true := by
  cases rest with
  | nil => exact absurd hreq (by decide)
  | cons c2 rest2 =>
    have hb := hbadsafe c2 (angleReq_head c2 rest2 hreq)
    rcases hG fuel c2 rest2 hb with he | he <;> rw [he]
    · simp only [angleReq] at hreq ⊢
      by_cases hs : c2 = 's'
      · rw [if_pos hs] at hreq ⊢
        cases rest2 with
        | nil => exact absurd hreq (by decide)
        | cons c3 rest3 =>
          have hc3 : c3 = 't' := of_decide_eq_true hreq
          rcases hG (fuel - 1) c3 rest3 (by rw [hc3]; exact hbadT) with he2 | he2 <;>
            rw [he2] <;> simp [headIsT, hc3]
      · rw [if_neg hs] at hreq ⊢
        exact hreq
    · exact hreq

/-- The one-character copy step of a scanner preserves the invariant. -/
theorem angleOk_copy2 (c : Char) (rest out : List Char)
    (h : angleOk (c :: rest) = true) (hout : angleOk out = true)
    (htrans : c = '<' → angleReq rest = true → angleReq out = true) :
    angleOk (c :: out) = true := by
  rw [angleOk_cons, Bool.and_eq_true] at h
  rw [angleOk_cons, Bool.and_eq_true]
  refine ⟨?_, hout⟩
  by_cases hc : c = '<'
  · rw [if_pos hc]
    have hreq := h.1
    rw [if_pos hc] at hreq
    exact htrans hc hreq
  · rw [if_neg hc]

theorem angleOk_tail (c : Char) (rest : List Char) (h : angleOk (c :: rest) = true) :
    angleOk rest = true := by
  rw [angleOk_cons, Bool.and_eq_true] at h
  exact h.2

/-! ## The passes preserve the invariant -/

theorem codeBlockGo_none (fuel : Nat) (l : List Char)
    (h1 : findSub tripleTick l = none) : codeBlockGo (fuel + 1) l = l := by
  unfold codeBlockGo
  rw [h1]

theorem codeBlockGo_none2 (fuel : Nat) (l bef rest : List Char)
    (h1 : findSub tripleTick l = some (bef, rest))
    (h2 : findSub tripleTick rest = none) : codeBlockGo (fuel + 1) l = l := by
  unfold codeBlockGo
  rw [h1]
  dsimp only
  rw [h2]

theorem codeBlockGo_some (fuel : Nat) (l bef rest code aft : List Char)
    (h1 : findSub tripleTick l = some (bef, rest))
    (h2 : findSub tripleTick rest = some (code, aft)) :
    codeBlockGo (fuel + 1) l =
      bef ++ preOpen ++ code ++ preClose ++ codeBlockGo fuel aft := by
  conv_lhs => unfold codeBlockGo
  rw [h1]
  dsimp only
  rw [h2]

theorem codeBlockGo_ok (fuel : Nat) :
    ∀ l, angleOk l = true → angleOk (codeBlockGo fuel l) = true := by
  induction fuel with
  | zero =>
    intro l h
    exact h
  | succ fuel ih =>
    intro l h
    cases h1 : findSub tripleTick l with
    | none =>
      rw [codeBlockGo_none fuel l h1]
      exact h
    | some p =>
      obtain ⟨bef, rest⟩ := p
      cases h2 : findSub tripleTick rest with
      | none =>
        rw [codeBlockGo_none2 fuel l bef rest h1 h2]
        exact h
      | some q =>
        obtain ⟨code, aft⟩ := q
        rw [codeBlockGo_some fuel l bef rest code aft h1 h2]
        have hl := findSub_eq tripleTick l bef rest h1
        have hr := findSub_eq tripleTick rest code aft h2
        have hrest : angleOk rest = true :=
          angleOk_suffix (bef ++ tripleTick) rest (by rw [← hl]; exact h)
        have haft : angleOk aft = true :=
          angleOk_suffix (code ++ tripleTick) aft (by rw [← hr]; exact hrest)
        have hrest2 : angleOk (code ++ backtick :: (backtick :: (backtick :: aft))) = true := by
          have e : code ++ tripleTick ++ aft =
              code ++ backtick :: (backtick :: (backtick :: aft)) := by
            simp [tripleTick]
          rw [← e, ← hr]
          exact hrest
        have hbef2 : angleOk (bef ++ backtick :: (backtick :: (backtick :: rest))) = true := by
          have e : bef ++ tripleTick ++ rest =
              bef ++ backtick :: (backtick :: (backtick :: rest)) := by
            simp [tripleTick]
          rw [← e, ← hl]
          exact h
        have g1 : angleOk (codeBlockGo fuel aft) = true := ih aft haft
        have g2 : angleOk (preClose ++ codeBlockGo fuel aft) = true := g1
        have g3 : angleOk (code ++ (preClose ++ codeBlockGo fuel aft)) = true :=
          angleOk_replace_suffix backtick (by decide) (by decide) code
            (backtick :: (backtick :: aft)) _ hrest2 g2
        have g4 : angleOk (preOpen ++ (code ++ (preClose ++ codeBlockGo fuel aft))) = true := g3
        have g5 : angleOk (bef ++ (preOpen ++ (code ++ (preClose ++ codeBlockGo fuel aft)))) = true :=
          angleOk_replace_suffix backtick (by decide) (by decide) bef
            (backtick :: (backtick :: rest)) _ hbef2 g4
        simp only [List.append_assoc]
        exact g5

theorem codeBlocks_ok (l : List Char) (h : angleOk l = true) :
    angleOk (codeBlocks l) = true := codeBlockGo_ok l.length l h

theorem inlineCodeGo_trigger (fuel : Nat) (rest inner r1 : List Char)
    (hsp : rest.span (fun x => x ≠ backtick) = (inner, r1))
    (hcond : inner ≠ [] ∧ r1 ≠ []) :
    inlineCodeGo (fuel + 1) (backtick :: rest) =
      codeOpen ++ inner ++ codeClose ++ inlineCodeGo fuel r1.tail := by
  conv_lhs => unfold inlineCodeGo
  rw [if_pos rfl, hsp]
  dsimp only
  rw [if_pos hcond]

theorem inlineCodeGo_notrigger (fuel : Nat) (rest inner r1 : List Char)
    (hsp : rest.span (fun x => x ≠ backtick) = (inner, r1))
    (hcond : ¬(inner ≠ [] ∧ r1 ≠ [])) :
    inlineCodeGo (fuel + 1) (backtick :: rest) =
      backtick :: inlineCodeGo fuel rest := by
  conv_lhs => unfold inlineCodeGo
  rw [if_pos rfl, hsp]
  dsimp only
  rw [if_neg hcond]

theorem inlineCodeGo_copy (fuel : Nat) (c : Char) (rest : List Char)
    (hc : ¬(c = backtick)) :
    inlineCodeGo (fuel + 1) (c :: rest) = c :: inlineCodeGo fuel rest := by
  conv_lhs => unfold inlineCodeGo
  rw [if_neg hc]

theorem inlineCodeGo_head (fuel : Nat) (c : Char) (r2 : List Char)
    (h : ¬(c = backtick)) :
    inlineCodeGo fuel (c :: r2) = c :: inlineCodeGo (fuel - 1) r2 ∨
    inlineCodeGo fuel (c :: r2) = c :: r2 := by
  cases fuel with
  | zero => exact Or.inr rfl
  | succ fuel => exact Or.inl (inlineCodeGo_copy fuel c r2 h)

theorem inlineCodeGo_ok (fuel : Nat) :
    ∀ l, angleOk l = true → angleOk (inlineCodeGo fuel l) = true := by
  induction fuel with
  | zero =>
    intro l h
    exact h
  | succ fuel ih =>
    intro l h
    cases l with
    | nil => exact rfl
    | cons c rest =>
      by_cases hc : c = backtick
      · subst hc
        cases hsp : rest.span (fun x => x ≠ backtick) with
        | mk inner r1 =>
          by_cases hcond : inner ≠ [] ∧ r1 ≠ []
          · rw [inlineCodeGo_trigger fuel rest inner r1 hsp hcond]
            have hspl := span_split _ rest inner r1 hsp
            obtain ⟨r1h, r1t, hr1⟩ : ∃ x xs, r1 = x :: xs := by
              cases r1 with
              | nil => exact absurd rfl hcond.2
              | cons x xs => exact ⟨x, xs, rfl⟩
            have hr1h : r1h = backtick := by
              have hd := span_drop_head _ rest inner r1h r1t (by rw [← hr1]; exact hsp)
              simpa using hd
            have hin : angleOk (inner ++ backtick :: r1t) = true := by
              have h2 : angleOk rest = true := angleOk_tail backtick rest h
              rw [hspl, hr1, hr1h] at h2
              exact h2
            have htail : angleOk r1t = true :=
              angleOk_suffix (inner ++ [backtick]) r1t (by simpa using hin)
            have hrt : r1.tail = r1t := by rw [hr1]; rfl
            rw [hrt]
            have g1 := ih r1t htail
            have g2 : angleOk (codeClose ++ inlineCodeGo fuel r1t) = true := g1
            have g3 : angleOk (inner ++ (codeClose ++ inlineCodeGo fuel r1t)) = true :=
              angleOk_replace_suffix backtick (by decide) (by decide) inner r1t _ hin g2
            have g4 : angleOk (codeOpen ++ (inner ++ (codeClose ++ inlineCodeGo fuel r1t))) = true := g3
            simp only [List.append_assoc]
            exact g4
          · rw [inlineCodeGo_notrigger fuel rest inner r1 hsp hcond]
            exact angleOk_copy2 backtick rest _ h (ih rest (angleOk_tail _ _ h))
              (fun hlt _ => absurd hlt (by decide))
      · rw [inlineCodeGo_copy fuel c rest hc]
        exact angleOk_copy2 c rest _ h (ih rest (angleOk_tail _ _ h))
          (fun _ hreq => angleReq_transfer inlineCodeGo (fun ch => ch = backtick)
            (by decide) (fun f ch r2 hb => inlineCodeGo_head f ch r2 hb)
            (fun c2 hc2 => by
              rcases hc2 with hs | hm
              · rw [hs]; decide
              · exact (tagStart_not_mem c2 hm).2.2.1)
            fuel rest hreq)

theorem inlineCode_ok (l : List Char) (h : angleOk l = true) :
    angleOk (inlineCode l) = true := inlineCodeGo_ok l.length l h

theorem joinLines_splitLines (l : List Char) : joinLines (splitLines l) = l := by
  induction l with
  | nil => rfl
  | cons c rest ih =>
    obtain ⟨hd, tl, hsl⟩ : ∃ hd tl, splitLines rest = hd :: tl := by
      cases hsl : splitLines rest with
      | nil => exact absurd hsl (splitLines_ne_nil rest)
      | cons hd tl => exact ⟨hd, tl, rfl⟩
    rw [splitLines_cons c rest hd tl hsl]
    rw [hsl] at ih
    by_cases hc : c = '\n'
    · rw [if_pos hc]
      show '\n' :: joinLines (hd :: tl) = c :: rest
      rw [ih, hc]
    · rw [if_neg hc]
      cases tl with
      | nil =>
        show c :: hd = c :: rest
        rw [show hd = rest from ih]
      | cons t2 ts =>
        have ih2 : hd ++ '\n' :: joinLines (t2 :: ts) = rest := ih
        show (c :: hd) ++ '\n' :: joinLines (t2 :: ts) = c :: rest
        rw [List.cons_append, ih2]

theorem headingLine_ok (l z : List Char) (hz : angleOk z = true)
    (hznl : z = [] ∨ ∃ zz, z = '\n' :: zz)
    (h : angleOk (l ++ z) = true) : angleOk (headingLine l ++ z) = true := by
  unfold headingLine
  by_cases h3 : "### ".data.isPrefixOf l = true
  · rw [if_pos h3]
    obtain ⟨t, ht⟩ := List.isPrefixOf_iff_prefix.mp h3
    have hdrop : l.drop 4 = t := by rw [← ht]; rfl
    rw [hdrop]
    have hT : angleOk (t ++ z) = true :=
      angleOk_suffix "### ".data (t ++ z) (by rw [← List.append_assoc, ht]; exact h)
    have hcz : angleOk (h3Close ++ z) = true := hz
    have hmid : angleOk (t ++ (h3Close ++ z)) = true := by
      rcases hznl with rfl | ⟨zz, rfl⟩
      · have hT2 : angleOk t = true := by simpa using hT
        simpa using angleOk_append_of_ok t h3Close hT2 (by decide)
      · exact angleOk_replace_suffix '\n' (by decide) (by decide) t zz _ hT hcz
    have gfin : angleOk (h3Open ++ (t ++ (h3Close ++ z))) = true := hmid
    simpa [List.append_assoc] using gfin
  · rw [if_neg h3]
    by_cases h2 : "## ".data.isPrefixOf l = true
    · rw [if_pos h2]
      obtain ⟨t, ht⟩ := List.isPrefixOf_iff_prefix.mp h2
      have hdrop : l.drop 3 = t := by rw [← ht]; rfl
      rw [hdrop]
      have hT : angleOk (t ++ z) = true :=
        angleOk_suffix "## ".data (t ++ z) (by rw [← List.append_assoc, ht]; exact h)
      have hcz : angleOk (h2Close ++ z) = true := hz
      have hmid : angleOk (t ++ (h2Close ++ z)) = true := by
        rcases hznl with rfl | ⟨zz, rfl⟩
        · have hT2 : angleOk t = true := by simpa using hT
          simpa using angleOk_append_of_ok t h2Close hT2 (by decide)
        · exact angleOk_replace_suffix '\n' (by decide) (by decide) t zz _ hT hcz
      have gfin : angleOk (h2Open ++ (t ++ (h2Close ++ z))) = true := hmid
      simpa [List.append_assoc] using gfin
    · rw [if_neg h2]
      by_cases h1 : "# ".data.isPrefixOf l = true
      · rw [if_pos h1]
        obtain ⟨t, ht⟩ := List.isPrefixOf_iff_prefix.mp h1
        have hdrop : l.drop 2 = t := by rw [← ht]; rfl
        rw [hdrop]
        have hT : angleOk (t ++ z) = true :=
          angleOk_suffix "# ".data (t ++ z) (by rw [← List.append_assoc, ht]; exact h)
        have hcz : angleOk (h1Close ++ z) = true := hz
        have hmid : angleOk (t ++ (h1Close ++ z)) = true := by
          rcases hznl with rfl | ⟨zz, rfl⟩
          · have hT2 : angleOk t = true := by simpa using hT
            simpa using angleOk_append_of_ok t h1Close hT2 (by decide)
          · exact angleOk_replace_suffix '\n' (by decide) (by decide) t zz _ hT hcz
        have gfin : angleOk (h1Open ++ (t ++ (h1Close ++ z))) = true := hmid
        simpa [List.append_assoc] using gfin
      · rw [if_neg h1]
        exact h

theorem headingLines_ok : ∀ ls : List (List Char), angleOk (joinLines ls) = true →
    angleOk (joinLines (ls.map headingLine)) = true := by
  intro ls
  induction ls with
  | nil => intro h; exact h
  | cons l1 ls ih =>
    cases ls with
    | nil =>
      intro h
      have h1 : angleOk (l1 ++ []) = true := by simpa using h
      have g := headingLine_ok l1 [] (by decide) (Or.inl rfl) h1
      show angleOk (headingLine l1) = true
      simpa using g
    | cons l2 ls2 =>
      intro h
      have h1 : angleOk (l1 ++ '\n' :: joinLines (l2 :: ls2)) = true := h
      have hrest : angleOk (joinLines (l2 :: ls2)) = true :=
        angleOk_suffix (l1 ++ ['\n']) _ (by simpa using h1)
      have hout := ih hrest
      have hl1nl : angleOk (l1 ++ ['\n']) = true :=
        angleOk_replace_suffix '\n' (by decide) (by decide) l1
          (joinLines (l2 :: ls2)) ['\n'] h1 (by decide)
      have hhd : angleOk (headingLine l1 ++ ['\n']) = true :=
        headingLine_ok l1 ['\n'] (by decide) (Or.inr ⟨[], rfl⟩) hl1nl
      have hglue : angleOk ((headingLine l1 ++ ['\n']) ++
          joinLines ((l2 :: ls2).map headingLine)) = true :=
        angleOk_append_of_ok _ _ hhd hout
      show angleOk (headingLine l1 ++ '\n' :: joinLines ((l2 :: ls2).map headingLine)) = true
      simpa [List.append_assoc] using hglue

theorem headings_ok (l : List Char) (h : angleOk l = true) :
    angleOk (headings l) = true := by
  rw [headings_eq_per_line]
  exact headingLines_ok (splitLines l) (by rw [joinLines_splitLines]; exact h)

theorem boldGo_copy (fuel : Nat) (c : Char) (rest : List Char)
    (h : (['*', '*'].isPrefixOf (c :: rest)) = false) :
    boldGo (fuel + 1) (c :: rest) = c :: boldGo fuel rest := by
  conv_lhs => unfold boldGo
  rw [h]
  simp only [Bool.false_eq_true, if_false]

theorem boldGo_none (fuel : Nat) (c : Char) (rest : List Char)
    (hp : (['*', '*'].isPrefixOf (c :: rest)) = true)
    (hf : findSub ['*', '*'] ((c :: rest).drop 2) = none) :
    boldGo (fuel + 1) (c :: rest) = c :: boldGo fuel rest := by
  conv_lhs => unfold boldGo
  rw [if_pos hp, hf]

theorem boldGo_nl (fuel : Nat) (c : Char) (rest inner aft : List Char)
    (hp : (['*', '*'].isPrefixOf (c :: rest)) = true)
    (hf : findSub ['*', '*'] ((c :: rest).drop 2) = some (inner, aft))
    (hnl : '\n' ∈ inner) :
    boldGo (fuel + 1) (c :: rest) = c :: boldGo fuel rest := by
  conv_lhs => unfold boldGo
  rw [if_pos hp, hf]
  dsimp only
  rw [if_pos hnl]

theorem boldGo_match (fuel : Nat) (c : Char) (rest inner aft : List Char)
    (hp : (['*', '*'].isPrefixOf (c :: rest)) = true)
    (hf : findSub ['*', '*'] ((c :: rest).drop 2) = some (inner, aft))
    (hnl : '\n' ∉ inner) :
    boldGo (fuel + 1) (c :: rest) =
      "<strong>".data ++ inner ++ "</strong>".data ++ boldGo fuel aft := by
  conv_lhs => unfold boldGo
  rw [if_pos hp, hf]
  dsimp only
  rw [if_neg hnl]

theorem boldGo_head (fuel : Nat) (c : Char) (r2 : List Char) (h : ¬(c = '*')) :
    boldGo fuel (c :: r2) = c :: boldGo (fuel - 1) r2 ∨
    boldGo fuel (c :: r2) = c :: r2 := by
  cases fuel with
  | zero => exact Or.inr rfl
  | succ fuel =>
    left
    apply boldGo_copy
    show (('*' == c) && List.isPrefixOf ['*'] r2) = false
    rw [show ('*' == c) = false from beq_eq_false_iff_ne.mpr (fun e => h e.symm),
      Bool.false_and]

theorem boldGo_ok (fuel : Nat) :
    ∀ l, angleOk l = true → angleOk (boldGo fuel l) = true := by
  induction fuel with
  | zero =>
    intro l h
    exact h
  | succ fuel ih =>
    intro l h
    cases l with
    | nil => exact rfl
    | cons c rest =>
      by_cases hp : (['*', '*'].isPrefixOf (c :: rest)) = true
      · have hc : c = '*' := by
          have hp2 := hp
          rw [show List.isPrefixOf ['*', '*'] (c :: rest) =
            (('*' == c) && List.isPrefixOf ['*'] rest) from rfl, Bool.and_eq_true] at hp2
          exact (beq_iff_eq.mp hp2.1).symm
        cases hf : findSub ['*', '*'] ((c :: rest).drop 2) with
        | none =>
          rw [boldGo_none fuel c rest hp hf]
          exact angleOk_copy2 c rest _ h (ih rest (angleOk_tail _ _ h))
            (fun hlt _ => by rw [hc] at hlt; exact absurd hlt (by decide))
        | some p =>
          obtain ⟨inner, aft⟩ := p
          by_cases hnl : '\n' ∈ inner
          · rw [boldGo_nl fuel c rest inner aft hp hf hnl]
            exact angleOk_copy2 c rest _ h (ih rest (angleOk_tail _ _ h))
              (fun hlt _ => by rw [hc] at hlt; exact absurd hlt (by decide))
          · rw [boldGo_match fuel c rest inner aft hp hf hnl]
            subst hc
            obtain ⟨t, ht⟩ := List.isPrefixOf_iff_prefix.mp hp
            have hrest : rest = '*' :: t := by
              have ht2 := ht
              rw [show (['*', '*'] : List Char) ++ t = '*' :: ('*' :: t) from rfl] at ht2
              injection ht2 with e1 e2
              exact e2.symm
            have hdrop : (('*' :: rest).drop 2) = t := by rw [hrest]; rfl
            rw [hdrop] at hf
            have hdec := findSub_eq ['*', '*'] t inner aft hf
            have hT : angleOk t = true := by
              have h2 : angleOk rest = true := angleOk_tail '*' rest h
              rw [hrest] at h2
              exact angleOk_tail '*' t h2
            have hin : angleOk (inner ++ '*' :: ('*' :: aft)) = true := by
              have e : inner ++ ['*', '*'] ++ aft = inner ++ '*' :: ('*' :: aft) := by simp
              rw [← e, ← hdec]
              exact hT
            have haft : angleOk aft = true :=
              angleOk_suffix (inner ++ ['*', '*']) aft (by rw [← hdec]; exact hT)
            have g1 := ih aft haft
            have g2 : angleOk ("</strong>".data ++ boldGo fuel aft) = true := g1
            have g3 : angleOk (inner ++ ("</strong>".data ++ boldGo fuel aft)) = true :=
              angleOk_replace_suffix '*' (by decide) (by decide) inner ('*' :: aft) _ hin g2
            have g4 : angleOk ("<strong>".data ++
                (inner ++ ("</strong>".data ++ boldGo fuel aft))) = true := g3
            simp only [List.append_assoc]
            exact g4
      · have hp2 : (['*', '*'].isPrefixOf (c :: rest)) = false := by
          cases hb : List.isPrefixOf ['*', '*'] (c :: rest) with
          | false => rfl
          | true => exact absurd hb hp
        rw [boldGo_copy fuel c rest hp2]
        exact angleOk_copy2 c rest _ h (ih rest (angleOk_tail _ _ h))
          (fun _ hreq => angleReq_transfer boldGo (fun ch => ch = '*')
            (by decide) (fun f ch r2 hb => boldGo_head f ch r2 hb)
            (fun c2 hc2 => by
              rcases hc2 with hs | hm
              · rw [hs]; decide
              · exact (tagStart_not_mem c2 hm).1)
            fuel rest hreq)

theorem bold_ok (l : List Char) (h : angleOk l = true) :
    angleOk (bold l) = true := boldGo_ok l.length l h

theorem italicGo_copy (fuel : Nat) (c : Char) (rest : List Char) (h : ¬(c = '*')) :
    italicGo (fuel + 1) (c :: rest) = c :: italicGo fuel rest := by
  conv_lhs => unfold italicGo
  rw [if_neg h]

theorem italicGo_none (fuel : Nat) (rest : List Char)
    (hf : findSub ['*'] rest = none) :
    italicGo (fuel + 1) ('*' :: rest) = '*' :: italicGo fuel rest := by
  conv_lhs => unfold italicGo
  rw [if_pos rfl, hf]

theorem italicGo_nl (fuel : Nat) (rest inner aft : List Char)
    (hf : findSub ['*'] rest = some (inner, aft)) (hnl : '\n' ∈ inner) :
    italicGo (fuel + 1) ('*' :: rest) = '*' :: italicGo fuel rest := by
  conv_lhs => unfold italicGo
  rw [if_pos rfl, hf]
  dsimp only
  rw [if_pos hnl]

theorem italicGo_match (fuel : Nat) (rest inner aft : List Char)
    (hf : findSub ['*'] rest = some (inner, aft)) (hnl : '\n' ∉ inner) :
    italicGo (fuel + 1) ('*' :: rest) =
      "<em>".data ++ inner ++ "</em>".data ++ italicGo fuel aft := by
  conv_lhs => unfold italicGo
  rw [if_pos rfl, hf]
  dsimp only
  rw [if_neg hnl]

theorem italicGo_head (fuel : Nat) (c : Char) (r2 : List Char) (h : ¬(c = '*')) :
    italicGo fuel (c :: r2) = c :: italicGo (fuel - 1) r2 ∨
    italicGo fuel (c :: r2) = c :: r2 := by
  cases fuel with
  | zero => exact Or.inr rfl
  | succ fuel => exact Or.inl (italicGo_copy fuel c r2 h)

theorem italicGo_ok (fuel : Nat) :
    ∀ l, angleOk l = true → angleOk (italicGo fuel l) = true := by
  induction fuel with
  | zero =>
    intro l h
    exact h
  | succ fuel ih =>
    intro l h
    cases l with
    | nil => exact rfl
    | cons c rest =>
      by_cases hc : c = '*'
      · subst hc
        cases hf : findSub ['*'] rest with
        | none =>
          rw [italicGo_none fuel rest hf]
          exact angleOk_copy2 '*' rest _ h (ih rest (angleOk_tail _ _ h))
            (fun hlt _ => absurd hlt (by decide))
        | some p =>
          obtain ⟨inner, aft⟩ := p
          by_cases hnl : '\n' ∈ inner
          · rw [italicGo_nl fuel rest inner aft hf hnl]
            exact angleOk_copy2 '*' rest _ h (ih rest (angleOk_tail _ _ h))
              (fun hlt _ => absurd hlt (by decide))
          · rw [italicGo_match fuel rest inner aft hf hnl]
            have hdec := findSub_eq ['*'] rest inner aft hf
            have hT : angleOk rest = true := angleOk_tail '*' rest h
            have hin : angleOk (inner ++ '*' :: aft) = true := by
              have e : inner ++ ['*'] ++ aft = inner ++ '*' :: aft := by simp
              rw [← e, ← hdec]
              exact hT
            have haft : angleOk aft = true :=
              angleOk_suffix (inner ++ ['*']) aft (by rw [← hdec]; exact hT)
            have g1 := ih aft haft
            have g2 : angleOk ("</em>".data ++ italicGo fuel aft) = true := g1
            have g3 : angleOk (inner ++ ("</em>".data ++ italicGo fuel aft)) = true :=
              angleOk_replace_suffix '*' (by decide) (by decide) inner aft _ hin g2
            have g4 : angleOk ("<em>".data ++
                (inner ++ ("</em>".data ++ italicGo fuel aft))) = true := g3
            simp only [List.append_assoc]
            exact g4
      · rw [italicGo_copy fuel c rest hc]
        exact angleOk_copy2 c rest _ h (ih rest (angleOk_tail _ _ h))
          (fun _ hreq => angleReq_transfer italicGo (fun ch => ch = '*')
            (by decide) (fun f ch r2 hb => italicGo_head f ch r2 hb)
            (fun c2 hc2 => by
              rcases hc2 with hs | hm
              · rw [hs]; decide
              · exact (tagStart_not_mem c2 hm).1)
            fuel rest hreq)

theorem italic_ok (l : List Char) (h : angleOk l = true) :
    angleOk (italic l) = true := italicGo_ok l.length l h

theorem linkGo_copy (fuel : Nat) (c : Char) (rest : List Char) (h : ¬(c = '[')) :
    linkGo (fuel + 1) (c :: rest) = c :: linkGo fuel rest := by
  conv_lhs => unfold linkGo
  rw [if_neg h]

theorem linkGo_cond1 (fuel : Nat) (rest label r1 : List Char)
    (hsp : rest.span (fun x => x ≠ ']') = (label, r1))
    (hcond : ¬(label ≠ [] ∧ r1 ≠ [])) :
    linkGo (fuel + 1) ('[' :: rest) = '[' :: linkGo fuel rest := by
  conv_lhs => unfold linkGo
  rw [if_pos rfl, hsp]
  dsimp only
  rw [if_neg hcond]

theorem linkGo_tail_nil (fuel : Nat) (rest label r1 : List Char)
    (hsp : rest.span (fun x => x ≠ ']') = (label, r1))
    (hcond : label ≠ [] ∧ r1 ≠ []) (htl : r1.tail = []) :
    linkGo (fuel + 1) ('[' :: rest) = '[' :: linkGo fuel rest := by
  conv_lhs => unfold linkGo
  rw [if_pos rfl, hsp]
  dsimp only
  rw [if_pos hcond, htl]

theorem linkGo_tail_ne (fuel : Nat) (rest label r1 : List Char)
    (hsp : rest.span (fun x => x ≠ ']') = (label, r1))
    (hcond : label ≠ [] ∧ r1 ≠ []) (c2 : Char) (r3 : List Char)
    (htl : r1.tail = c2 :: r3) (hc2 : ¬(c2 = '(')) :
    linkGo (fuel + 1) ('[' :: rest) = '[' :: linkGo fuel rest := by
  conv_lhs => unfold linkGo
  rw [if_pos rfl, hsp]
  dsimp only
  rw [if_pos hcond, htl]
  split
  · rename_i r3b heq
    injection heq with e1 e2
    exact absurd e1 hc2
  · rfl

theorem linkGo_cond2 (fuel : Nat) (rest label r1 r3 url r4 : List Char)
    (hsp : rest.span (fun x => x ≠ ']') = (label, r1))
    (hcond : label ≠ [] ∧ r1 ≠ []) (htl : r1.tail = '(' :: r3)
    (hsp2 : r3.span (fun x => x ≠ ')') = (url, r4))
    (hcond2 : ¬(url ≠ [] ∧ r4 ≠ [])) :
    linkGo (fuel + 1) ('[' :: rest) = '[' :: linkGo fuel rest := by
  conv_lhs => unfold linkGo
  rw [if_pos rfl, hsp]
  dsimp only
  rw [if_pos hcond, htl]
  split
  · rename_i r3b heq
    injection heq with e1 e2
    subst e2
    rw [hsp2]
    have hcond2b : ¬((url, r4).1 ≠ [] ∧ (url, r4).2 ≠ []) := hcond2
    rw [if_neg hcond2b]
  · rfl

theorem linkGo_match (fuel : Nat) (rest label r1 r3 url r4 : List Char)
    (hsp : rest.span (fun x => x ≠ ']') = (label, r1))
    (hcond : label ≠ [] ∧ r1 ≠ []) (htl : r1.tail = '(' :: r3)
    (hsp2 : r3.span (fun x => x ≠ ')') = (url, r4))
    (hcond2 : url ≠ [] ∧ r4 ≠ []) :
    linkGo (fuel + 1) ('[' :: rest) =
      aOpen ++ url ++ aMid ++ label ++ aClose ++ linkGo fuel r4.tail := by
  conv_lhs => unfold linkGo
  rw [if_pos rfl, hsp]
  dsimp only
  rw [if_pos hcond, htl]
  split
  · rename_i r3b heq
    injection heq with e1 e2
    subst e2
    rw [hsp2]
    have hcond2b : ((url, r4).1 ≠ [] ∧ (url, r4).2 ≠ []) := hcond2
    rw [if_pos hcond2b]
  · rename_i x hne
    exact (hne r3 rfl).elim

theorem linkGo_head (fuel : Nat) (c : Char) (r2 : List Char) (h : ¬(c = '[')) :
    linkGo fuel (c :: r2) = c :: linkGo (fuel - 1) r2 ∨
    linkGo fuel (c :: r2) = c :: r2 := by
  cases fuel with
  | zero => exact Or.inr rfl
  | succ fuel => exact Or.inl (linkGo_copy fuel c r2 h)

theorem linkGo_ok (fuel : Nat) :
    ∀ l, angleOk l = true → angleOk (linkGo fuel l) = true := by
  induction fuel with
  | zero =>
    intro l h
    exact h
  | succ fuel ih =>
    intro l h
    cases l with
    | nil => exact rfl
    | cons c rest =>
      by_cases hc : c = '['
      · subst hc
        have hcopy : angleOk ('[' :: linkGo fuel rest) = true :=
          angleOk_copy2 '[' rest _ h (ih rest (angleOk_tail _ _ h))
            (fun hlt _ => absurd hlt (by decide))
        cases hsp : rest.span (fun x => x ≠ ']') with
        | mk label r1 =>
          by_cases hcond : label ≠ [] ∧ r1 ≠ []
          · cases htl : r1.tail with
            | nil =>
              rw [linkGo_tail_nil fuel rest label r1 hsp hcond htl]
              exact hcopy
            | cons c2 r3 =>
              by_cases hc2 : c2 = '('
              · subst hc2
                cases hsp2 : r3.span (fun x => x ≠ ')') with
                | mk url r4 =>
                  by_cases hcond2 : url ≠ [] ∧ r4 ≠ []
                  · rw [linkGo_match fuel rest label r1 r3 url r4 hsp hcond htl hsp2 hcond2]
                    have hspl := span_split _ rest label r1 hsp
                    obtain ⟨r1h, r1t, hr1⟩ : ∃ x xs, r1 = x :: xs := by
                      cases r1 with
                      | nil => exact absurd rfl hcond.2
                      | cons x xs => exact ⟨x, xs, rfl⟩
                    have hr1h : r1h = ']' := by
                      have hd := span_drop_head _ rest label r1h r1t (by rw [← hr1]; exact hsp)
                      simpa using hd
                    have hr1t : r1t = '(' :: r3 := by
                      rw [hr1] at htl
                      exact htl
                    have hspl2 := span_split _ r3 url r4 hsp2
                    obtain ⟨r4h, r4t, hr4⟩ : ∃ x xs, r4 = x :: xs := by
                      cases r4 with
                      | nil => exact absurd rfl hcond2.2
                      | cons x xs => exact ⟨x, xs, rfl⟩
                    have hr4h : r4h = ')' := by
                      have hd := span_drop_head _ r3 url r4h r4t (by rw [← hr4]; exact hsp2)
                      simpa using hd
                    have hrest2 : angleOk rest = true := angleOk_tail '[' rest h
                    have hlab : angleOk (label ++ ']' :: ('(' :: r3)) = true := by
                      rw [hspl, hr1, hr1h, hr1t] at hrest2
                      exact hrest2
                    have hr3 : angleOk r3 = true := by
                      have hs1 : angleOk (']' :: ('(' :: r3)) = true :=
                        angleOk_suffix label _ hlab
                      exact angleOk_tail _ _ (angleOk_tail _ _ hs1)
                    have hurl : angleOk (url ++ ')' :: r4t) = true := by
                      rw [hspl2, hr4, hr4h] at hr3
                      exact hr3
                    have hr4t : angleOk r4t = true :=
                      angleOk_suffix (url ++ [')']) r4t (by simpa using hurl)
                    have hrt : r4.tail = r4t := by rw [hr4]; rfl
                    rw [hrt]
                    have g1 := ih r4t hr4t
                    have g2 : angleOk (aClose ++ linkGo fuel r4t) = true := g1
                    have g3 : angleOk (label ++ (aClose ++ linkGo fuel r4t)) = true :=
                      angleOk_replace_suffix ']' (by decide) (by decide) label
                        ('(' :: r3) _ hlab g2
                    have g4 : angleOk (aMid ++ (label ++ (aClose ++ linkGo fuel r4t))) = true := g3
                    have g5 : angleOk (url ++ (aMid ++ (label ++ (aClose ++ linkGo fuel r4t)))) = true :=
                      angleOk_replace_suffix ')' (by decide) (by decide) url r4t _ hurl g4
                    have g6 : angleOk (aOpen ++
                        (url ++ (aMid ++ (label ++ (aClose ++ linkGo fuel r4t))))) = true := g5
                    simp only [List.append_assoc]
                    exact g6
                  · rw [linkGo_cond2 fuel rest label r1 r3 url r4 hsp hcond htl hsp2 hcond2]
                    exact hcopy
              · rw [linkGo_tail_ne fuel rest label r1 hsp hcond c2 r3 htl hc2]
                exact hcopy
          · rw [linkGo_cond1 fuel rest label r1 hsp hcond]
            exact hcopy
      · rw [linkGo_copy fuel c rest hc]
        exact angleOk_copy2 c rest _ h (ih rest (angleOk_tail _ _ h))
          (fun _ hreq => angleReq_transfer linkGo (fun ch => ch = '[')
            (by decide) (fun f ch r2 hb => linkGo_head f ch r2 hb)
            (fun c2 hc2 => by
              rcases hc2 with hs | hm
              · rw [hs]; decide
              · exact (tagStart_not_mem c2 hm).2.1)
            fuel rest hreq)

theorem links_ok (l : List Char) (h : angleOk l = true) :
    angleOk (links l) = true := linkGo_ok l.length l h

theorem paraGo_copy (fuel : Nat) (c : Char) (rest : List Char)
    (h : (['\n', '\n'].isPrefixOf (c :: rest)) = false) :
    paraGo (fuel + 1) (c :: rest) = c :: paraGo fuel rest := by
  conv_lhs => unfold paraGo
  rw [h]
  simp only [Bool.false_eq_true, if_false]

theorem paraGo_match (fuel : Nat) (c : Char) (rest run r : List Char)
    (hp : (['\n', '\n'].isPrefixOf (c :: rest)) = true)
    (hsp : (c :: rest).span (fun x => x = '\n') = (run, r)) :
    paraGo (fuel + 1) (c :: rest) = "</p><p>".data ++ paraGo fuel r := by
  conv_lhs => unfold paraGo
  rw [if_pos hp, hsp]

theorem paraGo_head (fuel : Nat) (c : Char) (r2 : List Char) (h : ¬(c = '\n')) :
    paraGo fuel (c :: r2) = c :: paraGo (fuel - 1) r2 ∨
    paraGo fuel (c :: r2) = c :: r2 := by
  cases fuel with
  | zero => exact Or.inr rfl
  | succ fuel =>
    left
    apply paraGo_copy
    show (('\n' == c) && List.isPrefixOf ['\n'] r2) = false
    rw [show ('\n' == c) = false from beq_eq_false_iff_ne.mpr (fun e => h e.symm),
      Bool.false_and]

theorem paraGo_ok (fuel : Nat) :
    ∀ l, angleOk l = true → angleOk (paraGo fuel l) = true := by
  induction fuel with
  | zero =>
    intro l h
    exact h
  | succ fuel ih =>
    intro l h
    cases l with
    | nil => exact rfl
    | cons c rest =>
      by_cases hp : (['\n', '\n'].isPrefixOf (c :: rest)) = true
      · cases hsp : (c :: rest).span (fun x => x = '\n') with
        | mk run r =>
          rw [paraGo_match fuel c rest run r hp hsp]
          have hspl := span_split _ (c :: rest) run r hsp
          have hr : angleOk r = true := angleOk_suffix run r (by rw [← hspl]; exact h)
          have g1 := ih r hr
          have g2 : angleOk ("</p><p>".data ++ paraGo fuel r) = true := g1
          exact g2
      · have hp2 : (['\n', '\n'].isPrefixOf (c :: rest)) = false := by
          cases hb : List.isPrefixOf ['\n', '\n'] (c :: rest) with
          | false => rfl
          | true => exact absurd hb hp
        rw [paraGo_copy fuel c rest hp2]
        exact angleOk_copy2 c rest _ h (ih rest (angleOk_tail _ _ h))
          (fun _ hreq => angleReq_transfer paraGo (fun ch => ch = '\n')
            (by decide) (fun f ch r2 hb => paraGo_head f ch r2 hb)
            (fun c2 hc2 => by
              rcases hc2 with hs | hm
              · rw [hs]; decide
              · exact (tagStart_not_mem c2 hm).2.2.2)
            fuel rest hreq)

theorem paragraphs_ok (l : List Char) (h : angleOk l = true) :
    angleOk (paragraphs l) = true := paraGo_ok l.length l h

theorem listGo_true_nil (fuel : Nat) (c : Char) (rest w1 : List Char)
    (hsp1 : (c :: rest).span isJsWs = (w1, [])) :
    listGo (fuel + 1) true (c :: rest) = c :: listGo fuel (c = '\n') rest := by
  conv_lhs => unfold listGo
  rw [if_pos rfl, hsp1]

theorem listGo_true_ne (fuel : Nat) (c : Char) (rest w1 : List Char) (c2 : Char)
    (r2b : List Char) (hsp1 : (c :: rest).span isJsWs = (w1, c2 :: r2b))
    (hc2 : ¬(c2 = '-')) :
    listGo (fuel + 1) true (c :: rest) = c :: listGo fuel (c = '\n') rest := by
  conv_lhs => unfold listGo
  rw [if_pos rfl, hsp1]
  dsimp only
  split
  · rename_i r2c heq
    injection heq with e1 e2
    exact absurd e1 hc2
  · rfl

theorem listGo_true_now2 (fuel : Nat) (c : Char) (rest w1 r2 w2 r3 : List Char)
    (hsp1 : (c :: rest).span isJsWs = (w1, '-' :: r2))
    (hsp2 : r2.span isJsWs = (w2, r3)) (hw2 : ¬(w2 ≠ [])) :
    listGo (fuel + 1) true (c :: rest) = c :: listGo fuel (c = '\n') rest := by
  conv_lhs => unfold listGo
  rw [if_pos rfl, hsp1]
  dsimp only
  split
  · rename_i r2c heq
    injection heq with e1 e2
    subst e2
    rw [hsp2]
    have hw2b : ¬((w2, r3).1 ≠ []) := hw2
    rw [if_neg hw2b]
  · rename_i x hne
    exact (hne r2 rfl).elim

theorem listGo_true_match (fuel : Nat) (c : Char) (rest w1 r2 w2 r3 content r4 : List Char)
    (hsp1 : (c :: rest).span isJsWs = (w1, '-' :: r2))
    (hsp2 : r2.span isJsWs = (w2, r3)) (hw2 : w2 ≠ [])
    (hsp3 : r3.span (fun x => x ≠ '\n') = (content, r4)) :
    listGo (fuel + 1) true (c :: rest) =
      ulOpen ++ content ++ ulClose ++ listGo fuel false r4 := by
  conv_lhs => unfold listGo
  rw [if_pos rfl, hsp1]
  dsimp only
  split
  · rename_i r2c heq
    injection heq with e1 e2
    subst e2
    rw [hsp2]
    have hw2b : ((w2, r3).1 ≠ []) := hw2
    rw [if_pos hw2b]
    have hsp3b : (List.span (fun x => x ≠ '\n') ((w2, r3).2)) = (content, r4) := hsp3
    rw [hsp3b]
  · rename_i x hne
    exact (hne r2 rfl).elim

theorem listGo_false_copy (fuel : Nat) (c : Char) (rest : List Char)
    (hc : ¬(c = '\n')) :
    listGo (fuel + 1) false (c :: rest) = c :: listGo fuel false rest := by
  conv_lhs => unfold listGo
  rw [if_neg (by decide), if_neg hc]

theorem listGo_false_nl_nil (fuel : Nat) (rest w1 : List Char)
    (hsp1 : rest.span isJsWs = (w1, [])) :
    listGo (fuel + 1) false ('\n' :: rest) = '\n' :: listGo fuel true rest := by
  conv_lhs => unfold listGo
  rw [if_neg (by decide), if_pos rfl, hsp1]

theorem listGo_false_nl_ne (fuel : Nat) (rest w1 : List Char) (c2 : Char)
    (r2b : List Char) (hsp1 : rest.span isJsWs = (w1, c2 :: r2b))
    (hc2 : ¬(c2 = '-')) :
    listGo (fuel + 1) false ('\n' :: rest) = '\n' :: listGo fuel true rest := by
  conv_lhs => unfold listGo
  rw [if_neg (by decide), if_pos rfl, hsp1]
  dsimp only
  split
  · rename_i r2c heq
    injection heq with e1 e2
    exact absurd e1 hc2
  · rfl

theorem listGo_false_nl_now2 (fuel : Nat) (rest w1 r2 w2 r3 : List Char)
    (hsp1 : rest.span isJsWs = (w1, '-' :: r2))
    (hsp2 : r2.span isJsWs = (w2, r3)) (hw2 : ¬(w2 ≠ [])) :
    listGo (fuel + 1) false ('\n' :: rest) = '\n' :: listGo fuel true rest := by
  conv_lhs => unfold listGo
  rw [if_neg (by decide), if_pos rfl, hsp1]
  dsimp only
  split
  · rename_i r2c heq
    injection heq with e1 e2
    subst e2
    rw [hsp2]
    have hw2b : ¬((w2, r3).1 ≠ []) := hw2
    rw [if_neg hw2b]
  · rename_i x hne
    exact (hne r2 rfl).elim

theorem listGo_false_nl_match (fuel : Nat) (rest w1 r2 w2 r3 content r4 : List Char)
    (hsp1 : rest.span isJsWs = (w1, '-' :: r2))
    (hsp2 : r2.span isJsWs = (w2, r3)) (hw2 : w2 ≠ [])
    (hsp3 : r3.span (fun x => x ≠ '\n') = (content, r4)) :
    listGo (fuel + 1) false ('\n' :: rest) =
      '\n' :: (ulOpen ++ content ++ ulClose ++ listGo fuel false r4) := by
  conv_lhs => unfold listGo
  rw [if_neg (by decide), if_pos rfl, hsp1]
  dsimp only
  split
  · rename_i r2c heq
    injection heq with e1 e2
    subst e2
    rw [hsp2]
    have hw2b : ((w2, r3).1 ≠ []) := hw2
    rw [if_pos hw2b]
    have hsp3b : (List.span (fun x => x ≠ '\n') ((w2, r3).2)) = (content, r4) := hsp3
    rw [hsp3b]
  · rename_i x hne
    exact (hne r2 rfl).elim

theorem listGo_false_head (fuel : Nat) (c : Char) (r2 : List Char) (h : ¬(c = '\n')) :
    listGo fuel false (c :: r2) = c :: listGo (fuel - 1) false r2 ∨
    listGo fuel false (c :: r2) = c :: r2 := by
  cases fuel with
  | zero => exact Or.inr rfl
  | succ fuel => exact Or.inl (listGo_false_copy fuel c r2 h)

theorem listGo_ok (fuel : Nat) :
    ∀ bol l, angleOk l = true → angleOk (listGo fuel bol l) = true := by
  induction fuel with
  | zero =>
    intro bol l h
    exact h
  | succ fuel ih =>
    intro bol l h
    cases l with
    | nil =>
      cases bol with
      | true => exact rfl
      | false => exact rfl
    | cons c rest =>
      cases bol with
      | true =>
        have hcopy : angleOk (c :: listGo fuel (c = '\n') rest) = true :=
          angleOk_copy2 c rest _ h (ih (c = '\n') rest (angleOk_tail _ _ h))
            (fun hlt hreq => by
              subst hlt
              exact angleReq_transfer (fun f r => listGo f false r) (fun ch => ch = '\n')
                (by decide) (fun f ch r2 hb => listGo_false_head f ch r2 hb)
                (fun c2 hc2 => by
                  rcases hc2 with hs | hm
                  · rw [hs]; decide
                  · exact (tagStart_not_mem c2 hm).2.2.2)
                fuel rest hreq)
        cases hsp1 : (c :: rest).span isJsWs with
        | mk w1 r1 =>
          cases r1 with
          | nil =>
            rw [listGo_true_nil fuel c rest w1 hsp1]
            exact hcopy
          | cons c2 r2 =>
            by_cases hc2 : c2 = '-'
            · subst hc2
              cases hsp2 : r2.span isJsWs with
              | mk w2 r3 =>
                by_cases hw2 : w2 ≠ []
                · cases hsp3 : r3.span (fun x => x ≠ '\n') with
                  | mk content r4 =>
                    rw [listGo_true_match fuel c rest w1 r2 w2 r3 content r4 hsp1 hsp2 hw2 hsp3]
                    have hspl1 := span_split _ (c :: rest) w1 ('-' :: r2) hsp1
                    have hspl2 := span_split _ r2 w2 r3 hsp2
                    have hspl3 := span_split _ r3 content r4 hsp3
                    have hr2 : angleOk r2 = true := by
                      have e : c :: rest = (w1 ++ ['-']) ++ r2 := by
                        rw [hspl1]
                        simp
                      exact angleOk_suffix (w1 ++ ['-']) r2 (by rw [← e]; exact h)
                    have hr3 : angleOk r3 = true :=
                      angleOk_suffix w2 r3 (by rw [← hspl2]; exact hr2)
                    have hcr4 : angleOk (content ++ r4) = true := by
                      rw [← hspl3]
                      exact hr3
                    have hr4 : angleOk r4 = true := angleOk_suffix content r4 hcr4
                    have g2 : angleOk (ulClose ++ listGo fuel false r4) = true :=
                      ih false r4 hr4
                    have hshape : r4 = [] ∨ ∃ r4t, r4 = '\n' :: r4t := by
                      cases hr4s : r4 with
                      | nil => exact Or.inl rfl
                      | cons r4h r4t =>
                        have hd := span_drop_head _ r3 content r4h r4t
                          (by rw [← hr4s]; exact hsp3)
                        have hh : r4h = '\n' := by simpa using hd
                        exact Or.inr ⟨r4t, by rw [hh]⟩
                    have g3 : angleOk (content ++ (ulClose ++ listGo fuel false r4)) = true := by
                      rcases hshape with hnil | ⟨r4t, heq⟩
                      · refine angleOk_append_of_ok content _ ?_ g2
                        rw [hnil] at hcr4
                        simpa using hcr4
                      · exact angleOk_replace_suffix '\n' (by decide) (by decide) content r4t _
                          (by rw [← heq]; exact hcr4) g2
                    have g4 : angleOk (ulOpen ++
                        (content ++ (ulClose ++ listGo fuel false r4))) = true := g3
                    simp only [List.append_assoc]
                    exact g4
                · rw [listGo_true_now2 fuel c rest w1 r2 w2 r3 hsp1 hsp2 hw2]
                  exact hcopy
            · rw [listGo_true_ne fuel c rest w1 c2 r2 hsp1 hc2]
              exact hcopy
      | false =>
        by_cases hc : c = '\n'
        · subst hc
          cases hsp1 : rest.span isJsWs with
          | mk w1 r1 =>
            cases r1 with
            | nil =>
              rw [listGo_false_nl_nil fuel rest w1 hsp1]
              rw [angleOk_cons, Bool.and_eq_true]
              exact ⟨by rw [if_neg (by decide)], ih true rest (angleOk_tail _ _ h)⟩
            | cons c2 r2 =>
              by_cases hc2 : c2 = '-'
              · subst hc2
                cases hsp2 : r2.span isJsWs with
                | mk w2 r3 =>
                  by_cases hw2 : w2 ≠ []
                  · cases hsp3 : r3.span (fun x => x ≠ '\n') with
                    | mk content r4 =>
                      rw [listGo_false_nl_match fuel rest w1 r2 w2 r3 content r4 hsp1 hsp2 hw2 hsp3]
                      rw [angleOk_cons, Bool.and_eq_true]
                      refine ⟨by rw [if_neg (by decide)], ?_⟩
                      have hspl1 := span_split _ rest w1 ('-' :: r2) hsp1
                      have hspl2 := span_split _ r2 w2 r3 hsp2
                      have hspl3 := span_split _ r3 content r4 hsp3
                      have hrest : angleOk rest = true := angleOk_tail '\n' rest h
                      have hr2 : angleOk r2 = true := by
                        have e : rest = (w1 ++ ['-']) ++ r2 := by
                          rw [hspl1]
                          simp
                        exact angleOk_suffix (w1 ++ ['-']) r2 (by rw [← e]; exact hrest)
                      have hr3 : angleOk r3 = true :=
                        angleOk_suffix w2 r3 (by rw [← hspl2]; exact hr2)
                      have hcr4 : angleOk (content ++ r4) = true := by
                        rw [← hspl3]
                        exact hr3
                      have hr4 : angleOk r4 = true := angleOk_suffix content r4 hcr4
                      have g2 : angleOk (ulClose ++ listGo fuel false r4) = true :=
                        ih false r4 hr4
                      have hshape : r4 = [] ∨ ∃ r4t, r4 = '\n' :: r4t := by
                        cases hr4s : r4 with
                        | nil => exact Or.inl rfl
                        | cons r4h r4t =>
                          have hd := span_drop_head _ r3 content r4h r4t
                            (by rw [← hr4s]; exact hsp3)
                          have hh : r4h = '\n' := by simpa using hd
                          exact Or.inr ⟨r4t, by rw [hh]⟩
                      have g3 : angleOk (content ++ (ulClose ++ listGo fuel false r4)) = true := by
                        rcases hshape with hnil | ⟨r4t, heq⟩
                        · refine angleOk_append_of_ok content _ ?_ g2
                          rw [hnil] at hcr4
                          simpa using hcr4
                        · exact angleOk_replace_suffix '\n' (by decide) (by decide) content r4t _
                            (by rw [← heq]; exact hcr4) g2
                      have g4 : angleOk (ulOpen ++
                          (content ++ (ulClose ++ listGo fuel false r4))) = true := g3
                      simp only [List.append_assoc]
                      exact g4
                  · rw [listGo_false_nl_now2 fuel rest w1 r2 w2 r3 hsp1 hsp2 hw2]
                    rw [angleOk_cons, Bool.and_eq_true]
                    exact ⟨by rw [if_neg (by decide)], ih true rest (angleOk_tail _ _ h)⟩
              · rw [listGo_false_nl_ne fuel rest w1 c2 r2 hsp1 hc2]
                rw [angleOk_cons, Bool.and_eq_true]
                exact ⟨by rw [if_neg (by decide)], ih true rest (angleOk_tail _ _ h)⟩
        · rw [listGo_false_copy fuel c rest hc]
          exact angleOk_copy2 c rest _ h (ih false rest (angleOk_tail _ _ h))
            (fun _ hreq => angleReq_transfer (fun f r => listGo f false r) (fun ch => ch = '\n')
              (by decide) (fun f ch r2 hb => listGo_false_head f ch r2 hb)
              (fun c2 hc2 => by
                rcases hc2 with hs | hm
                · rw [hs]; decide
                · exact (tagStart_not_mem c2 hm).2.2.2)
              fuel rest hreq)

theorem lists_ok (l : List Char) (h : angleOk l = true) :
    angleOk (lists l) = true := listGo_ok l.length true l h

theorem angleOk_divOpen (y : List Char) : angleOk (divOpen ++ y) = angleOk y := rfl

theorem afterEscape_ok (l : List Char) (h : angleOk l = true) :
    angleOk (afterEscape l) = true := by
  unfold afterEscape
  have p1 := codeBlocks_ok l h
  have p2 := inlineCode_ok _ p1
  have p3 := headings_ok _ p2
  have p4 := bold_ok _ p3
  have p5 := italic_ok _ p4
  have p6 := links_ok _ p5
  have p7 := lists_ok _ p6
  have p8 := paragraphs_ok _ p7
  have g1 : angleOk (paragraphs (lists (links (italic (bold (headings
      (inlineCode (codeBlocks l))))))) ++ divClose) = true :=
    angleOk_append_of_ok _ _ p8 (by decide)
  simp only [List.append_assoc]
  rw [angleOk_divOpen]
  exact g1

theorem renderMarkdown_ok (md : String) : angleOk (renderMarkdown md).data = true := by
  unfold renderMarkdown
  by_cases hmd : md = ""
  · rw [if_pos hmd]
    rfl
  · rw [if_neg hmd]
    show angleOk (afterEscape (escapeHtml md.data)) = true
    exact afterEscape_ok _ (angleOk_of_no_lt _
      (fun x hx => (escapeHtml_no_angles md.data x hx).1))

/-! ## Claim theorems -/

/-- Claim C1, counterexample: on the seed workspace, which satisfies the
invariant, a single moveCard with an arbitrary (nonexistent) card id
breaks the invariant: the id is spliced into the done column although it
has no entry in the cards map. -/
theorem c1_counterexample :
    wsInv (sampleSeed 0) = true ∧
    wsInv (applyOps (sampleSeed 0) [Op.move "proj_1" "todo" "done" "ghost" 0]) = false := by
  constructor <;> decide

/-- Claim C1 (amended): starting from a workspace satisfying the board
invariant (distinct column ids, every column entry a key of cards, every
key in exactly one column), the invariant holds after each operation of
any sequence of addCard/moveCard operations with valid arguments: for
addCard an existing target column and a fresh generated id, for moveCard
distinct existing source and target columns with the card sitting in the
source column. -/
theorem c1_invariant_preserved (ws : Workspace) (ops : List Op)
    (h : wsInv ws = true) (hv : ValidSeq ws ops) :
    wsInv (applyOps ws ops) = true := by
  induction ops generalizing ws with
  | nil => exact h
  | cons op ops ih =>
    cases hv with
    | cons _ _ _ hvo hvs =>
      exact ih (applyOp ws op) (wsInv_applyOp ws op h hvo) hvs

/-- Claim C1, witness: a concrete valid add/move sequence on the seed
workspace keeps the invariant. -/
theorem c1_invariant_preserved_witness :
    wsInv (applyOps (sampleSeed 0)
      [Op.add "proj_1" "todo" "c9" ⟨"T", "B", none, 2⟩,
       Op.move "proj_1" "todo" "done" "c9" 0]) = true :=
  c1_invariant_preserved (sampleSeed 0) _ (by decide)
    (ValidSeq.cons _ _ _ (by unfold validOp; decide)
      (ValidSeq.cons _ _ _ (by unfold validOp; decide) (ValidSeq.nil _)))

/-- Claim C2, counterexample: updateCard on the existing project proj_1
with the nonexistent card id zz changes the cards map: a new key zz is
created (holding the patch alone), so the map does not equal the
original. -/
theorem c2_counterexample :
    (∀ p ∈ (sampleSeed 0).projects, p.id = "proj_1" ∧ getKey p.board.cards "zz" = none) ∧
    (updateCard "proj_1" "zz" { title := some "x" } (sampleSeed 0)).projects.map
        (fun p => p.board.cards) ≠
      (sampleSeed 0).projects.map (fun p => p.board.cards) := by
  constructor <;> decide

/-- Claim C2 (amended): updateCard on a card id that is not a key of the
matching project's cards map does change the map: it appends a new entry
keyed by cardId whose value is the patch alone (spread of undefined);
entries of other projects are untouched. -/
theorem c2_updateCard_missing (ws : Workspace) (pid cid : String) (patch : CardObj)
    (hmiss : ∀ p ∈ ws.projects, p.id = pid → getKey p.board.cards cid = none) :
    (updateCard pid cid patch ws).projects =
      ws.projects.map fun p =>
        if p.id = pid then
          { p with board := { p.board with
              cards := p.board.cards ++ [(cid, mergeCard none patch)] } }
        else p := by
  show ws.projects.map _ = ws.projects.map _
  apply map_eq_map_of_eq_on
  intro p hp
  by_cases he : p.id = pid
  · rw [if_pos he, if_pos he]
    have hm := hmiss p hp he
    show { p with board := updateCardBoard cid patch p.board } = _
    unfold updateCardBoard
    rw [hm, setKey_of_getKey_none _ _ _ hm]
  · rw [if_neg he, if_neg he]

/-- Claim C2, witness: the amended statement evaluated on the seed
workspace with the missing card id zz. -/
theorem c2_updateCard_missing_witness :
    (updateCard "proj_1" "zz" { title := some "x" } (sampleSeed 0)).projects =
      (sampleSeed 0).projects.map fun p =>
        if p.id = "proj_1" then
          { p with board := { p.board with
              cards := p.board.cards ++ [("zz", mergeCard none { title := some "x" })] } }
        else p :=
  c2_updateCard_missing (sampleSeed 0) "proj_1" "zz" { title := some "x" } (by decide)

/-- Claim C6: createProject yields N+1 projects, prepends the new project
at the head, and the new project's board has exactly the three canonical
columns todo, inprogress, done, each with empty cardIds, and an empty
cards map. -/
theorem c6_createProject (ws : Workspace) (newId : String) :
    (createProject newId ws).projects.length = ws.projects.length + 1 ∧
    (createProject newId ws).projects = newProject newId :: ws.projects ∧
    (newProject newId).board.columns =
      [ { id := "todo", title := "To Do", cardIds := [] }
      , { id := "inprogress", title := "In Progress", cardIds := [] }
      , { id := "done", title := "Done", cardIds := [] } ] ∧
    (newProject newId).board.cards = [] := by
  refine ⟨by simp [createProject], rfl, rfl, rfl⟩

/-- Claim C9: addCard on an existing project with a columnId matching no
column of its board leaves every column unchanged but still records the
generated card under its id in the cards map — an orphaned entry, not a
full no-op. -/
theorem c9_addCard_orphan (ws : Workspace) (pid colId cid : String) (card : CardFields)
    (p : Project) (hp : p ∈ ws.projects) (hpid : p.id = pid)
    (hnocol : ∀ c ∈ p.board.columns, c.id ≠ colId)
    (hfresh : ∀ c ∈ p.board.columns, cid ∉ c.cardIds) :
    ∃ p' ∈ (addCard pid colId cid card ws).projects,
      p'.board.columns = p.board.columns ∧
      getKey p'.board.cards cid = some (mkCardObj cid card) ∧
      ∀ c ∈ p'.board.columns, cid ∉ c.cardIds := by
  refine ⟨{ p with board := addCardBoard colId cid card p.board }, ?_, ?_, ?_, ?_⟩
  · exact List.mem_map.mpr ⟨p, hp, by rw [if_pos hpid]⟩
  · show addToColumns colId cid p.board.columns = p.board.columns
    exact addToColumns_eq_self _ _ _ hnocol
  · show getKey (setKey p.board.cards cid (mkCardObj cid card)) cid = _
    rw [getKey_setKey_self]
  · intro c hc
    have hc' : c ∈ addToColumns colId cid p.board.columns := hc
    rw [addToColumns_eq_self _ _ _ hnocol] at hc'
    exact hfresh c hc'

/-- Claim C9, witness: adding to the nonexistent column nope of the seed
project orphans the new card c9. -/
theorem c9_addCard_orphan_witness :
    ∃ p' ∈ (addCard "proj_1" "nope" "c9" ⟨"T", "B", none, 2⟩ (sampleSeed 0)).projects,
      p'.board.columns = seedProject.board.columns ∧
      getKey p'.board.cards "c9" = some (mkCardObj "c9" ⟨"T", "B", none, 2⟩) ∧
      ∀ c ∈ p'.board.columns, "c9" ∉ c.cardIds :=
  c9_addCard_orphan (sampleSeed 0) "proj_1" "nope" "c9" ⟨"T", "B", none, 2⟩
    seedProject (by decide) (by decide) (by decide) (by decide)

/-- Claim C10, counterexample: in a workspace whose todo column holds x
while x is not a key of the cards map, moveCard with from = to = todo on
x does remove it, but x does not remain a key of the cards map, contrary
to the claim's conclusion. -/
theorem c10_counterexample :
    (∀ p ∈ wsOrphan.projects,
      p.id = "p" ∧ ∃ c ∈ p.board.columns, c.id = "todo" ∧ "x" ∈ c.cardIds) ∧
    ¬ (∀ p' ∈ (moveCard "p" "todo" "todo" "x" 0 wsOrphan).projects,
        (getKey p'.board.cards "x").isSome = true) := by
  constructor <;> decide

/-- Claim C10 (amended): if cardId is a key of the matching project's
cards map and no column other than the one matching colId contains it,
then moveCard with fromColumnId = toColumnId = colId removes cardId from
every column without reinserting it, while it remains a key of the cards
map. -/
theorem c10_move_same_column (ws : Workspace) (pid colId cid : String) (i : Int)
    (hkey : ∀ p ∈ ws.projects, p.id = pid → (getKey p.board.cards cid).isSome = true)
    (honly : ∀ p ∈ ws.projects, p.id = pid →
      ∀ c ∈ p.board.columns, c.id ≠ colId → cid ∉ c.cardIds) :
    ∀ p' ∈ (moveCard pid colId colId cid i ws).projects, p'.id = pid →
      (getKey p'.board.cards cid).isSome = true ∧
      ∀ c ∈ p'.board.columns, cid ∉ c.cardIds := by
  intro p' hp'
  obtain ⟨p, hp, rfl⟩ := List.mem_map.mp hp'
  by_cases he : p.id = pid
  · rw [if_pos he]
    intro _
    constructor
    · exact hkey p hp he
    · intro c hc
      have hc' : c ∈ moveInColumns colId colId cid i p.board.columns := hc
      obtain ⟨c0, hc0, rfl⟩ := List.mem_map.mp hc'
      by_cases h0 : c0.id = colId
      · rw [if_pos h0]
        intro hmem
        have := List.mem_filter.mp hmem
        simp at this
      · rw [if_neg h0, if_neg h0]
        exact honly p hp he c0 hc0 h0
  · rw [if_neg he]
    intro hid
    exact absurd hid he

/-- Claim C7, counterexample: when c1 sits in the todo column but also in
the done column, the double move does not restore column membership: the
done column loses c1 (the second move's filter removes every occurrence
from done). -/
theorem c7_counterexample :
    (∀ p ∈ wsDup.projects, ∃ c ∈ p.board.columns, c.id = "todo" ∧ "c1" ∈ c.cardIds) ∧
    ¬ SameMembership wsDup
        (moveCard "p" "done" "todo" "c1" 0 (moveCard "p" "todo" "done" "c1" 0 wsDup)) := by
  refine ⟨by decide, ?_⟩
  unfold SameMembership
  decide

/-- Claim C7 (amended): if in every matching project each todo column
contains c1 and each done column does not, then moving c1 from todo to
done and back restores the column membership of every card (per-column
set of ids), though not necessarily c1's original index within todo. -/
theorem c7_move_roundtrip (ws : Workspace) (pid : String)
    (h : ∀ p ∈ ws.projects, p.id = pid → ∀ c ∈ p.board.columns,
      (c.id = "todo" → "c1" ∈ c.cardIds) ∧ (c.id = "done" → "c1" ∉ c.cardIds)) :
    SameMembership ws
      (moveCard pid "done" "todo" "c1" 0 (moveCard pid "todo" "done" "c1" 0 ws)) := by
  unfold SameMembership moveCard
  simp only [List.map_map, List.length_map]
  refine ⟨by trivial, ?_⟩
  rw [zip_map_self]
  intro pq hpq
  obtain ⟨p, hp, rfl⟩ := List.mem_map.mp hpq
  simp only [Function.comp]
  by_cases he : p.id = pid
  · rw [if_pos he]
    have hid : ({ p with board := moveCardBoard "todo" "done" "c1" 0 p.board } : Project).id
        = p.id := rfl
    rw [if_pos (hid.trans he)]
    refine ⟨by trivial, ?_, ?_⟩
    · show p.board.columns.length =
        (moveInColumns "done" "todo" "c1" 0
          (moveInColumns "todo" "done" "c1" 0 p.board.columns)).length
      simp [moveInColumns]
    · show ∀ cc ∈ List.zip p.board.columns
        (moveInColumns "done" "todo" "c1" 0
          (moveInColumns "todo" "done" "c1" 0 p.board.columns)), _
      unfold moveInColumns
      rw [List.map_map, zip_map_self]
      intro cc hcc
      obtain ⟨c, hc, rfl⟩ := List.mem_map.mp hcc
      simp only [Function.comp]
      obtain ⟨ht, hd⟩ := h p hp he c hc
      by_cases hct : c.id = "todo"
      · rw [if_pos hct]
        have h1 : ({ c with cardIds := c.cardIds.filter (fun i => i ≠ "c1") } : Column).id
            = c.id := rfl
        rw [if_neg (by rw [h1, hct]; decide), if_pos (h1.trans hct)]
        refine ⟨rfl, ?_, ?_⟩
        · intro x hx
          show x ∈ spliceInsert (c.cardIds.filter (fun i => i ≠ "c1")) 0 "c1"
          rw [spliceInsert_zero]
          exact (mem_cons_filter _ _ _ (ht hct)).mpr hx
        · intro x hx
          have hx' : x ∈ spliceInsert (c.cardIds.filter (fun i => i ≠ "c1")) 0 "c1" := hx
          rw [spliceInsert_zero] at hx'
          exact (mem_cons_filter _ _ _ (ht hct)).mp hx'
      · rw [if_neg hct]
        by_cases hcd : c.id = "done"
        · rw [if_pos hcd]
          have h1 : ({ c with cardIds := spliceInsert c.cardIds 0 "c1" } : Column).id
              = c.id := rfl
          rw [if_pos (h1.trans hcd)]
          have hrw : (spliceInsert c.cardIds 0 "c1").filter (fun i => i ≠ "c1")
              = c.cardIds := by
            rw [spliceInsert_zero, List.filter_cons, if_neg (by decide)]
            exact filter_ne_eq_self _ _ (hd hcd)
          refine ⟨rfl, ?_, ?_⟩
          · intro x hx
            show x ∈ (spliceInsert c.cardIds 0 "c1").filter (fun i => i ≠ "c1")
            rw [hrw]
            exact hx
          · intro x hx
            have hx' : x ∈ (spliceInsert c.cardIds 0 "c1").filter (fun i => i ≠ "c1") := hx
            rw [hrw] at hx'
            exact hx'
        · rw [if_neg hcd, if_neg hcd, if_neg hct]
          exact ⟨rfl, fun x hx => hx, fun x hx => hx⟩
  · rw [if_neg he, if_neg he]
    refine ⟨rfl, rfl, ?_⟩
    rw [zip_self]
    intro cc hcc
    obtain ⟨c, hc, rfl⟩ := List.mem_map.mp hcc
    exact ⟨rfl, fun x hx => hx, fun x hx => hx⟩

/-- Claim C7, witness: the double move on the seed workspace preserves
every column's membership. -/
theorem c7_move_roundtrip_witness :
    SameMembership (sampleSeed 0)
      (moveCard "proj_1" "done" "todo" "c1" 0
        (moveCard "proj_1" "todo" "done" "c1" 0 (sampleSeed 0))) :=
  c7_move_roundtrip (sampleSeed 0) "proj_1" (by decide)

/-- Claim C5, counterexample: a line with leading whitespace before the
hash is NOT converted to a heading — the heading regexes anchor at the
line start with no whitespace allowance, so the claim's "after optional
leading whitespace" fails. -/
theorem c5_counterexample :
    renderMarkdown "  # H1" = "<div class=\"prose max-w-none\"><p>  # H1</p></div>" ∧
    containsSub "<h1".data (renderMarkdown "  # H1").data = false ∧
    containsSub "<h2".data (renderMarkdown "  # H1").data = false ∧
    containsSub "<h3".data (renderMarkdown "  # H1").data = false := by
  refine ⟨rfl, rfl, rfl, rfl⟩

/-- Claim C5 (amended): the renderer replaces every line beginning
exactly with hashes-then-space (no leading whitespace) with the heading
of the matching level, the more specific patterns applied first; in
particular rendering a level-1 line then a level-2 line yields an h1
element followed by an h2 element. -/
theorem c5_headings (t : List Char) :
    headings t = joinLines ((splitLines t).map headingLine) ∧
    renderMarkdown "# H1\n## H2" =
      "<div class=\"prose max-w-none\"><p><h1 class=\"text-2xl font-extrabold\">H1</h1>\n<h2 class=\"text-xl font-bold\">H2</h2></p></div>" :=
  ⟨headings_eq_per_line t, rfl⟩

/-- Claim C10, witness: after moving c1 from todo to todo in the seed
workspace, in the resulting first project c1 is still a key of the cards
map and no longer a member of the first (todo) column. -/
theorem c10_move_same_column_witness :
    (getKey ((moveCard "proj_1" "todo" "todo" "c1" 0 (sampleSeed 0)).projects.headD
      (newProject "p")).board.cards "c1").isSome = true ∧
    "c1" ∉ (((moveCard "proj_1" "todo" "todo" "c1" 0 (sampleSeed 0)).projects.headD
      (newProject "p")).board.columns.headD
        { id := "z", title := "z", cardIds := [] }).cardIds := by
  have h := c10_move_same_column (sampleSeed 0) "proj_1" "todo" "c1" 0
    (by decide) (by decide)
  have h2 := h ((moveCard "proj_1" "todo" "todo" "c1" 0 (sampleSeed 0)).projects.headD
    (newProject "p")) (by decide) (by decide)
  exact ⟨h2.1, h2.2 _ (by decide)⟩

/-- Claim C4: for a workspace with at least one project, exporting to the
pretty-printed JSON text and importing that text succeeds, the accepted
value is exactly the serialized workspace object, and that object decodes
back to the original workspace: import(export(ws)) recovers ws. -/
theorem c4_round_trip (ws : Workspace) (_h : ws.projects ≠ []) :
    importJSON (exportJSON ws) = .ok (wsToJson ws) ∧
    jsonToWs (wsToJson ws) = some ws := by
  constructor
  · unfold importJSON exportJSON
    rw [parseJson_print (wsToJson ws)]
    rfl
  · exact jsonToWs_round ws

/-- Claim C4 witness: the round trip at the seed workspace. -/
theorem c4_round_trip_witness :
    (sampleSeed 0).projects ≠ [] ∧
    (importJSON (exportJSON (sampleSeed 0)) = .ok (wsToJson (sampleSeed 0)) ∧
      jsonToWs (wsToJson (sampleSeed 0)) = some (sampleSeed 0)) :=
  ⟨by decide, c4_round_trip (sampleSeed 0) (by decide)⟩

/-- Claim C8: import succeeds exactly when the text parses as JSON and the
parsed value has a truthy projects property; if parsing fails the error is
the parse alert, if the projects check fails the error is the invalid-file
alert, and on any error the state update leaves the current state
unchanged. -/
theorem c8_import (s : String) (cur : Json) :
    (∀ v, importJSON s = .ok v →
      parseJson s = some v ∧ ∃ f, jsProp v "projects" = some f ∧ truthy f = true) ∧
    (parseJson s = none →
      importJSON s = .error "Could not parse JSON" ∧ applyImport cur s = cur) ∧
    (∀ v, parseJson s = some v →
      (∀ f, jsProp v "projects" = some f → truthy f = false) →
      importJSON s = .error "Invalid file" ∧ applyImport cur s = cur) ∧
    (∀ e, importJSON s = .error e → applyImport cur s = cur) := by
  refine ⟨?_, ?_, ?_, ?_⟩
  · intro v hv
    unfold importJSON at hv
    cases hp : parseJson s with
    | none =>
      rw [hp] at hv
      exact Except.noConfusion
        (show Except.error "Could not parse JSON" = Except.ok v from hv)
    | some v0 =>
      rw [hp] at hv
      have hv2 : (if truthy v0 &&
          (match jsProp v0 "projects" with | some f => truthy f | none => false) then
            Except.ok v0 else Except.error "Invalid file") = Except.ok v := hv
      by_cases hc : (truthy v0 &&
          (match jsProp v0 "projects" with | some f => truthy f | none => false)) = true
      · rw [if_pos hc] at hv2
        injection hv2 with he
        subst he
        refine ⟨rfl, ?_⟩
        have hm : (match jsProp v0 "projects" with
            | some f => truthy f | none => false) = true := by
          rw [Bool.and_eq_true] at hc
          exact hc.2
        cases hj : jsProp v0 "projects" with
        | none =>
          rw [hj] at hm
          exact Bool.noConfusion (show false = true from hm)
        | some f0 =>
          rw [hj] at hm
          exact ⟨f0, rfl, hm⟩
      · rw [if_neg hc] at hv2
        exact Except.noConfusion hv2
  · intro hp
    constructor
    · unfold importJSON
      rw [hp]
    · unfold applyImport importJSON
      rw [hp]
  · intro v hp hf
    have hc : (truthy v &&
        (match jsProp v "projects" with | some f => truthy f | none => false)) = false := by
      cases hj : jsProp v "projects" with
      | none =>
        exact Bool.and_false (truthy v)
      | some f0 =>
        show (truthy v && truthy f0) = false
        rw [hf f0 hj, Bool.and_false]
    have hneg : ¬((truthy v &&
        (match jsProp v "projects" with | some f => truthy f | none => false)) = true) := by
      rw [hc]
      decide
    constructor
    · unfold importJSON
      rw [hp]
      show (if truthy v &&
          (match jsProp v "projects" with | some f => truthy f | none => false) then
            Except.ok v else Except.error "Invalid file") = Except.error "Invalid file"
      rw [if_neg hneg]
    · unfold applyImport importJSON
      rw [hp]
      show (match (if truthy v &&
          (match jsProp v "projects" with | some f => truthy f | none => false) then
            Except.ok v else Except.error "Invalid file") with
        | .ok v2 => v2
        | .error _ => cur) = cur
      rw [if_neg hneg]
  · intro e he
    unfold applyImport
    rw [he]

/-- Claim C8 witness: a non-JSON input yields the parse alert and leaves
the state unchanged, instantiated through the claim theorem. -/
theorem c8_import_witness :
    importJSON "xyz" = .error "Could not parse JSON" ∧
    applyImport Json.null "xyz" = Json.null :=
  (c8_import "xyz" Json.null).2.1 (by rfl)

/-- Claim C3: the renderer escapes the HTML metacharacters first: for
nonempty input the output is exactly the fixed pipeline applied to the
escaped text, and the escaped text contains no angle bracket at all.  As
a consequence every literal opening angle bracket of the output sits in
renderer-generated markup (it is followed by a tag initial, an s always
continued by t), so no output of the renderer contains a literal script
tag; rendering a script tag yields only entities, and rendering markdown
bold yields the text wrapped in a strong element. -/
theorem c3_escape_first (md : String) :
    (md ≠ "" → renderMarkdown md = String.mk (afterEscape (escapeHtml md.data))) ∧
    (∀ x ∈ escapeHtml md.data, x ≠ '<' ∧ x ≠ '>') ∧
    angleOk (renderMarkdown md).data = true ∧
    containsSub "<script".data (renderMarkdown md).data = false ∧
    renderMarkdown "<script>" =
      "<div class=\"prose max-w-none\"><p>&lt;script&gt;</p></div>" ∧
    renderMarkdown "**bold**" =
      "<div class=\"prose max-w-none\"><p><strong>bold</strong></p></div>" := by
  refine ⟨?_, escapeHtml_no_angles md.data, renderMarkdown_ok md,
    angleOk_no_script _ (renderMarkdown_ok md), ?_, ?_⟩
  · intro hmd
    unfold renderMarkdown
    rw [if_neg hmd]
  · rfl
  · rfl

/-- Claim C3 witness: the escape-first factorization at a concrete
nonempty input, obtained from the claim theorem. -/
theorem c3_escape_first_witness :
    renderMarkdown "<script>" = String.mk (afterEscape (escapeHtml "<script>".data)) :=
  (c3_escape_first "<script>").1 (by decide)

end ProTasker

